import Mathlib

/-!
# A shallow embedding of the NFS file-system engine (`src/filemgr2.c`)

The disk image is a finite sequence of bytes; every C function of the engine is
a Lean function over that image.  C `int`s are `Int`s, wrapped to 32 bits
wherever the C expression can overflow.  A function that writes the disk returns
its C return value together with the image it leaves behind.
-/

namespace NFS

/-! ## Constants and records of `ufs.h` -/

/-- Modelled from the spec: `ufs.h` is not among the sources.  The block size is
the one the spec quotes ("e.g. 4096 bytes"). -/
abbrev UFS_BLOCK_SIZE : Int := 4096

/-- Modelled from the spec: `ufs.h` is not among the sources; the header of this
file system has thirty direct pointers per inode (the spec only names the
constant). -/
abbrev DIRECT_PTRS : Nat := 30

/-- Modelled from the spec: the type tag of a directory in `ufs.h`. -/
abbrev UFS_DIRECTORY : Int := 0

/-- Modelled from the spec: the type tag of a regular file in `ufs.h`. -/
abbrev UFS_REGULAR_FILE : Int := 1

/-- Modelled from the spec: `sizeof(inode_t)`, two `int`s and `DIRECT_PTRS`
four-byte block numbers. -/
abbrev SIZEOF_INODE : Nat := 128

/-- Modelled from the spec: `sizeof(dir_ent_t)`, a 28-byte name (the width
`MFS_Unlink` clears with `memset(name, 0, 28)`) and a four-byte inode number. -/
abbrev SIZEOF_DIRENT : Nat := 32

/-- Entries per directory block, `UFS_BLOCK_SIZE / sizeof(dir_ent_t)`. -/
def ENTRIES_PER_BLOCK : Nat := 128

/-- The layout descriptor `super_t`, with the fields `print_superblock` prints. -/
structure super_t where
  inode_bitmap_addr : Int
  inode_bitmap_len : Int
  data_bitmap_addr : Int
  data_bitmap_len : Int
  inode_region_addr : Int
  inode_region_len : Int
  data_region_addr : Int
  data_region_len : Int
  num_inodes : Int
  num_data : Int

/-- An inode record held in memory: `type`, `size` and the `DIRECT_PTRS` direct
slots (read as signed 32-bit values, so that the absent slot is `-1`). -/
structure inode_t where
  type : Int
  size : Int
  direct : List Int
deriving DecidableEq

/-! ## Machine integers -/

/-- The value an `int` holds after a 32-bit two-complement wrap. -/
def wrap32 (x : Int) : Int :=
  if 2147483648 ≤ x % 4294967296 then x % 4294967296 - 4294967296 else x % 4294967296

/-- Conversion of an `int` to `unsigned long` (`size_t`), as C does when an `int`
meets a `sizeof` in one expression. -/
def toU64 (x : Int) : Int := x % 18446744073709551616

/-- Byte `k` (0 the lowest) of the little-endian 32-bit image of `v`. -/
def le32_byte (v : Int) (k : Nat) : Nat := ((v % 4294967296) / (256 : Int) ^ k % 256).toNat

/-- The signed 32-bit integer stored little-endian at index `p` of a buffer. -/
def rd32 (buf : Nat → Nat) (p : Nat) : Int :=
  wrap32 (((buf p + 256 * buf (p + 1) + 65536 * buf (p + 2) + 16777216 * buf (p + 3) : Nat) : Int))

/-- The buffer after a 32-bit integer is stored little-endian at index `p`. -/
def wr32 (buf : Nat → Nat) (p : Nat) (v : Int) : Nat → Nat :=
  fun k => if p ≤ k ∧ k < p + 4 then le32_byte v (k - p) else buf k

/-! ## The disk image and positioned I/O -/

/-- The open disk image: its length in bytes and its content. -/
structure Disk where
  size : Nat
  byte : Nat → Fin 256

/-- The byte a `char` or `unsigned char` keeps of a value. -/
def toByte (n : Nat) : Fin 256 := ⟨n % 256, Nat.mod_lt _ (by decide)⟩

/-- Positioned read `pread(fs_fd, buf, n, off)`: `some buf` when all `n` bytes
were read (what every caller requires), `none` for a failed or short read.
Index `k < n` of the buffer is byte `off + k` of the image; the C array ends
there, and the model has zero at every index beyond. -/
def pread (d : Disk) (n : Nat) (off : Int) : Option (Nat → Nat) :=
  if 0 ≤ off ∧ off.toNat + n ≤ d.size then
    some (fun k => if k < n then (d.byte (off.toNat + k)).val else 0)
  else none

/-- Positioned write `pwrite(fs_fd, buf, n, off)`: `some` of the new image when
all `n` bytes were written, `none` when the offset is negative.  A write past the
end extends the image, the gap reading as zero. -/
def pwrite (d : Disk) (buf : Nat → Nat) (n : Nat) (off : Int) : Option Disk :=
  if 0 ≤ off then
    some { size := max d.size (off.toNat + n)
           byte := fun a =>
             if off.toNat ≤ a ∧ a < off.toNat + n then toByte (buf (a - off.toNat))
             else if d.size ≤ a ∧ a < off.toNat then 0 else d.byte a }
  else none

/-- C `read_block`: `some buf` when `pread` returned `UFS_BLOCK_SIZE`. -/
def read_block (d : Disk) (block_num : Int) : Option (Nat → Nat) :=
  pread d 4096 (wrap32 (block_num * UFS_BLOCK_SIZE))

/-- C `write_block`: `some` of the new image when `pwrite` returned
`UFS_BLOCK_SIZE`. -/
def write_block (d : Disk) (block_num : Int) (buf : Nat → Nat) : Option Disk :=
  pwrite d buf 4096 (wrap32 (block_num * UFS_BLOCK_SIZE))

/-! ## Inode manager -/

/-- The byte offset of inode `inum`, as `MFS_Lookup`, `MFS_Stat`, `get_inode` and
`put_inode` all compute it: `inode_block * UFS_BLOCK_SIZE + inode_offset` with
`inode_block = inode_region_addr + inum / (UFS_BLOCK_SIZE / sizeof(inode_t))` and
`inode_offset = (inum % (UFS_BLOCK_SIZE / sizeof(inode_t))) * sizeof(inode_t)`,
the division and remainder being taken in `size_t`. -/
def inode_addr (sb : super_t) (inum : Int) : Int :=
  let inode_block := wrap32 (sb.inode_region_addr + toU64 inum / 32)
  let inode_offset := wrap32 ((toU64 inum % 32) * 128)
  wrap32 (wrap32 (inode_block * UFS_BLOCK_SIZE) + inode_offset)

/-- The inode record laid out in a 128-byte buffer. -/
def decode_inode (buf : Nat → Nat) : inode_t :=
  { type := rd32 buf 0
    size := rd32 buf 4
    direct := (List.range DIRECT_PTRS).map (fun k => rd32 buf (8 + 4 * k)) }

/-- The 128 bytes of an inode record. -/
def encode_inode (ino : inode_t) : Nat → Nat :=
  fun k =>
    if k < 4 then le32_byte ino.type k
    else if k < 8 then le32_byte ino.size (k - 4)
    else le32_byte (ino.direct.getD ((k - 8) / 4) 0) ((k - 8) % 4)

/-- The `pread` of `sizeof(inode_t)` bytes at the offset of inode `inum`, read as
an inode record: what `get_inode`, `MFS_Lookup` and `MFS_Stat` do once the number
is accepted.  `none` when the read fails. -/
def read_inode (sb : super_t) (d : Disk) (inum : Int) : Option inode_t :=
  (pread d SIZEOF_INODE (inode_addr sb inum)).map decode_inode

/-- C `get_inode`: `none` stands for the return value `-1`. -/
def get_inode (sb : super_t) (d : Disk) (inum : Int) : Option inode_t :=
  if inum < 0 ∨ inum ≥ sb.num_inodes then none
  else read_inode sb d inum

/-- C `put_inode`: the return value and the image afterwards. -/
def put_inode (sb : super_t) (d : Disk) (inum : Int) (ino : inode_t) : Int × Disk :=
  if inum < 0 ∨ inum ≥ sb.num_inodes then (-1, d)
  else
    match pwrite d (encode_inode ino) SIZEOF_INODE (inode_addr sb inum) with
    | none => (-1, d)
    | some d1 => (0, d1)

/-! ## Bitmap allocator -/

/-- The value of `1 << bit_index`.  A negative count is undefined in C; the model
takes the count modulo 32, as the x86 shift instruction does. -/
def shl1 (bit_index : Int) : Nat := 2 ^ (bit_index % 32).toNat

/-- C `set_bitmap`. -/
def set_bitmap (d : Disk) (bitmap_start bitmap_len index value : Int) : Int × Disk :=
  let byte_index := Int.tdiv index 8
  let bit_index := Int.tmod index 8
  if byte_index ≥ wrap32 (bitmap_len * UFS_BLOCK_SIZE) then (-1, d)
  else
    let block := wrap32 (bitmap_start + Int.tdiv byte_index UFS_BLOCK_SIZE)
    let offset := Int.tmod byte_index UFS_BLOCK_SIZE
    let pos := wrap32 (wrap32 (block * UFS_BLOCK_SIZE) + offset)
    match pread d 1 pos with
    | none => (-1, d)
    | some buf =>
      let byte := buf 0
      let byte1 :=
        if value ≠ 0 then (byte ||| shl1 bit_index) % 256
        else (byte &&& (4294967295 - shl1 bit_index)) % 256
      match pwrite d (fun _ => byte1) 1 pos with
      | none => (-1, d)
      | some d1 => (0, d1)

/-- The loop of `find_free_bit`, from bit `i` on with the staged `byte`; `n` bounds
the iterations left (`num_bits - i` suffices). -/
def find_free_bit_loop (d : Disk) (bitmap_start num_bits : Int) : Nat → Int → Nat → Int
  | 0, _, _ => -1
  | n + 1, i, byte =>
    if i < num_bits then
      let byte_index := i / 8
      let bit_index := i % 8
      let staged :=
        if byte_index % UFS_BLOCK_SIZE = 0 then
          (pread d 1 (wrap32 (wrap32 (bitmap_start + byte_index / UFS_BLOCK_SIZE)
            * UFS_BLOCK_SIZE))).map (fun buf => buf 0)
        else some byte
      match staged with
      | none => -1
      | some b =>
        if b &&& shl1 bit_index = 0 then i
        else find_free_bit_loop d bitmap_start num_bits n (i + 1) b
    else -1

/-- C `find_free_bit`.  The local `byte` is uninitialised at entry; iteration 0
always stages it before it is tested. -/
def find_free_bit (d : Disk) (bitmap_start _bitmap_len num_bits : Int) : Int :=
  find_free_bit_loop d bitmap_start num_bits num_bits.toNat 0 0

/-- C `allocate_inode`. -/
def allocate_inode (sb : super_t) (d : Disk) : Int × Disk :=
  let inum := find_free_bit d sb.inode_bitmap_addr sb.inode_bitmap_len sb.num_inodes
  if inum = -1 then (-1, d)
  else
    let r := set_bitmap d sb.inode_bitmap_addr sb.inode_bitmap_len inum 1
    if r.1 = -1 then (-1, r.2) else (inum, r.2)

/-- C `allocate_data_block`. -/
def allocate_data_block (sb : super_t) (d : Disk) : Int × Disk :=
  let block_num := find_free_bit d sb.data_bitmap_addr sb.data_bitmap_len sb.num_data
  if block_num = -1 then (-1, d)
  else
    let r := set_bitmap d sb.data_bitmap_addr sb.data_bitmap_len block_num 1
    if r.1 = -1 then (-1, r.2) else (wrap32 (sb.data_region_addr + block_num), r.2)

/-- C `free_data_block`. -/
def free_data_block (sb : super_t) (d : Disk) (block_num : Int) : Int × Disk :=
  let rel_block_num := wrap32 (block_num - sb.data_region_addr)
  set_bitmap d sb.data_bitmap_addr sb.data_bitmap_len rel_block_num 0

/-- C `free_inode`. -/
def free_inode (sb : super_t) (d : Disk) (inum : Int) : Int × Disk :=
  set_bitmap d sb.inode_bitmap_addr sb.inode_bitmap_len inum 0

/-! ## Directory codec -/

/-- The `inum` field of entry `j` of a directory block held in a buffer. -/
def ent_inum (entries : Nat → Nat) (j : Nat) : Int := rd32 entries (SIZEOF_DIRENT * j + 28)

/-- Whether `strcmp(buf + p, name) == 0`: the bytes from `p` on spell `name`
followed by a NUL.  `name` lists the characters of a C string, without its NUL. -/
def strcmp_eq (buf : Nat → Nat) : Nat → List Nat → Bool
  | p, [] => buf p == 0
  | p, c :: cs => buf p == c && strcmp_eq buf (p + 1) cs

/-- The buffer after `strcpy(buf + p, name)`: the characters and the closing NUL. -/
def strcpy (buf : Nat → Nat) (p : Nat) (name : List Nat) : Nat → Nat :=
  fun k =>
    if p ≤ k ∧ k < p + name.length then name.getD (k - p) 0
    else if k = p + name.length then 0
    else buf k

/-- The buffer after `memset(buf + p, 0, n)`. -/
def memset0 (buf : Nat → Nat) (p n : Nat) : Nat → Nat :=
  fun k => if p ≤ k ∧ k < p + n then 0 else buf k

/-- The search loop `for (j = start; j < start + n; j++) if (p j) ...`: the first
index at which the test holds. -/
def first_index (p : Nat → Bool) : Nat → Nat → Option Nat
  | 0, _ => none
  | n + 1, j => if p j then some j else first_index p n (j + 1)

/-- The test of the inner loop of `MFS_Lookup` and of `MFS_Unlink`:
`entries[j].inum != -1 && strcmp(entries[j].name, name) == 0`. -/
def entry_matches (entries : Nat → Nat) (name : List Nat) (j : Nat) : Bool :=
  ent_inum entries j != -1 && strcmp_eq entries (SIZEOF_DIRENT * j) name

/-- The block loop of `MFS_Lookup` over the direct slots still to visit. -/
def lookup_blocks (d : Disk) (name : List Nat) : List Int → Int
  | [] => -1
  | b :: rest =>
    if b = -1 then -1
    else
      match read_block d b with
      | none => -1
      | some dir_entries =>
        match first_index (entry_matches dir_entries name) ENTRIES_PER_BLOCK 0 with
        | some j => ent_inum dir_entries j
        | none => lookup_blocks d name rest

/-- C `MFS_Lookup`. -/
def MFS_Lookup (sb : super_t) (d : Disk) (pinum : Int) (name : List Nat) : Int :=
  match read_inode sb d pinum with
  | none => -2
  | some parent_inode =>
    if parent_inode.type ≠ UFS_DIRECTORY then -3
    else lookup_blocks d name parent_inode.direct

/-- The record `MFS_Stat` fills. -/
structure MFS_Stat_t where
  type : Int
  size : Int
deriving DecidableEq

/-- C `MFS_Stat`: the return value and the record `m` afterwards. -/
def MFS_Stat (sb : super_t) (d : Disk) (inum : Int) (m : MFS_Stat_t) : Int × MFS_Stat_t :=
  if inum < 0 ∨ inum ≥ sb.num_inodes then (-1, m)
  else
    match read_inode sb d inum with
    | none => (-1, m)
    | some inode => (0, { type := inode.type, size := inode.size })

/-! ## File data path -/

/-- The loop of `MFS_Read`: the return value (`bytes_read`, or `-1` from inside
the loop) and the bytes copied to `buffer[0 .. bytes_read)`.  The first argument
bounds the iterations left; every iteration copies at least one byte. -/
def read_loop (d : Disk) (inode : inode_t) (offset bytes_to_read : Int) :
    Nat → Int → List Nat → Int × List Nat
  | 0, bytes_read, out => (bytes_read, out)
  | n + 1, bytes_read, out =>
    if bytes_read < bytes_to_read then
      let block_index := (offset + bytes_read) / UFS_BLOCK_SIZE
      let block_offset := (offset + bytes_read) % UFS_BLOCK_SIZE
      if block_index ≥ DIRECT_PTRS then (bytes_read, out)
      else
        let data_block := inode.direct.getD block_index.toNat 0
        if data_block = -1 then (bytes_read, out)
        else
          match read_block d data_block with
          | none => (-1, out)
          | some block_buffer =>
            let bytes_to_copy :=
              if UFS_BLOCK_SIZE - block_offset > bytes_to_read - bytes_read
              then bytes_to_read - bytes_read else UFS_BLOCK_SIZE - block_offset
            read_loop d inode offset bytes_to_read n (bytes_read + bytes_to_copy)
              (out ++ (List.range bytes_to_copy.toNat).map
                (fun k => block_buffer (block_offset.toNat + k)))
    else (bytes_read, out)

/-- C `MFS_Read`: the return value and the bytes it stored at the start of
`buffer`. -/
def MFS_Read (sb : super_t) (d : Disk) (inum offset nbytes : Int) : Int × List Nat :=
  if inum < 0 ∨ offset < 0 ∨ nbytes < 0 then (-1, [])
  else
    match get_inode sb d inum with
    | none => (-1, [])
    | some inode =>
      if offset ≥ inode.size then (0, [])
      else
        let bytes_to_read :=
          if wrap32 (offset + nbytes) > inode.size then inode.size - offset else nbytes
        read_loop d inode offset bytes_to_read bytes_to_read.toNat 0 []

/-- The loop of `MFS_Write`.  `Except.error (r, d)` is a `return r` from inside
the loop, leaving image `d`; `Except.ok (d, inode, bytes_written)` is the state in
which the loop is left for the code after it.  The first argument bounds the
iterations left; every iteration copies at least one byte. -/
def write_loop (sb : super_t) (buffer : List Nat) (offset nbytes : Int) :
    Nat → Disk → inode_t → Int → Except (Int × Disk) (Disk × inode_t × Int)
  | 0, d, inode, bytes_written => .ok (d, inode, bytes_written)
  | n + 1, d, inode, bytes_written =>
    if bytes_written < nbytes then
      let block_index := (offset + bytes_written) / UFS_BLOCK_SIZE
      let block_offset := (offset + bytes_written) % UFS_BLOCK_SIZE
      if block_index ≥ DIRECT_PTRS then .ok (d, inode, bytes_written)
      else
        let alloc : Option (Disk × inode_t) :=
          if inode.direct.getD block_index.toNat 0 = -1 then
            let r := allocate_data_block sb d
            if r.1 = -1 then none
            else some (r.2, { inode with direct := inode.direct.set block_index.toNat r.1 })
          else some (d, inode)
        match alloc with
        | none => .error (bytes_written, (allocate_data_block sb d).2)
        | some (d1, inode1) =>
          match read_block d1 (inode1.direct.getD block_index.toNat 0) with
          | none => .error (-1, d1)
          | some block_buffer =>
            let bytes_to_copy :=
              if UFS_BLOCK_SIZE - block_offset > nbytes - bytes_written
              then nbytes - bytes_written else UFS_BLOCK_SIZE - block_offset
            let block_buffer1 : Nat → Nat := fun k =>
              if block_offset.toNat ≤ k ∧ k < block_offset.toNat + bytes_to_copy.toNat
              then buffer.getD (bytes_written.toNat + (k - block_offset.toNat)) 0
              else block_buffer k
            match write_block d1 (inode1.direct.getD block_index.toNat 0) block_buffer1 with
            | none => .error (-1, d1)
            | some d2 =>
              write_loop sb buffer offset nbytes n d2 inode1 (bytes_written + bytes_to_copy)
    else .ok (d, inode, bytes_written)

/-- C `MFS_Write`: the return value and the image afterwards. -/
def MFS_Write (sb : super_t) (d : Disk) (inum : Int) (buffer : List Nat)
    (offset nbytes : Int) : Int × Disk :=
  if inum < 0 ∨ offset < 0 ∨ nbytes < 0 then (-1, d)
  else
    match get_inode sb d inum with
    | none => (-1, d)
    | some inode =>
      if inode.type ≠ UFS_REGULAR_FILE then (-1, d)
      else
        match write_loop sb buffer offset nbytes nbytes.toNat d inode 0 with
        | .error r => r
        | .ok (d1, inode1, bytes_written) =>
          let inode2 : inode_t :=
            if offset + bytes_written > inode1.size
            then { inode1 with size := offset + bytes_written } else inode1
          let r := put_inode sb d1 inum inode2
          if r.1 ≠ 0 then (-1, r.2) else (bytes_written, r.2)

/-! ## Creation -/

/-- The array `dir_ent_t entries[2]` of `MFS_Creat` as `write_block` reads it.
The array is uninitialised and `write_block` copies `UFS_BLOCK_SIZE` bytes from
its address, sixty-four of which belong to it: `junk` is what that memory holds
before the two `strcpy` and the two `inum` assignments. -/
def bootstrap_entries (junk : Nat → Nat) (new_inum pinum : Int) : Nat → Nat :=
  let e0 := wr32 (strcpy junk 0 [46]) 28 new_inum
  wr32 (strcpy e0 32 [46, 46]) 60 pinum

/-- The loop of `MFS_Creat` that adds the entry to the parent directory, over the
direct slots still to visit. -/
def creat_insert (sb : super_t) (d : Disk) (pinum : Int) (parent_inode : inode_t)
    (name : List Nat) (new_inum : Int) : List Int → Int × Disk
  | [] => (-1, d)
  | b :: rest =>
    if b = -1 then creat_insert sb d pinum parent_inode name new_inum rest
    else
      match read_block d b with
      | none => (-1, d)
      | some entries =>
        match first_index (fun j => ent_inum entries j == -1) ENTRIES_PER_BLOCK 0 with
        | some j =>
          let entries1 := wr32 (strcpy entries (SIZEOF_DIRENT * j) name)
            (SIZEOF_DIRENT * j + 28) new_inum
          match write_block d b entries1 with
          | none => (-1, d)
          | some d1 =>
            let r := put_inode sb d1 pinum
              { parent_inode with size := wrap32 (parent_inode.size + 32) }
            (if r.1 = 0 then 0 else -1, r.2)
        | none => creat_insert sb d pinum parent_inode name new_inum rest

/-- The part of `MFS_Creat` that, for a directory, allocates the first block and
writes the `.` and `..` entries.  `Except.error` is a `return` from inside it;
`Except.ok` carries the image and the new inode on to `put_inode`. -/
def creat_bootstrap (sb : super_t) (d : Disk) (junk : Nat → Nat) (pinum type new_inum : Int)
    (new_inode : inode_t) : Except (Int × Disk) (Disk × inode_t) :=
  if type = UFS_DIRECTORY then
    let a := allocate_data_block sb d
    if a.1 = -1 then
      .error (-5, (set_bitmap a.2 sb.inode_bitmap_addr sb.inode_bitmap_len new_inum 0).2)
    else
      match write_block a.2 a.1 (bootstrap_entries junk new_inum pinum) with
      | none =>
        let d1 := (set_bitmap a.2 sb.inode_bitmap_addr sb.inode_bitmap_len new_inum 0).2
        .error (-6, (free_data_block sb d1 a.1).2)
      | some d1 => .ok (d1, { new_inode with direct := new_inode.direct.set 0 a.1 })
  else .ok (d, new_inode)

/-- C `MFS_Creat`: the return value and the image afterwards.  `junk` is the
content of the uninitialised memory `write_block` copies for a new directory. -/
def MFS_Creat (sb : super_t) (d : Disk) (junk : Nat → Nat) (pinum type : Int)
    (name : List Nat) : Int × Disk :=
  if pinum < 0 ∨ (type ≠ UFS_REGULAR_FILE ∧ type ≠ UFS_DIRECTORY) ∨ name.length > 27 then (-1, d)
  else
    match get_inode sb d pinum with
    | none => (-2, d)
    | some parent_inode =>
      if parent_inode.type ≠ UFS_DIRECTORY then (-2, d)
      else if MFS_Lookup sb d pinum name ≥ 0 then (0, d)
      else
        let a := allocate_inode sb d
        if a.1 = -1 then (-3, a.2)
        else
          let new_inum := a.1
          let new_inode : inode_t :=
            { type := type
              size := if type = UFS_DIRECTORY then 64 else 0
              direct := List.replicate DIRECT_PTRS (-1) }
          match creat_bootstrap sb a.2 junk pinum type new_inum new_inode with
          | .error r => r
          | .ok (d1, new_inode1) =>
            let p := put_inode sb d1 new_inum new_inode1
            if p.1 ≠ 0 then
              let d2 := (set_bitmap p.2 sb.inode_bitmap_addr sb.inode_bitmap_len new_inum 0).2
              if type = UFS_DIRECTORY then
                (-7, (free_data_block sb d2 (new_inode1.direct.getD 0 0)).2)
              else (-7, d2)
            else creat_insert sb p.2 pinum parent_inode name new_inum parent_inode.direct

/-! ## Deletion -/

/-- The loop `for (k = 0; k < DIRECT_PTRS && direct[k] != -1; k++)` that frees
data blocks, in `remove_directory_contents` and in `MFS_Unlink`: `0` when every
call of `free_data_block` succeeded, `-1` at the first that failed. -/
def free_blocks (sb : super_t) : Disk → List Int → Int × Disk
  | d, [] => (0, d)
  | d, b :: rest =>
    if b = -1 then (0, d)
    else
      let r := free_data_block sb d b
      if r.1 ≠ 0 then (-1, r.2) else free_blocks sb r.2 rest

/-- The entry loop of `remove_directory_contents` over one block, from entry `j`
on (`n` entries left).  `recurse` is the recursive call.  The result `0` means
the loop ran to its end; any other value is returned by the function.  `none`
means the recursion did not return. -/
def rdc_entries (sb : super_t) (recurse : Disk → Int → Option (Int × Disk))
    (entries : Nat → Nat) : Nat → Nat → Disk → Option (Int × Disk)
  | 0, _, d => some (0, d)
  | n + 1, j, d =>
    if ent_inum entries j ≠ -1 ∧ strcmp_eq entries (SIZEOF_DIRENT * j) [46] = false
        ∧ strcmp_eq entries (SIZEOF_DIRENT * j) [46, 46] = false then
      match get_inode sb d (ent_inum entries j) with
      | none => some (-7, d)
      | some child_inode =>
        let sub : Option (Int × Disk) :=
          if child_inode.type = UFS_DIRECTORY then recurse d (ent_inum entries j)
          else some (0, d)
        match sub with
        | none => none
        | some (r1, d1) =>
          if r1 ≠ 0 then some (-1, d1)
          else
            let r2 := free_blocks sb d1 child_inode.direct
            if r2.1 ≠ 0 then some (-1, r2.2)
            else
              let r3 := free_inode sb r2.2 (ent_inum entries j)
              if r3.1 ≠ 0 then some (-1, r3.2)
              else rdc_entries sb recurse entries n (j + 1) r3.2
    else rdc_entries sb recurse entries n (j + 1) d

/-- The block loop of `remove_directory_contents` over the direct slots still to
visit. -/
def rdc_blocks (sb : super_t) (recurse : Disk → Int → Option (Int × Disk)) :
    List Int → Disk → Option (Int × Disk)
  | [], d => some (0, d)
  | b :: rest, d =>
    if b = -1 then some (0, d)
    else
      match read_block d b with
      | none => some (-8, d)
      | some entries =>
        match rdc_entries sb recurse entries ENTRIES_PER_BLOCK 0 d with
        | none => none
        | some (r, d1) => if r ≠ 0 then some (r, d1) else rdc_blocks sb recurse rest d1

/-- The body of `remove_directory_contents`, the recursive call abstracted. -/
def rdc_body (sb : super_t) (recurse : Disk → Int → Option (Int × Disk)) (d : Disk)
    (inum : Int) : Option (Int × Disk) :=
  match get_inode sb d inum with
  | none => some (-9, d)
  | some inode => rdc_blocks sb recurse inode.direct d

/-- C `remove_directory_contents`.  The C recursion is as deep as the directory
tree, without bound on a cyclic one; `depth` is the nesting the call may use and
`none` the outcome of a call that needs more. -/
def remove_directory_contents (sb : super_t) : Nat → Disk → Int → Option (Int × Disk)
  | 0, d, inum => rdc_body sb (fun _ _ => none) d inum
  | depth + 1, d, inum => rdc_body sb (remove_directory_contents sb depth) d inum

/-- The loop of `MFS_Unlink` that finds the entry to remove, over the direct
slots still to visit (`i` the index of the first of them).  `none` is the
`return -4`; `some none` leaves `target_inum` at `-1`; `some (some (t, i, j))` is
`target_inum`, `target_block` and `target_entry`. -/
def unlink_find (d : Disk) (name : List Nat) : List Int → Nat → Option (Option (Int × Nat × Nat))
  | [], _ => some none
  | b :: rest, i =>
    if b = -1 then some none
    else
      match read_block d b with
      | none => none
      | some entries =>
        match first_index (entry_matches entries name) ENTRIES_PER_BLOCK 0 with
        | some j => some (some (ent_inum entries j, i, j))
        | none => unlink_find d name rest (i + 1)

/-- The end of `MFS_Unlink`, once the target's content is removed: free its data
blocks and its inode, mark its entry free in the parent and store the parent. -/
def unlink_remove (sb : super_t) (d : Disk) (pinum : Int) (parent_inode target_inode : inode_t)
    (target_inum : Int) (target_block target_entry : Nat) : Int × Disk :=
  let f := free_blocks sb d target_inode.direct
  if f.1 ≠ 0 then (-1, f.2)
  else
    let g := free_inode sb f.2 target_inum
    if g.1 ≠ 0 then (-1, g.2)
    else
      match read_block g.2 (parent_inode.direct.getD target_block 0) with
      | none => (-1, g.2)
      | some entries =>
        let entries1 := memset0 (wr32 entries (SIZEOF_DIRENT * target_entry + 28) (-1))
          (SIZEOF_DIRENT * target_entry) 28
        match write_block g.2 (parent_inode.direct.getD target_block 0) entries1 with
        | none => (-1, g.2)
        | some d1 =>
          let p := put_inode sb d1 pinum
            { parent_inode with size := wrap32 (parent_inode.size - 32) }
          if p.1 ≠ 0 then (-1, p.2) else (0, p.2)

/-- C `MFS_Unlink`: the return value and the image afterwards; `depth` and `none`
as for `remove_directory_contents`. -/
def MFS_Unlink (sb : super_t) (depth : Nat) (d : Disk) (pinum : Int) (name : List Nat) :
    Option (Int × Disk) :=
  if pinum < 0 ∨ name.length > 27 then some (-2, d)
  else
    match get_inode sb d pinum with
    | none => some (-3, d)
    | some parent_inode =>
      if parent_inode.type ≠ UFS_DIRECTORY then some (-3, d)
      else
        match unlink_find d name parent_inode.direct 0 with
        | none => some (-4, d)
        | some none => some (0, d)
        | some (some (target_inum, target_block, target_entry)) =>
          match get_inode sb d target_inum with
          | none => some (-5, d)
          | some target_inode =>
            if target_inode.type = UFS_DIRECTORY then
              if toU64 target_inode.size > 64 then some (-1, d)
              else
                match remove_directory_contents sb depth d target_inum with
                | none => none
                | some (r, d1) =>
                  if r ≠ 0 then some (-1, d1)
                  else some (unlink_remove sb d1 pinum parent_inode target_inode target_inum
                    target_block target_entry)
            else some (unlink_remove sb d pinum parent_inode target_inode target_inum
              target_block target_entry)

/-! ## Notions the properties are stated with -/

/-- The direct slots a directory scan visits: those before the first equal to
`-1`, in index order. -/
def scanned_blocks (ino : inode_t) : List Int :=
  ino.direct.takeWhile (fun b => decide (b ≠ -1))

/-- The entry slots of one directory block in slot order, each paired with the
content of its block; none when the block cannot be read. -/
def block_entries (d : Disk) (b : Int) : List ((Nat → Nat) × Nat) :=
  match read_block d b with
  | some entries => (List.range ENTRIES_PER_BLOCK).map (fun j => (entries, j))
  | none => []

/-- The entry slots of a directory in scan order: block by block, slot by slot. -/
def scanned_entries (d : Disk) (ino : inode_t) : List ((Nat → Nat) × Nat) :=
  (scanned_blocks ino).flatMap (block_entries d)

/-- An entry slot is live (its `inum` is not `-1`) and its name, read as a C
string, is `name`. -/
def live_named (name : List Nat) (e : (Nat → Nat) × Nat) : Bool :=
  ent_inum e.1 e.2 != -1 && strcmp_eq e.1 (SIZEOF_DIRENT * e.2) name

/-- Bit `i` of the bitmap that starts at block `bitmap_start`: bit `i % 8` of byte
`i / 8` counted from the start of that block. -/
def bitmap_bit (d : Disk) (bitmap_start : Int) (i : Nat) : Bool :=
  (d.byte ((bitmap_start * UFS_BLOCK_SIZE).toNat + i / 8)).val.testBit (i % 8)

/-- The layout the spec requires of a superblock: the regions in the order inode
bitmap, data bitmap, inode region, data region, none overlapping another; the
image shorter than `2^31` bytes (block numbers below `2^19`), so that every byte
offset fits an `int`; every inode inside the inode region and every data block
inside the data region; a bit in each bitmap for every inode and data block. -/
def layout_ok (sb : super_t) : Prop :=
  0 ≤ sb.inode_bitmap_addr ∧ 0 ≤ sb.inode_bitmap_len ∧
  sb.inode_bitmap_addr + sb.inode_bitmap_len ≤ sb.data_bitmap_addr ∧
  0 ≤ sb.data_bitmap_len ∧
  sb.data_bitmap_addr + sb.data_bitmap_len ≤ sb.inode_region_addr ∧
  0 ≤ sb.inode_region_len ∧
  sb.inode_region_addr + sb.inode_region_len ≤ sb.data_region_addr ∧
  0 ≤ sb.data_region_len ∧
  sb.data_region_addr + sb.data_region_len ≤ 524287 ∧
  0 ≤ sb.num_inodes ∧ sb.num_inodes ≤ 32 * sb.inode_region_len ∧
  sb.num_inodes ≤ 32768 * sb.inode_bitmap_len ∧
  0 ≤ sb.num_data ∧ sb.num_data ≤ sb.data_region_len ∧
  sb.num_data ≤ 32768 * sb.data_bitmap_len

instance (sb : super_t) : Decidable (layout_ok sb) := by
  unfold layout_ok
  infer_instance

/-- Image `d1` has the length of `d` and the same bytes from offset `lo` on. -/
def same_from (lo : Int) (d d1 : Disk) : Prop :=
  d1.size = d.size ∧ ∀ a : Nat, lo ≤ (a : Int) → d1.byte a = d.byte a

/-- Entry slot `j` of the `i`-th scanned block of a directory is live and named
`name` (false when that block cannot be read). -/
def live_at (d : Disk) (ino : inode_t) (name : List Nat) (i j : Nat) : Bool :=
  match read_block d ((scanned_blocks ino).getD i (-1)) with
  | some entries => entry_matches entries name j
  | none => false

/-- The entry slots of the scanned blocks of a directory, as pairs (index of the
block among the scanned ones, slot in the block). -/
def scanned_slots (ino : inode_t) : List (Nat × Nat) :=
  (List.range (scanned_blocks ino).length).flatMap
    (fun i => (List.range ENTRIES_PER_BLOCK).map (fun j => (i, j)))

/-- At most one live entry of the scanned blocks of a directory is named `name`. -/
def name_unique (d : Disk) (ino : inode_t) (name : List Nat) : Prop :=
  ∀ p1 ∈ scanned_slots ino, ∀ p2 ∈ scanned_slots ino,
    live_at d ino name p1.1 p1.2 = true → live_at d ino name p2.1 p2.2 = true → p1 = p2

instance (d : Disk) (ino : inode_t) (name : List Nat) : Decidable (name_unique d ino name) := by
  unfold name_unique
  infer_instance

/-- Every scanned block of a directory is a block of the data region. -/
def blocks_in_data_region (sb : super_t) (ino : inode_t) : Prop :=
  ∀ b ∈ scanned_blocks ino, sb.data_region_addr ≤ b ∧ b < sb.data_region_addr + sb.data_region_len

instance (sb : super_t) (ino : inode_t) : Decidable (blocks_in_data_region sb ino) := by
  unfold blocks_in_data_region
  infer_instance

/-- Every scanned block of a directory has its data-bitmap bit set. -/
def blocks_allocated (sb : super_t) (d : Disk) (ino : inode_t) : Prop :=
  ∀ b ∈ scanned_blocks ino,
    bitmap_bit d sb.data_bitmap_addr (b - sb.data_region_addr).toNat = true

instance (sb : super_t) (d : Disk) (ino : inode_t) : Decidable (blocks_allocated sb d ino) := by
  unfold blocks_allocated
  infer_instance

/-- A value an `int` can hold. -/
def int32 (x : Int) : Prop := -2147483648 ≤ x ∧ x < 2147483648

/-- An in-memory inode record as C can hold it: `int` fields and exactly
`DIRECT_PTRS` direct slots. -/
def inode_ok (ino : inode_t) : Prop :=
  int32 ino.type ∧ int32 ino.size ∧ ino.direct.length = DIRECT_PTRS ∧ ∀ x ∈ ino.direct, int32 x

/-! ## Concrete images -/

/-- A layout with one block per bitmap, one block of inodes (32 inodes) and 32
data blocks: superblock in block 0, inode bitmap in block 1, data bitmap in
block 2, inodes in block 3, data from block 4. -/
def demo_sb : super_t :=
  { inode_bitmap_addr := 1, inode_bitmap_len := 1, data_bitmap_addr := 2, data_bitmap_len := 1,
    inode_region_addr := 3, inode_region_len := 1, data_region_addr := 4, data_region_len := 32,
    num_inodes := 32, num_data := 32 }

/-- An empty file system on `demo_sb`: inode 0 is the root directory, of size 64,
whose only block, block 4, holds `.` and `..` (both inode 0) and 126 free
entries; inode bit 0 and data bit 0 are set. -/
def fresh_image : Disk :=
  { size := 147456
    byte := fun a =>
      if a = 4096 then 1 else if a = 8192 then 1
      else if a = 12292 then 64 else if a = 12296 then 4
      else if 12300 ≤ a ∧ a < 12416 then 255
      else if a = 16384 then 46 else if a = 16416 then 46 else if a = 16417 then 46
      else if 16448 ≤ a ∧ a < 20480 ∧ 28 ≤ a % 32 then 255
      else 0 }

/-- Stack memory in which every directory-entry slot reads as free: the `inum`
bytes are `0xFF`, the name bytes zero. -/
def free_junk : Nat → Nat := fun k => if 28 ≤ k % 32 then 255 else 0

/-- Stack memory that is all zero bytes. -/
def zero_junk : Nat → Nat := fun _ => 0

/-- The empty image with inodes 0 to 7 marked allocated: the first byte of the
inode bitmap is `0xFF`, every other byte of it zero. -/
def eight_inodes_image : Disk :=
  { size := 147456
    byte := fun a => if a = 4096 then 255 else fresh_image.byte a }

/-- The empty image after `MFS_Creat(0, UFS_REGULAR_FILE, "f")` and
`MFS_Write(1, "x", 4096, 1)`: file `f` is inode 1, its only data block sits in
direct slot 1 and slot 0 is absent. -/
def sparse_file_image : Disk :=
  (MFS_Write demo_sb (MFS_Creat demo_sb fresh_image free_junk 0 UFS_REGULAR_FILE [102]).2
    1 [120] 4096 1).2

/-- The empty image after `MFS_Creat(0, UFS_DIRECTORY, "d")`, the stack memory
under `entries` being all zero. -/
def zero_junk_dir_image : Disk :=
  (MFS_Creat demo_sb fresh_image zero_junk 0 UFS_DIRECTORY [100]).2

/-- The empty image after `MFS_Creat(0, UFS_DIRECTORY, "d")`, every slot beyond
`.` and `..` of the new block reading as free. -/
def one_dir_image : Disk :=
  (MFS_Creat demo_sb fresh_image free_junk 0 UFS_DIRECTORY [100]).2

/-- Image `one_dir_image` after `MFS_Creat(1, UFS_REGULAR_FILE, "f")`: directory `d`
(inode 1) holds the file `f` (inode 2). -/
def dir_with_file_image : Disk :=
  (MFS_Creat demo_sb one_dir_image free_junk 1 UFS_REGULAR_FILE [102]).2

/-- Image `dir_with_file_image` after `MFS_Unlink(1, "f")`. -/
def file_unlinked_image : Disk :=
  ((MFS_Unlink demo_sb 0 dir_with_file_image 1 [102]).map Prod.snd).getD dir_with_file_image

/-- An image whose root directory holds two live entries named `a`, for the
regular files of inodes 1 and 2 (both empty): entry slots 2 and 3 of block 4. -/
def dup_name_image : Disk :=
  { size := 147456
    byte := fun a =>
      if a = 4096 then 7
      else if a = 12292 then 128
      else if a = 12416 then 1 else if a = 12544 then 1
      else if 12424 ≤ a ∧ a < 12544 then 255
      else if 12552 ≤ a ∧ a < 12672 then 255
      else if a = 16448 then 97 else if a = 16476 then 1
      else if 16477 ≤ a ∧ a < 16480 then 0
      else if a = 16480 then 97 else if a = 16508 then 2
      else if 16509 ≤ a ∧ a < 16512 then 0
      else fresh_image.byte a }

/-- Image `one_dir_image` after `MFS_Unlink(1, ".")`, the directory removing itself. -/
def self_unlinked_image : Disk :=
  ((MFS_Unlink demo_sb 0 one_dir_image 1 [46]).map Prod.snd).getD one_dir_image

/-- Image `self_unlinked_image` after `MFS_Creat(0, UFS_REGULAR_FILE, "f")`. -/
def reused_inode_image : Disk :=
  (MFS_Creat demo_sb self_unlinked_image free_junk 0 UFS_REGULAR_FILE [102]).2

end NFS

namespace NFS

/-! ## Well-formed files -/

/-- The present direct slots of a file (those not `-1`) name pairwise different
of the `num_data` blocks of the data region, each marked in the data bitmap. -/
def file_blocks_ok (sb : super_t) (d : Disk) (ino : inode_t) : Prop :=
  ∀ i, i < DIRECT_PTRS → ino.direct.getD i 0 ≠ -1 →
    sb.data_region_addr ≤ ino.direct.getD i 0 ∧
    ino.direct.getD i 0 < sb.data_region_addr + sb.num_data ∧
    bitmap_bit d sb.data_bitmap_addr (ino.direct.getD i 0 - sb.data_region_addr).toNat = true ∧
    ∀ j, j < DIRECT_PTRS → j ≠ i → ino.direct.getD j 0 ≠ ino.direct.getD i 0

instance (sb : super_t) (d : Disk) (ino : inode_t) : Decidable (file_blocks_ok sb d ino) := by
  unfold file_blocks_ok
  infer_instance

/-- The first `n` bytes of `B` stand in the image at the file offsets from `O`
on, each in a present direct slot of `ino`. -/
def stored (d : Disk) (ino : inode_t) (B : List Nat) (O n : Int) : Prop :=
  ∀ k : Nat, (k : Int) < n →
    ino.direct.getD ((O + k) / 4096).toNat 0 ≠ -1 ∧
    (d.byte (ino.direct.getD ((O + k) / 4096).toNat 0 * 4096 + (O + k) % 4096).toNat).val
      = B.getD k 0

/-- What the loop of `MFS_Write` keeps true of its state `(d, ino, bytes_written)`
when started on image `d0` with inode `ino0`. -/
def write_inv (sb : super_t) (d0 : Disk) (ino0 : inode_t) (B : List Nat) (O : Int)
    (d : Disk) (ino : inode_t) (bytes_written : Int) : Prop :=
  0 ≤ bytes_written ∧ bytes_written ≤ B.length ∧
  ino.type = ino0.type ∧ ino.size = ino0.size ∧ inode_ok ino ∧
  file_blocks_ok sb d ino ∧ d.size = d0.size ∧
  (∀ i, i < DIRECT_PTRS → ino0.direct.getD i 0 ≠ -1 →
    ino.direct.getD i 0 = ino0.direct.getD i 0) ∧
  stored d ino B O bytes_written

/-! ## More concrete images -/

/-- The layout of `demo_sb` with a data region of one block. -/
def one_block_sb : super_t :=
  { demo_sb with data_region_len := 1, num_data := 1 }

/-- The empty image after `MFS_Creat(0, UFS_REGULAR_FILE, "f")`: file `f` is
inode 1, of size 0 and without a block. -/
def one_file_image : Disk :=
  (MFS_Creat demo_sb fresh_image free_junk 0 UFS_REGULAR_FILE [102]).2

/-- The empty image after `MFS_Creat(0, UFS_REGULAR_FILE, "f")` under
`one_block_sb`: the only data block is the one of the root directory. -/
def full_disk_image : Disk :=
  (MFS_Creat one_block_sb fresh_image free_junk 0 UFS_REGULAR_FILE [102]).2

end NFS

namespace NFS

/-! ## The write path -/

/-- Whether `MFS_Write`, given this image and these arguments, leaves its loop for
the code after it, which stores the inode, rather than by a `return` from inside
the loop. -/
def write_loop_completes (sb : super_t) (d : Disk) (inum : Int) (buffer : List Nat)
    (offset nbytes : Int) : Bool :=
  match get_inode sb d inum with
  | none => false
  | some inode =>
    match write_loop sb buffer offset nbytes nbytes.toNat d inode 0 with
    | .ok _ => true
    | .error _ => false

/-- Every file byte at a position outside `[O, O + n)` that lies in a block
present in `ino0` is in image `d` what it is in image `d0`. -/
def kept (d0 d : Disk) (ino0 : inode_t) (O n : Int) : Prop :=
  ∀ q : Nat, (q : Int) < 122880 → ino0.direct.getD (q / 4096) 0 ≠ -1 →
    ((q : Int) < O ∨ O + n ≤ (q : Int)) →
    d.byte (ino0.direct.getD (q / 4096) 0 * 4096 + ((q % 4096 : Nat) : Int)).toNat
      = d0.byte (ino0.direct.getD (q / 4096) 0 * 4096 + ((q % 4096 : Nat) : Int)).toNat

/-! ## Directory size accounting -/

/-- The number of live entries (`inum != -1`) of the directory block `b`; 0 when
the block cannot be read. -/
def block_live (d : Disk) (b : Int) : Nat :=
  match read_block d b with
  | some entries =>
    ((List.range ENTRIES_PER_BLOCK).filter (fun j => ent_inum entries j != -1)).length
  | none => 0

/-- The number of live entries of a directory: those of the blocks in its present
direct slots. -/
def live_entries (d : Disk) (ino : inode_t) : Nat :=
  ((List.range DIRECT_PTRS).map (fun i =>
    if ino.direct.getD i 0 = -1 then 0 else block_live d (ino.direct.getD i 0))).sum

/-! ## Images for the directory and file-size properties -/

/-- A layout with 128 inodes (four blocks of inodes from block 3) and 32 data
blocks from block 7; one block per bitmap. -/
def wide_sb : super_t :=
  { inode_bitmap_addr := 1, inode_bitmap_len := 1, data_bitmap_addr := 2, data_bitmap_len := 1,
    inode_region_addr := 3, inode_region_len := 4, data_region_addr := 7, data_region_len := 32,
    num_inodes := 128, num_data := 32 }

/-- An image on `wide_sb` whose root directory is full in its only block: block 7
holds `.`, `..` and 126 live entries, entry `j` named by the two letters
`'a' + j / 16`, `'a' + j % 16` and naming inode `j`, an empty regular file.  The
root has size 4096 and its direct slots 1 to 29 are `-1`.  Inode 1 is free (its
bit is the only clear one of the first 128) and data block 7 is the only one
allocated. -/
def full_dir_image : Disk :=
  { size := 159744
    byte := fun a =>
      if a = 4096 then 253 else if 4097 ≤ a ∧ a < 4112 then 255
      else if a = 8192 then 1
      else if 12288 ≤ a ∧ a < 12416 then
        (if a = 12293 then 16 else if a = 12296 then 7 else if 12300 ≤ a then 255 else 0)
      else if 12544 ≤ a ∧ a < 28672 then
        (if (a - 12288) % 128 = 0 then 1 else if 8 ≤ (a - 12288) % 128 then 255 else 0)
      else if a = 28672 then 46 else if a = 28704 then 46 else if a = 28705 then 46
      else if 28736 ≤ a ∧ a < 32768 then
        (if (a - 28672) % 32 = 0 then toByte (97 + (a - 28672) / 32 / 16)
        else if (a - 28672) % 32 = 1 then toByte (97 + (a - 28672) / 32 % 16)
        else if (a - 28672) % 32 = 28 then toByte ((a - 28672) / 32)
        else 0)
      else 0 }

/-- The image `one_file_image` after `MFS_Write(1, "hello", 0, 5)`: the file of
inode 1 has size 5 and one block, in direct slot 0. -/
def hello_file_image : Disk :=
  (MFS_Write demo_sb one_file_image 1 [104, 101, 108, 108, 111] 0 5).2

/-- The layout of `demo_sb` with a data region of two blocks. -/
def two_block_sb : super_t :=
  { demo_sb with data_region_len := 2, num_data := 2 }

/-- The empty image after `MFS_Creat(0, UFS_REGULAR_FILE, "f")` under
`two_block_sb`: one data block is held by the root directory, one is free. -/
def one_free_block_image : Disk :=
  (MFS_Creat two_block_sb fresh_image free_junk 0 UFS_REGULAR_FILE [102]).2

end NFS

namespace NFS

/-! ## Mount -/

/-- Modelled from the spec: `sizeof(super_t)`, the ten `int` fields that
`print_superblock` prints (`ufs.h` is not among the sources). -/
abbrev SIZEOF_SUPER : Nat := 40

/-- The layout descriptor laid out in a buffer: the ten fields in the order in
which `print_superblock` prints them, four bytes each. -/
def decode_super (buf : Nat → Nat) : super_t :=
  { inode_bitmap_addr := rd32 buf 0
    inode_bitmap_len := rd32 buf 4
    data_bitmap_addr := rd32 buf 8
    data_bitmap_len := rd32 buf 12
    inode_region_addr := rd32 buf 16
    inode_region_len := rd32 buf 20
    data_region_addr := rd32 buf 24
    data_region_len := rd32 buf 28
    num_inodes := rd32 buf 32
    num_data := rd32 buf 36 }

/-- The record stored at the start of block 0 of an image, read as a layout
descriptor; `none` when the image is shorter than the record. -/
def stored_superblock (d : Disk) : Option super_t :=
  (pread d SIZEOF_SUPER 0).map decode_super

/-- The file-scope variables of `filemgr2.c` that a mount can set: the descriptor
`fs_fd` and the cached layout descriptor `superblock`. -/
structure Session where
  fs_fd : Int
  superblock : super_t

/-- The file-scope variables of `filemgr2.c` at program start: `fs_fd` is
initialised to `-1`, and `superblock`, a static object without initialiser, is
all zero. -/
def initial_session : Session :=
  { fs_fd := -1
    superblock :=
      { inode_bitmap_addr := 0, inode_bitmap_len := 0, data_bitmap_addr := 0,
        data_bitmap_len := 0, inode_region_addr := 0, inode_region_len := 0,
        data_region_addr := 0, data_region_len := 0, num_inodes := 0, num_data := 0 } }

/-- The value of `open(path, O_RDWR)`: `image` is the file at `path`, `none` when
it cannot be opened.  A successful call yields descriptor 3, the lowest one free
in a process that holds only the three standard streams. -/
def open_rdwr (image : Option Disk) : Int :=
  match image with
  | some _ => 3
  | none => -1

/-- C `MFS_Init` of `filemgr2.c`: the return value and the file-scope variables
afterwards.  The function has a `return` only on the failure path; on success
control reaches the closing brace of a function declared `int`, and `none` stands
for the value the caller then receives, which C leaves undefined. -/
def MFS_Init (s : Session) (image : Option Disk) : Option Int × Session :=
  let fs_fd := open_rdwr image
  if fs_fd < 0 then (some (-1), { s with fs_fd := fs_fd })
  else (none, { s with fs_fd := fs_fd })

namespace filemgr1

/-- The file-scope variables of `filemgr1.c` that a mount sets: the descriptor
`disk_fd` and the layout descriptor `sb`. -/
structure Session where
  disk_fd : Int
  sb : super_t

/-- C `MFS_Init` of `filemgr1.c`: the return value and the file-scope variables
afterwards.  After `open` it reads `sizeof(super_t)` bytes at offset 0 into `sb`;
when that read is short it closes the descriptor and returns `-1` (the model
leaves `sb` as it was on that path). -/
def MFS_Init (s : Session) (image : Option Disk) : Int × Session :=
  let disk_fd := open_rdwr image
  if disk_fd < 0 then (-1, { s with disk_fd := disk_fd })
  else
    match image.bind (fun d => pread d SIZEOF_SUPER 0) with
    | none => (-1, { s with disk_fd := disk_fd })
    | some buf => (0, { disk_fd := disk_fd, sb := decode_super buf })

end filemgr1

/-- The empty file system `fresh_image` with the record of `demo_sb` stored at
the start of block 0, as a formatting tool leaves it. -/
def formatted_image : Disk :=
  { size := 147456
    byte := fun a =>
      if a = 0 then 1 else if a = 4 then 1 else if a = 8 then 2 else if a = 12 then 1
      else if a = 16 then 3 else if a = 20 then 1 else if a = 24 then 4
      else if a = 28 then 32 else if a = 32 then 32 else if a = 36 then 32
      else fresh_image.byte a }

/-! ## Empty directories -/

/-- Entry slot `j` of a directory block is free (`inum` is `-1`) or is named `.`
or `..`. -/
def dot_or_free (entries : Nat → Nat) (j : Nat) : Prop :=
  ent_inum entries j = -1 ∨ strcmp_eq entries (SIZEOF_DIRENT * j) [46] = true
    ∨ strcmp_eq entries (SIZEOF_DIRENT * j) [46, 46] = true

instance (entries : Nat → Nat) (j : Nat) : Decidable (dot_or_free entries j) := by
  unfold dot_or_free
  infer_instance

/-- Whether block `b` can be read and holds nothing but free slots and entries
named `.` or `..`. -/
def only_dots (d : Disk) (b : Int) : Bool :=
  match read_block d b with
  | some entries => decide (∀ j, j < ENTRIES_PER_BLOCK → dot_or_free entries j)
  | none => false

/-- A truly empty directory: every allocated block of the inode (every direct
slot other than `-1`) can be read and holds nothing but free slots and entries
named `.` or `..`. -/
def truly_empty (d : Disk) (ino : inode_t) : Prop :=
  ∀ b ∈ ino.direct, b ≠ -1 → only_dots d b = true

instance (d : Disk) (ino : inode_t) : Decidable (truly_empty d ino) := by
  unfold truly_empty
  infer_instance

/-- One more application of `remove_directory_contents(inum)` to the image a
sequence of applications has left; `none` when one of them did not return. -/
def rdc_again (sb : super_t) (depth : Nat) (inum : Int) (s : Option Disk) : Option Disk :=
  s.bind (fun d => (remove_directory_contents sb depth d inum).map Prod.snd)

end NFS

namespace NFS

/-! ## Images outside the well-formed ones -/

/-- The empty image with the root inode's direct slots changed to
`[100, 4, -1, ...]`: slot 0 names block 100, which lies beyond the end of the
image (36 blocks), slot 1 the block that holds `.` and `..`. -/
def unreadable_block_image : Disk :=
  { size := 147456
    byte := fun a =>
      if a = 12296 then 100
      else if a = 12300 then 4
      else if 12301 ≤ a ∧ a < 12304 then 0
      else fresh_image.byte a }

/-- A file system on `demo_sb` whose root directory (size 96) holds `.`, `..` and
the directory `d`; `d` is inode 2, of size 64, and its block, block 5, holds `.`
(inode 2), `..` (inode 0) and 126 free slots.  Inodes 0 and 2 and blocks 4 and 5
are marked allocated; inode 1 is free. -/
def dir_d_image : Disk :=
  { size := 147456
    byte := fun a =>
      if a = 4096 then 5 else if a = 8192 then 3
      else if a = 12292 then 96
      else if a = 12548 then 64 else if a = 12552 then 5
      else if 12556 ≤ a ∧ a < 12672 then 255
      else if a = 16448 then 100 else if a = 16476 then 2
      else if 16477 ≤ a ∧ a < 16480 then 0
      else if a = 20480 then 46 else if a = 20508 then 2
      else if a = 20512 then 46 else if a = 20513 then 46
      else if 20544 ≤ a ∧ a < 24576 ∧ 28 ≤ a % 32 then 255
      else fresh_image.byte a }

/-- Image `dir_d_image` after `MFS_Unlink(2, ".")`: directory `d` has lost its
`.` entry and its size is 32. -/
def d_without_dot_image : Disk :=
  ((MFS_Unlink demo_sb 0 dir_d_image 2 [46]).map Prod.snd).getD dir_d_image

/-- Image `d_without_dot_image` after `MFS_Creat(2, UFS_REGULAR_FILE, "x")`:
directory `d` holds `..` and the file `x` (inode 1), and its size is 64. -/
def d_with_child_image : Disk :=
  (MFS_Creat demo_sb d_without_dot_image free_junk 2 UFS_REGULAR_FILE [120]).2

/-- Image `d_with_child_image` after `MFS_Unlink(0, "d")`. -/
def d_removed_image : Disk :=
  ((MFS_Unlink demo_sb 0 d_with_child_image 0 [100]).map Prod.snd).getD d_with_child_image

/-- The empty image after `MFS_Unlink(0, ".")`: the root directory holds only
`..`, its size is 32, and inode 0 and block 4 are marked free. -/
def root_unlinked_image : Disk :=
  ((MFS_Unlink demo_sb 0 fresh_image 0 [46]).map Prod.snd).getD fresh_image

/-- Image `root_unlinked_image` after `MFS_Creat(0, UFS_DIRECTORY, "d")`. -/
def root_recreated_image : Disk :=
  (MFS_Creat demo_sb root_unlinked_image free_junk 0 UFS_DIRECTORY [100]).2

/-- An image in which inode 1 is a regular file of size 8192 whose direct slots 0
and 1 both name block 5; the block starts with the bytes `hi`. -/
def aliased_file_image : Disk :=
  { size := 147456
    byte := fun a =>
      if a = 4096 then 3 else if a = 8192 then 3
      else if a = 12416 then 1 else if a = 12421 then 32
      else if a = 12424 then 5 else if a = 12428 then 5
      else if 12432 ≤ a ∧ a < 12544 then 255
      else if a = 20480 then 104 else if a = 20481 then 105
      else fresh_image.byte a }

/-- The empty image with one more entry in the root directory: slot 2 of block 4
is named `a` and its `inum` field holds -2; the root's size is 96. -/
def negative_inum_image : Disk :=
  { size := 147456
    byte := fun a =>
      if a = 12292 then 96
      else if a = 16448 then 97
      else if a = 16476 then 254
      else fresh_image.byte a }

end NFS

namespace NFS

/-! ## Machine integers: basic facts -/

theorem wrap32_eq (x : Int) : wrap32 x = (x + 2147483648) % 4294967296 - 2147483648 := by
  unfold wrap32
  split <;> omega

theorem wrap32_of_range {x : Int} (h1 : -2147483648 ≤ x) (h2 : x < 2147483648) :
    wrap32 x = x := by
  rw [wrap32_eq]; omega

theorem wrap32_range (x : Int) : -2147483648 ≤ wrap32 x ∧ wrap32 x < 2147483648 := by
  rw [wrap32_eq]; omega

theorem wrap32_wrap32 (x : Int) : wrap32 (wrap32 x) = wrap32 x :=
  wrap32_of_range (wrap32_range x).1 (wrap32_range x).2

theorem toByte_val (n : Nat) : (toByte n).val = n % 256 := rfl

theorem toByte_fin (b : Fin 256) : toByte b.val = b := by
  apply Fin.ext
  rw [toByte_val]
  exact Nat.mod_eq_of_lt b.isLt

theorem le32_byte_lt (v : Int) (k : Nat) : le32_byte v k < 256 := by
  unfold le32_byte
  have h := Int.emod_lt_of_pos ((v % 4294967296) / (256 : Int) ^ k) (by decide : (0 : Int) < 256)
  have h0 := Int.emod_nonneg ((v % 4294967296) / (256 : Int) ^ k) (by decide : (256 : Int) ≠ 0)
  omega

theorem le32_sum (v : Int) :
    ((le32_byte v 0 : Nat) : Int) + 256 * (le32_byte v 1 : Nat) + 65536 * (le32_byte v 2 : Nat)
      + 16777216 * (le32_byte v 3 : Nat) = v % 4294967296 := by
  unfold le32_byte
  norm_num
  omega

theorem rd32_of_bytes (buf : Nat → Nat) (p : Nat) (v : Int)
    (h : ∀ k, k < 4 → buf (p + k) = le32_byte v k) : rd32 buf p = wrap32 v := by
  have h0 := h 0 (by decide)
  have h1 := h 1 (by decide)
  have h2 := h 2 (by decide)
  have h3 := h 3 (by decide)
  simp only [Nat.add_zero] at h0
  unfold rd32
  rw [h0, h1, h2, h3]
  have hs := le32_sum v
  rw [wrap32_eq, wrap32_eq]
  push_cast
  omega

theorem rd32_congr (f g : Nat → Nat) (p : Nat) (h : ∀ k, k < 4 → f (p + k) = g (p + k)) :
    rd32 f p = rd32 g p := by
  have h0 := h 0 (by decide)
  have h1 := h 1 (by decide)
  have h2 := h 2 (by decide)
  have h3 := h 3 (by decide)
  simp only [Nat.add_zero] at h0
  unfold rd32
  rw [h0, h1, h2, h3]

theorem rd32_range (buf : Nat → Nat) (p : Nat) :
    -2147483648 ≤ rd32 buf p ∧ rd32 buf p < 2147483648 := wrap32_range _

theorem rd32_wr32_same (buf : Nat → Nat) (p : Nat) (v : Int) :
    rd32 (wr32 buf p v) p = wrap32 v := by
  apply rd32_of_bytes
  intro k hk
  unfold wr32
  rw [if_pos (by omega)]
  congr 1
  omega

theorem rd32_wr32_other (buf : Nat → Nat) (p q : Nat) (v : Int) (h : q + 4 ≤ p ∨ p + 4 ≤ q) :
    rd32 (wr32 buf p v) q = rd32 buf q := by
  apply rd32_congr
  intro k hk
  unfold wr32
  rw [if_neg (by omega)]

/-! ## Positioned I/O: basic facts -/

theorem pread_some {d : Disk} {n : Nat} {off : Int} {buf : Nat → Nat}
    (h : pread d n off = some buf) :
    0 ≤ off ∧ off.toNat + n ≤ d.size ∧
      buf = fun k => if k < n then (d.byte (off.toNat + k)).val else 0 := by
  unfold pread at h
  split at h
  · rename_i hc
    simp only [Option.some.injEq] at h
    exact ⟨hc.1, hc.2, h.symm⟩
  · simp at h

theorem pread_at {d : Disk} {n : Nat} {off : Int} {buf : Nat → Nat}
    (h : pread d n off = some buf) (k : Nat) (hk : k < n) :
    buf k = (d.byte (off.toNat + k)).val := by
  rw [(pread_some h).2.2]
  simp only [hk, if_true]

theorem pread_of_fits (d : Disk) (n : Nat) (off : Int) (h0 : 0 ≤ off)
    (h1 : off.toNat + n ≤ d.size) :
    pread d n off = some (fun k => if k < n then (d.byte (off.toNat + k)).val else 0) := by
  unfold pread
  rw [if_pos ⟨h0, h1⟩]

/-- Reading gives the same result on two images of equal length that agree on
the bytes read. -/
theorem pread_congr {d d1 : Disk} (n : Nat) (off : Int) (hsz : d1.size = d.size)
    (hb : ∀ a : Nat, off.toNat ≤ a → a < off.toNat + n → d1.byte a = d.byte a) :
    pread d1 n off = pread d n off := by
  unfold pread
  rw [hsz]
  split
  · congr 1
    funext k
    by_cases hk : k < n
    · rw [if_pos hk, if_pos hk, hb _ (by omega) (by omega)]
    · rw [if_neg hk, if_neg hk]
  · rfl

theorem pwrite_some {d d1 : Disk} {buf : Nat → Nat} {n : Nat} {off : Int}
    (h : pwrite d buf n off = some d1) :
    0 ≤ off ∧ d1.size = max d.size (off.toNat + n) ∧
      (∀ a, off.toNat ≤ a → a < off.toNat + n → d1.byte a = toByte (buf (a - off.toNat))) ∧
      (∀ a, ¬ (off.toNat ≤ a ∧ a < off.toNat + n) → ¬ (d.size ≤ a ∧ a < off.toNat) →
        d1.byte a = d.byte a) := by
  unfold pwrite at h
  split at h
  · rename_i hc
    simp only [Option.some.injEq] at h
    subst h
    refine ⟨hc, rfl, ?_, ?_⟩
    · intro a h1 h2
      simp only
      rw [if_pos ⟨h1, h2⟩]
    · intro a h1 h2
      simp only
      rw [if_neg h1, if_neg h2]
  · simp at h

/-- A write inside the image changes the bytes written and nothing else. -/
theorem pwrite_inside {d d1 : Disk} {buf : Nat → Nat} {n : Nat} {off : Int}
    (h : pwrite d buf n off = some d1) (hfit : off.toNat + n ≤ d.size) :
    d1.size = d.size ∧
      (∀ a, off.toNat ≤ a → a < off.toNat + n → d1.byte a = toByte (buf (a - off.toNat))) ∧
      (∀ a, ¬ (off.toNat ≤ a ∧ a < off.toNat + n) → d1.byte a = d.byte a) := by
  obtain ⟨_, h2, h3, h4⟩ := pwrite_some h
  refine ⟨by omega, h3, ?_⟩
  intro a ha
  exact h4 a ha (by omega)

theorem pwrite_of_nonneg (d : Disk) (buf : Nat → Nat) (n : Nat) (off : Int) (h0 : 0 ≤ off) :
    ∃ d1, pwrite d buf n off = some d1 := by
  unfold pwrite
  rw [if_pos h0]
  exact ⟨_, rfl⟩

/-- Two images with the same length and the same bytes below it, when the bytes
beyond the length are also the same. -/
theorem Disk.ext_of {d1 d2 : Disk} (hs : d1.size = d2.size) (hb : ∀ a, d1.byte a = d2.byte a) :
    d1 = d2 := by
  obtain ⟨s1, b1⟩ := d1
  obtain ⟨s2, b2⟩ := d2
  simp only at hs hb
  have hf : b1 = b2 := funext hb
  subst hs
  subst hf
  rfl

end NFS

namespace NFS

/-! ## Directory scans -/

theorem first_index_eq_find (p : Nat → Bool) (n j : Nat) :
    first_index p n j = (List.range' j n).find? p := by
  induction n generalizing j with
  | zero => rfl
  | succ n ih =>
    rw [first_index, List.range'_succ, List.find?_cons]
    cases hp : p j
    · simp only [Bool.false_eq_true, if_false]
      exact ih (j + 1)
    · simp only [if_true]

theorem first_index_some {p : Nat → Bool} {n j k : Nat} (h : first_index p n j = some k) :
    j ≤ k ∧ k < j + n ∧ p k = true ∧ ∀ i, j ≤ i → i < k → p i = false := by
  induction n generalizing j with
  | zero => simp [first_index] at h
  | succ n ih =>
    rw [first_index] at h
    cases hp : p j
    · rw [hp] at h
      simp only [Bool.false_eq_true, if_false] at h
      obtain ⟨h1, h2, h3, h4⟩ := ih h
      refine ⟨by omega, by omega, h3, ?_⟩
      intro i hi hik
      by_cases hij : i = j
      · rw [hij]; exact hp
      · exact h4 i (by omega) hik
    · rw [hp] at h
      simp only [if_true, Option.some.injEq] at h
      subst h
      exact ⟨le_refl _, by omega, hp, fun i hi hik => by omega⟩

theorem first_index_none {p : Nat → Bool} {n j : Nat} (h : first_index p n j = none) :
    ∀ i, j ≤ i → i < j + n → p i = false := by
  induction n generalizing j with
  | zero => intro i h1 h2; omega
  | succ n ih =>
    rw [first_index] at h
    cases hp : p j
    · rw [hp] at h
      simp only [Bool.false_eq_true, if_false] at h
      intro i h1 h2
      by_cases hij : i = j
      · rw [hij]; exact hp
      · exact ih h i (by omega) (by omega)
    · rw [hp] at h
      simp at h

theorem first_index_congr {p q : Nat → Bool} {n j : Nat}
    (h : ∀ i, j ≤ i → i < j + n → p i = q i) : first_index p n j = first_index q n j := by
  induction n generalizing j with
  | zero => rfl
  | succ n ih =>
    rw [first_index, first_index, h j (le_refl _) (by omega)]
    rw [ih (fun i h1 h2 => h i (by omega) (by omega))]

theorem entry_matches_eq_live_named (entries : Nat → Nat) (name : List Nat) (j : Nat) :
    entry_matches entries name j = live_named name (entries, j) := rfl

/-- The entry search of one block, as a search of the block's entry list. -/
theorem find_block_entries (d : Disk) (b : Int) (entries : Nat → Nat) (name : List Nat)
    (h : read_block d b = some entries) :
    (block_entries d b).find? (live_named name)
      = (first_index (entry_matches entries name) ENTRIES_PER_BLOCK 0).map
          (fun j => (entries, j)) := by
  unfold block_entries
  simp only [h]
  have hfun : (live_named name ∘ fun j => (entries, j)) = entry_matches entries name :=
    funext (fun _ => rfl)
  rw [List.find?_map, List.range_eq_range', hfun]
  simp only [first_index_eq_find]

/-- The value `MFS_Lookup` returns for a list of entry slots in scan order: the
`inum` of the first live entry with the name, `-1` when there is none. -/
theorem lookup_blocks_eq (d : Disk) (name : List Nat) (l : List Int)
    (hio : ∀ b ∈ l.takeWhile (fun b => decide (b ≠ -1)), (read_block d b).isSome = true) :
    lookup_blocks d name l
      = match ((l.takeWhile (fun b => decide (b ≠ -1))).flatMap (block_entries d)).find?
          (live_named name) with
        | some e => ent_inum e.1 e.2
        | none => -1 := by
  induction l with
  | nil => rfl
  | cons b rest ih =>
    rw [lookup_blocks, List.takeWhile_cons]
    by_cases hb : b = -1
    · simp [hb]
    · rw [if_neg hb]
      have hdec : decide (b ≠ -1) = true := by simp [hb]
      rw [List.takeWhile_cons, hdec] at hio
      simp only [if_true] at hio
      rw [hdec]
      simp only [if_true, List.flatMap_cons, List.find?_append]
      have hrd := hio b (List.mem_cons_self _ _)
      obtain ⟨entries, hentries⟩ := Option.isSome_iff_exists.mp hrd
      simp only [hentries]
      rw [find_block_entries d b entries name hentries]
      cases hfi : first_index (entry_matches entries name) ENTRIES_PER_BLOCK 0 with
      | some j => simp
      | none =>
        simp only [Option.map_none', Option.none_or]
        exact ih (fun b hb => hio b (List.mem_cons_of_mem _ hb))

end NFS

namespace NFS

/-! ## Lookup -/

/-- Claim C5 (amended). `MFS_Lookup` on a directory inode whose scanned blocks can
all be read returns the `inum` of the first entry, in scan order (direct slots up to the first
`-1`, entries in slot order), that is live and whose name is `name`, and it
returns `-1` exactly when those blocks hold no such entry. -/
theorem MFS_Lookup_first_live_match (sb : super_t) (d : Disk) (pinum : Int) (name : List Nat)
    (ino : inode_t) (hino : read_inode sb d pinum = some ino)
    (hdir : ino.type = UFS_DIRECTORY)
    (hio : ∀ b ∈ scanned_blocks ino, (read_block d b).isSome = true) :
    MFS_Lookup sb d pinum name
        = (match (scanned_entries d ino).find? (live_named name) with
          | some e => ent_inum e.1 e.2
          | none => -1)
      ∧ (MFS_Lookup sb d pinum name = -1 ↔
          ∀ e ∈ scanned_entries d ino, live_named name e = false) := by
  have hval : MFS_Lookup sb d pinum name
        = (match (scanned_entries d ino).find? (live_named name) with
          | some e => ent_inum e.1 e.2
          | none => -1) := by
    unfold MFS_Lookup
    simp only [hino]
    rw [if_neg (by simp [hdir])]
    exact lookup_blocks_eq d name ino.direct hio
  refine ⟨hval, ?_⟩
  rw [hval]
  cases hf : (scanned_entries d ino).find? (live_named name) with
  | none =>
    simp only [true_iff]
    intro e he
    have := List.find?_eq_none.mp hf e he
    simpa using this
  | some e =>
    simp only
    have hlive := List.find?_some hf
    have hmem := List.mem_of_find?_eq_some hf
    constructor
    · intro h
      unfold live_named at hlive
      simp [h] at hlive
    · intro h
      rw [h e hmem] at hlive
      exact absurd hlive (by simp)

set_option maxRecDepth 100000 in
/-- Witness of C5: the root directory of the empty image, looked up for `.`. -/
theorem MFS_Lookup_first_live_match_witness :
    MFS_Lookup demo_sb fresh_image 0 [46]
        = (match (scanned_entries fresh_image
              { type := 0, size := 64, direct := 4 :: List.replicate 29 (-1) }).find?
              (live_named [46]) with
          | some e => ent_inum e.1 e.2
          | none => -1)
      ∧ (MFS_Lookup demo_sb fresh_image 0 [46] = -1 ↔
          ∀ e ∈ scanned_entries fresh_image
              { type := 0, size := 64, direct := 4 :: List.replicate 29 (-1) },
            live_named [46] e = false) :=
  MFS_Lookup_first_live_match demo_sb fresh_image 0 [46]
    { type := 0, size := 64, direct := 4 :: List.replicate 29 (-1) }
    (by decide) (by decide) (by decide)

end NFS

namespace NFS

/-! ## The entry search of `MFS_Unlink` -/

/-- Functions `MFS_Lookup` and `MFS_Unlink` search a directory the same way. -/
theorem lookup_blocks_eq_unlink_find (d : Disk) (name : List Nat) (l : List Int) (i : Nat) :
    lookup_blocks d name l
      = match unlink_find d name l i with
        | some (some (t, _, _)) => t
        | _ => -1 := by
  induction l generalizing i with
  | nil => rfl
  | cons b rest ih =>
    rw [lookup_blocks, unlink_find]
    by_cases hb : b = -1
    · simp only [hb, if_true]
    · simp only [hb, if_false]
      cases hrd : read_block d b with
      | none => simp only
      | some entries =>
        simp only
        cases hfi : first_index (entry_matches entries name) ENTRIES_PER_BLOCK 0 with
        | some j => simp only
        | none =>
          simp only
          exact ih (i + 1)

theorem get_inode_some {sb : super_t} {d : Disk} {inum : Int} {ino : inode_t}
    (h : get_inode sb d inum = some ino) :
    0 ≤ inum ∧ inum < sb.num_inodes ∧ read_inode sb d inum = some ino := by
  unfold get_inode at h
  split at h
  · simp at h
  · rename_i hc
    refine ⟨by omega, by omega, h⟩

end NFS

namespace NFS

/-! ## Inode records: store and load -/

theorem decode_inode_ok (buf : Nat → Nat) : inode_ok (decode_inode buf) := by
  refine ⟨rd32_range _ _, rd32_range _ _, by simp [decode_inode], ?_⟩
  intro x hx
  simp only [decode_inode, List.mem_map] at hx
  obtain ⟨k, _, hk⟩ := hx
  rw [← hk]
  exact rd32_range _ _

theorem read_inode_ok {sb : super_t} {d : Disk} {inum : Int} {ino : inode_t}
    (h : read_inode sb d inum = some ino) : inode_ok ino := by
  unfold read_inode at h
  cases hp : pread d SIZEOF_INODE (inode_addr sb inum) with
  | none => simp [hp] at h
  | some buf =>
    simp only [hp, Option.map_some', Option.some.injEq] at h
    rw [← h]
    exact decode_inode_ok buf

theorem get_inode_ok {sb : super_t} {d : Disk} {inum : Int} {ino : inode_t}
    (h : get_inode sb d inum = some ino) : inode_ok ino :=
  read_inode_ok (get_inode_some h).2.2

/-- Decoding the stored bytes of a record gives the record back. -/
theorem decode_encode_inode (ino : inode_t) (hok : inode_ok ino) (buf : Nat → Nat)
    (hbuf : ∀ k, k < 128 → buf k = encode_inode ino k) : decode_inode buf = ino := by
  obtain ⟨ht, hs, hl, hd⟩ := hok
  have htype : rd32 buf 0 = ino.type := by
    rw [rd32_of_bytes buf 0 ino.type, wrap32_of_range ht.1 ht.2]
    intro k hk
    rw [hbuf (0 + k) (by omega)]
    unfold encode_inode
    rw [if_pos (by omega)]
    congr 1
    omega
  have hsize : rd32 buf 4 = ino.size := by
    rw [rd32_of_bytes buf 4 ino.size, wrap32_of_range hs.1 hs.2]
    intro k hk
    rw [hbuf (4 + k) (by omega)]
    unfold encode_inode
    rw [if_neg (by omega), if_pos (by omega)]
    congr 1
    omega
  have hdirect : (List.range DIRECT_PTRS).map (fun k => rd32 buf (8 + 4 * k)) = ino.direct := by
    apply List.ext_getElem
    · simp [hl]
    · intro n h1 h2
      rw [List.getElem_map, List.getElem_range]
      have hn : n < 30 := by simpa using h1
      have hx := hd _ (List.getElem_mem h2)
      rw [rd32_of_bytes buf (8 + 4 * n) ino.direct[n], wrap32_of_range hx.1 hx.2]
      intro k hk
      rw [hbuf (8 + 4 * n + k) (by omega)]
      unfold encode_inode
      rw [if_neg (by omega), if_neg (by omega)]
      have e1 : (8 + 4 * n + k - 8) / 4 = n := by omega
      have e2 : (8 + 4 * n + k - 8) % 4 = k := by omega
      rw [e1, e2, List.getD_eq_getElem _ _ h2]
  unfold decode_inode
  rw [htype, hsize, hdirect]

theorem encode_inode_lt (ino : inode_t) (k : Nat) : encode_inode ino k < 256 := by
  unfold encode_inode
  split
  · exact le32_byte_lt _ _
  · split
    · exact le32_byte_lt _ _
    · exact le32_byte_lt _ _

theorem put_inode_zero {sb : super_t} {d d1 : Disk} {inum : Int} {ino : inode_t}
    (h : put_inode sb d inum ino = (0, d1)) :
    0 ≤ inum ∧ inum < sb.num_inodes ∧
      pwrite d (encode_inode ino) SIZEOF_INODE (inode_addr sb inum) = some d1 := by
  unfold put_inode at h
  split at h
  · simp at h
  · rename_i hc
    cases hp : pwrite d (encode_inode ino) SIZEOF_INODE (inode_addr sb inum) with
    | none => simp [hp] at h
    | some d2 =>
      simp only [hp, Prod.mk.injEq, true_and] at h
      rw [h]
      exact ⟨by omega, by omega, rfl⟩

/-- What `put_inode` stored is what `get_inode` loads. -/
theorem get_inode_put_inode {sb : super_t} {d d1 : Disk} {inum : Int} {ino : inode_t}
    (h : put_inode sb d inum ino = (0, d1)) (hok : inode_ok ino) :
    get_inode sb d1 inum = some ino := by
  obtain ⟨h0, h1, hw⟩ := put_inode_zero h
  obtain ⟨hoff, hsz, hin, _⟩ := pwrite_some hw
  simp only [SIZEOF_INODE] at hsz hin
  unfold get_inode
  rw [if_neg (by omega)]
  unfold read_inode
  simp only [SIZEOF_INODE]
  rw [pread_of_fits d1 128 (inode_addr sb inum) hoff (by omega)]
  show some (decode_inode _) = some ino
  congr 1
  apply decode_encode_inode ino hok
  intro k hk
  show (if k < 128 then (d1.byte ((inode_addr sb inum).toNat + k)).val else 0)
    = encode_inode ino k
  rw [if_pos hk, hin _ (by omega) (by omega), toByte_val]
  have e : (inode_addr sb inum).toNat + k - (inode_addr sb inum).toNat = k := by omega
  rw [e]
  exact Nat.mod_eq_of_lt (encode_inode_lt ino k)

end NFS

namespace NFS

/-! ## Creation: the path that returns 0 -/

theorem put_inode_fst (sb : super_t) (d : Disk) (inum : Int) (ino : inode_t) :
    (put_inode sb d inum ino).1 = 0 ∨ (put_inode sb d inum ino).1 = -1 := by
  unfold put_inode
  split
  · right; rfl
  · split
    · right; rfl
    · left; rfl

/-- When the insertion loop of `MFS_Creat` returns 0, it ended by storing the
parent inode with its size raised by one entry. -/
theorem creat_insert_zero {sb : super_t} {d d1 : Disk} {pinum : Int} {pino : inode_t}
    {name : List Nat} {new_inum : Int} {l : List Int}
    (h : creat_insert sb d pinum pino name new_inum l = (0, d1)) :
    ∃ d0, put_inode sb d0 pinum { pino with size := wrap32 (pino.size + 32) } = (0, d1) := by
  induction l with
  | nil => simp [creat_insert] at h
  | cons b rest ih =>
    rw [creat_insert] at h
    by_cases hb : b = -1
    · simp only [hb, if_true] at h
      exact ih h
    · simp only [hb, if_false] at h
      cases hrd : read_block d b with
      | none => simp [hrd] at h
      | some entries =>
        simp only [hrd] at h
        cases hfi : first_index (fun j => ent_inum entries j == -1) ENTRIES_PER_BLOCK 0 with
        | none =>
          simp only [hfi] at h
          exact ih h
        | some j =>
          simp only [hfi] at h
          cases hw : write_block d b (wr32 (strcpy entries (SIZEOF_DIRENT * j) name)
              (SIZEOF_DIRENT * j + 28) new_inum) with
          | none => simp [hw] at h
          | some d0 =>
            simp only [hw] at h
            refine ⟨d0, ?_⟩
            have h1 := congrArg Prod.fst h
            have h2 := congrArg Prod.snd h
            simp only at h1 h2
            rcases put_inode_fst sb d0 pinum { pino with size := wrap32 (pino.size + 32) }
              with h3 | h3
            · exact Prod.ext h3 h2
            · rw [h3] at h1
              simp at h1

theorem creat_bootstrap_error {sb : super_t} {d : Disk} {junk : Nat → Nat}
    {pinum type new_inum : Int} {new_inode : inode_t} {r : Int × Disk}
    (h : creat_bootstrap sb d junk pinum type new_inum new_inode = .error r) : r.1 < 0 := by
  unfold creat_bootstrap at h
  dsimp only at h
  split at h
  · split at h
    · simp only [Except.error.injEq] at h
      rw [← h]
      show (-5 : Int) < 0
      decide
    · split at h
      · simp only [Except.error.injEq] at h
        rw [← h]
        show (-6 : Int) < 0
        decide
      · simp at h
  · simp at h

/-- The steps of a call of `MFS_Creat` that returns 0 for a name `MFS_Lookup` did
not find. -/
theorem MFS_Creat_zero {sb : super_t} {d d1 : Disk} {junk : Nat → Nat} {pinum type : Int}
    {name : List Nat} (h : MFS_Creat sb d junk pinum type name = (0, d1))
    (hnew : MFS_Lookup sb d pinum name < 0) :
    0 ≤ pinum ∧ (type = UFS_REGULAR_FILE ∨ type = UFS_DIRECTORY) ∧ name.length ≤ 27 ∧
    ∃ pino, get_inode sb d pinum = some pino ∧ pino.type = UFS_DIRECTORY ∧
      (allocate_inode sb d).1 ≠ -1 ∧
      ∃ db ino1 da,
        creat_bootstrap sb (allocate_inode sb d).2 junk pinum type (allocate_inode sb d).1
            { type := type, size := if type = UFS_DIRECTORY then 64 else 0,
              direct := List.replicate DIRECT_PTRS (-1) } = .ok (db, ino1) ∧
        put_inode sb db (allocate_inode sb d).1 ino1 = (0, da) ∧
        creat_insert sb da pinum pino name (allocate_inode sb d).1 pino.direct = (0, d1) := by
  unfold MFS_Creat at h
  split at h
  · simp at h
  · rename_i hc
    have hc1 : 0 ≤ pinum := by omega
    have hc2 : type = UFS_REGULAR_FILE ∨ type = UFS_DIRECTORY := by
      by_contra hne
      apply hc
      right; left
      exact ⟨fun e => hne (Or.inl e), fun e => hne (Or.inr e)⟩
    have hc3 : name.length ≤ 27 := by omega
    refine ⟨hc1, hc2, hc3, ?_⟩
    cases hg : get_inode sb d pinum with
    | none => simp [hg] at h
    | some pino =>
      simp only [hg] at h
      split at h
      · simp at h
      · rename_i hdir
        rw [if_neg (by omega)] at h
        split at h
        · simp at h
        · rename_i halloc
          refine ⟨pino, rfl, by simpa using hdir, halloc, ?_⟩
          cases hbs : creat_bootstrap sb (allocate_inode sb d).2 junk pinum type
              (allocate_inode sb d).1
              { type := type, size := if type = UFS_DIRECTORY then 64 else 0,
                direct := List.replicate DIRECT_PTRS (-1) } with
          | error r =>
            simp only [hbs] at h
            exfalso
            have hr := creat_bootstrap_error hbs
            rw [h] at hr
            simp at hr
          | ok r =>
            obtain ⟨db, ino1⟩ := r
            simp only [hbs] at h
            split at h
            · split at h <;> simp at h
            · rename_i hp
              refine ⟨db, ino1, (put_inode sb db (allocate_inode sb d).1 ino1).2, rfl, ?_, h⟩
              apply Prod.ext
              · simpa using hp
              · rfl

end NFS

namespace NFS

/-! ## Unlinking a directory that has a child -/

theorem MFS_Lookup_of_get_inode {sb : super_t} {d : Disk} {pinum : Int} {pino : inode_t}
    (name : List Nat) (hg : get_inode sb d pinum = some pino) (hdir : pino.type = UFS_DIRECTORY) :
    MFS_Lookup sb d pinum name = lookup_blocks d name pino.direct := by
  unfold MFS_Lookup
  simp only [(get_inode_some hg).2.2]
  rw [if_neg (by simp [hdir])]

/-- Claim C7 (amended). Let `name` resolve in `pinum` to a directory `t` whose
recorded size exceeds that of two entries, the size of `.` and `..` alone; this
is so in particular when `t` has at least three live entries (`.`, `..` and a
live child) and its recorded size is `sizeof(dir_ent_t)` times the number of its
live entries.  Then `MFS_Unlink(pinum, name)`, in every state of the image,
returns an error value and leaves the image exactly as it was. -/
theorem MFS_Unlink_directory_with_child_fails (sb : super_t) (depth : Nat) (d : Disk)
    (t : Int) (tino : inode_t) (pinum : Int) (name : List Nat)
    (htino : get_inode sb d t = some tino)
    (htdir : tino.type = UFS_DIRECTORY)
    (hsize : 64 < tino.size ∨
      (tino.size = SIZEOF_DIRENT * (live_entries d tino : Int) ∧ 3 ≤ live_entries d tino))
    (htarget : MFS_Lookup sb d pinum name = t) :
    ∃ r, r < 0 ∧ MFS_Unlink sb depth d pinum name = some (r, d) := by
  have htok := get_inode_ok htino
  have ht0 := (get_inode_some htino).1
  unfold MFS_Unlink
  split
  · exact ⟨-2, by decide, rfl⟩
  · cases hg : get_inode sb d pinum with
    | none => exact ⟨-3, by decide, rfl⟩
    | some pino1 =>
      simp only
      split
      · exact ⟨-3, by decide, rfl⟩
      · rename_i hdir1
        have hdir1 : pino1.type = UFS_DIRECTORY := by simpa using hdir1
        have hl := MFS_Lookup_of_get_inode name hg hdir1
        rw [htarget, lookup_blocks_eq_unlink_find d name pino1.direct 0] at hl
        cases hf : unlink_find d name pino1.direct 0 with
        | none => exact ⟨-4, by decide, rfl⟩
        | some o =>
          cases o with
          | none =>
            rw [hf] at hl
            simp only at hl
            omega
          | some x =>
            obtain ⟨tt, i, j⟩ := x
            rw [hf] at hl
            simp only at hl
            subst hl
            simp only [htino]
            rw [if_pos htdir]
            have hbig : toU64 tino.size > 64 := by
              have := htok.2.1
              unfold int32 at this
              unfold toU64
              rcases hsize with h | ⟨h1, h2⟩
              · omega
              · simp only [SIZEOF_DIRENT] at h1
                omega
            rw [if_pos hbig]
            exact ⟨-1, by decide, rfl⟩

set_option maxRecDepth 100000 in
/-- Witness of C7: on the empty image, directory `d` (inode 1) is created in the
root and file `f` inside `d`; `d` then has three live entries and size 96, and
unlinking `d` from the root fails. -/
theorem MFS_Unlink_directory_with_child_fails_witness :
    get_inode demo_sb dir_with_file_image 1
        = some { type := UFS_DIRECTORY, size := 96, direct := 5 :: List.replicate 29 (-1) } ∧
      live_entries dir_with_file_image
        { type := UFS_DIRECTORY, size := 96, direct := 5 :: List.replicate 29 (-1) } = 3 ∧
      MFS_Lookup demo_sb dir_with_file_image 1 [102] = 2 ∧
      ∃ r, r < 0 ∧ MFS_Unlink demo_sb 0 dir_with_file_image 0 [100]
        = some (r, dir_with_file_image) :=
  ⟨by decide, by decide, by decide,
    MFS_Unlink_directory_with_child_fails demo_sb 0 dir_with_file_image 1
      { type := UFS_DIRECTORY, size := 96, direct := 5 :: List.replicate 29 (-1) } 0 [100]
      (by decide) (by decide) (Or.inr (by decide)) (by decide)⟩

end NFS

namespace NFS

/-! ## Bitmap allocator: what a call changes -/

theorem tdiv_tmod_8 (a : Int) :
    (0 ≤ a ∧ a.tdiv 8 = a / 8 ∧ a.tmod 8 = a % 8)
      ∨ (a < 0 ∧ a.tdiv 8 = -((-a) / 8) ∧ a.tmod 8 = -((-a) % 8)) := by
  by_cases h : 0 ≤ a
  · left
    exact ⟨h, Int.tdiv_eq_ediv h (by decide), Int.tmod_eq_emod h (by decide)⟩
  · right
    have h1 : a.tdiv 8 = -((-a) / 8) := by
      have := Int.neg_tdiv (-a) 8
      rw [neg_neg] at this
      rw [this, Int.tdiv_eq_ediv (by omega) (by decide)]
    have h2 := Int.tmod_add_tdiv a 8
    refine ⟨by omega, h1, by omega⟩

theorem tdiv_tmod_4096 (a : Int) :
    (0 ≤ a ∧ a.tdiv 4096 = a / 4096 ∧ a.tmod 4096 = a % 4096)
      ∨ (a < 0 ∧ a.tdiv 4096 = -((-a) / 4096) ∧ a.tmod 4096 = -((-a) % 4096)) := by
  by_cases h : 0 ≤ a
  · left
    exact ⟨h, Int.tdiv_eq_ediv h (by decide), Int.tmod_eq_emod h (by decide)⟩
  · right
    have h1 : a.tdiv 4096 = -((-a) / 4096) := by
      have := Int.neg_tdiv (-a) 4096
      rw [neg_neg] at this
      rw [this, Int.tdiv_eq_ediv (by omega) (by decide)]
    have h2 := Int.tmod_add_tdiv a 4096
    refine ⟨by omega, h1, by omega⟩

/-- The byte offset `set_bitmap` computes for an index, when the bitmap lies in
the first `2^19 - 1` blocks: the start of the bitmap plus `index / 8`. -/
theorem set_bitmap_pos (s l idx : Int) (hs : 0 ≤ s) (hl : 0 ≤ l) (hsl : s + l ≤ 524287)
    (hidx : int32 idx) (hlt : idx.tdiv 8 < l * 4096) :
    wrap32 (wrap32 (wrap32 (s + (idx.tdiv 8).tdiv 4096) * 4096) + (idx.tdiv 8).tmod 4096)
      = s * 4096 + idx.tdiv 8 := by
  unfold int32 at hidx
  have h8 := tdiv_tmod_8 idx
  have h4096 := tdiv_tmod_4096 (idx.tdiv 8)
  generalize idx.tdiv 8 = bi at *
  generalize bi.tdiv 4096 = q at *
  generalize bi.tmod 4096 = r at *
  have hbi : -268435456 ≤ bi ∧ bi < 268435456 := by omega
  have hq : bi = q * 4096 + r ∧ -4096 < r ∧ r < 4096 ∧ -65536 ≤ q ∧ q ≤ l := by omega
  rw [wrap32_of_range (x := s + q) (by omega) (by omega)]
  rw [wrap32_of_range (x := (s + q) * 4096) (by omega) (by omega)]
  rw [wrap32_of_range (by omega) (by omega)]
  omega

/-- Function `set_bitmap` never changes the length of the image nor any byte at or beyond
the end of the bitmap region, whatever the index. -/
theorem set_bitmap_frame (d : Disk) (s l idx v : Int) (hs : 0 ≤ s) (hl : 0 ≤ l)
    (hsl : s + l ≤ 524287) (hidx : int32 idx) :
    (set_bitmap d s l idx v).2.size = d.size ∧
      ∀ a : Nat, (s + l) * 4096 ≤ (a : Int) → (set_bitmap d s l idx v).2.byte a = d.byte a := by
  unfold set_bitmap
  simp only [UFS_BLOCK_SIZE]
  split
  · exact ⟨rfl, fun _ _ => rfl⟩
  · rename_i hge
    rw [wrap32_of_range (x := l * 4096) (by omega) (by omega)] at hge
    rw [set_bitmap_pos s l idx hs hl hsl hidx (by omega)]
    cases hp : pread d 1 (s * 4096 + idx.tdiv 8) with
    | none => exact ⟨rfl, fun _ _ => rfl⟩
    | some buf =>
      simp only
      obtain ⟨hp0, hp1, _⟩ := pread_some hp
      split
      · exact ⟨rfl, fun _ _ => rfl⟩
      · rename_i d1 hw
        obtain ⟨hsz, _, hout⟩ := pwrite_inside hw hp1
        refine ⟨hsz, ?_⟩
        intro a ha
        apply hout
        omega

/-- The two outcomes of `set_bitmap`. -/
theorem set_bitmap_fst (d : Disk) (s l idx v : Int) :
    (set_bitmap d s l idx v).1 = 0 ∨ (set_bitmap d s l idx v).1 = -1 := by
  unfold set_bitmap
  simp only
  split
  · right; rfl
  · split
    · right; rfl
    · split
      · right; rfl
      · left; rfl

/-- What a successful `set_bitmap` does for an index that is not negative: it
rewrites the one byte `index / 8` of the bitmap. -/
theorem set_bitmap_nonneg (d : Disk) (s l idx v : Int) (hs : 0 ≤ s) (hl : 0 ≤ l)
    (hsl : s + l ≤ 524287) (h0 : 0 ≤ idx) (hidx : idx < 2147483648)
    (hok : (set_bitmap d s l idx v).1 ≠ -1) :
    idx / 8 < l * 4096 ∧ (s * 4096 + idx / 8).toNat + 1 ≤ d.size ∧
      (set_bitmap d s l idx v).2.size = d.size ∧
      (∀ a : Nat, a ≠ (s * 4096 + idx / 8).toNat → (set_bitmap d s l idx v).2.byte a = d.byte a) ∧
      ((set_bitmap d s l idx v).2.byte (s * 4096 + idx / 8).toNat).val
        = if v ≠ 0 then ((d.byte (s * 4096 + idx / 8).toNat).val ||| 2 ^ (idx % 8).toNat) % 256
          else ((d.byte (s * 4096 + idx / 8).toNat).val
            &&& (4294967295 - 2 ^ (idx % 8).toNat)) % 256 := by
  have hdiv : idx.tdiv 8 = idx / 8 := Int.tdiv_eq_ediv h0 (by decide)
  have hmod : idx.tmod 8 = idx % 8 := Int.tmod_eq_emod h0 (by decide)
  have hshl : shl1 (idx % 8) = 2 ^ (idx % 8).toNat := by
    unfold shl1
    congr 2
    omega
  unfold set_bitmap at hok ⊢
  simp only [UFS_BLOCK_SIZE] at hok ⊢
  rw [hdiv, hmod, hshl] at hok ⊢
  rw [wrap32_of_range (x := l * 4096) (by omega) (by omega)] at hok ⊢
  by_cases hge : idx / 8 ≥ l * 4096
  · rw [if_pos hge] at hok
    simp at hok
  · rw [if_neg hge] at hok ⊢
    have hpos := set_bitmap_pos s l idx hs hl hsl ⟨by omega, hidx⟩ (by rw [hdiv]; omega)
    rw [hdiv] at hpos
    rw [hpos] at hok ⊢
    cases hp : pread d 1 (s * 4096 + idx / 8) with
    | none =>
      simp only [hp] at hok
      simp at hok
    | some buf =>
      simp only [hp] at hok ⊢
      obtain ⟨hp0, hp1, hbuf⟩ := pread_some hp
      have hb0 : buf 0 = (d.byte (s * 4096 + idx / 8).toNat).val := by
        rw [hbuf]
        simp only [Nat.add_zero, Nat.lt_one_iff, if_true]
      split
      · rename_i hw
        simp only [hw] at hok
        simp at hok
      · rename_i d1 hw
        obtain ⟨hsz, hin, hout⟩ := pwrite_inside hw hp1
        refine ⟨by omega, hp1, hsz, ?_, ?_⟩
        · intro a ha
          apply hout
          omega
        · simp only
          rw [hin _ (le_refl _) (by omega), toByte_val, hb0]
          split
          · exact Nat.mod_mod _ _
          · exact Nat.mod_mod _ _

end NFS

namespace NFS

/-! ## Bitmap allocator: what `find_free_bit` returns -/

theorem and_two_pow_eq_zero (b k : Nat) : b &&& 2 ^ k = 0 ↔ b.testBit k = false := by
  rw [Nat.and_two_pow]
  cases h : b.testBit k
  · simp
  · simp

theorem bitmap_bit_eq (d : Disk) (s r : Int) (hs : 0 ≤ s) (hr : 0 ≤ r) :
    bitmap_bit d s r.toNat
      = (d.byte (s * 4096 + r / 8).toNat).val.testBit (r % 8).toNat := by
  unfold bitmap_bit
  simp only [UFS_BLOCK_SIZE]
  have e1 : (s * 4096).toNat + r.toNat / 8 = (s * 4096 + r / 8).toNat := by omega
  have e2 : r.toNat % 8 = (r % 8).toNat := by omega
  rw [e1, e2]

/-- The loop of `find_free_bit`, started at bit `i` with the byte staged so far:
a result other than `-1` is an index in range, among the first eight of its
bitmap block, whose bit is 0, and every lower index of the same block from `i` on
has its bit set. -/
theorem find_free_bit_loop_sound (d : Disk) (s l n : Int) (hs : 0 ≤ s) (hl : 0 ≤ l)
    (hsl : s + l ≤ 524287) (hn : n ≤ l * 32768) :
    ∀ (fuel : Nat) (i : Int) (b : Nat), 0 ≤ i →
      (i % 32768 = 0 ∨ (b = (d.byte ((s + i / 32768) * 4096).toNat).val ∧
        ∀ k : Nat, (k : Int) < i % 32768 → k < 8 → b.testBit k = true)) →
      find_free_bit_loop d s n fuel i b ≠ -1 →
      i ≤ find_free_bit_loop d s n fuel i b ∧ find_free_bit_loop d s n fuel i b < n ∧
        find_free_bit_loop d s n fuel i b % 32768 < 8 ∧
        (s * 4096 + find_free_bit_loop d s n fuel i b / 8).toNat + 1 ≤ d.size ∧
        bitmap_bit d s (find_free_bit_loop d s n fuel i b).toNat = false ∧
        ∀ k : Int, i ≤ k → k < find_free_bit_loop d s n fuel i b →
          k / 32768 = find_free_bit_loop d s n fuel i b / 32768 →
          bitmap_bit d s k.toNat = true := by
  intro fuel
  induction fuel with
  | zero =>
    intro i b _ _ h
    simp [find_free_bit_loop] at h
  | succ f ih =>
    intro i b hi hinv hne
    rw [find_free_bit_loop] at hne ⊢
    simp only [UFS_BLOCK_SIZE] at hne ⊢
    by_cases hin : i < n
    · rw [if_pos hin] at hne ⊢
      have hsh : shl1 (i % 8) = 2 ^ (i % 8).toNat := by
        unfold shl1
        congr 2
        omega
      rw [hsh] at hne ⊢
      -- the test on the staged byte and the rest of the loop
      have key : ∀ b1 : Nat, b1 = (d.byte ((s + i / 32768) * 4096).toNat).val →
          (i % 32768 < 8 → ((s + i / 32768) * 4096).toNat + 1 ≤ d.size) →
          (∀ k : Nat, (k : Int) < i % 32768 → k < 8 → b1.testBit k = true) →
          (if b1 &&& 2 ^ (i % 8).toNat = 0 then i
            else find_free_bit_loop d s n f (i + 1) b1) ≠ -1 →
          i ≤ (if b1 &&& 2 ^ (i % 8).toNat = 0 then i
              else find_free_bit_loop d s n f (i + 1) b1) ∧
            (if b1 &&& 2 ^ (i % 8).toNat = 0 then i
              else find_free_bit_loop d s n f (i + 1) b1) < n ∧
            (if b1 &&& 2 ^ (i % 8).toNat = 0 then i
              else find_free_bit_loop d s n f (i + 1) b1) % 32768 < 8 ∧
            (s * 4096 + (if b1 &&& 2 ^ (i % 8).toNat = 0 then i
              else find_free_bit_loop d s n f (i + 1) b1) / 8).toNat + 1 ≤ d.size ∧
            bitmap_bit d s (if b1 &&& 2 ^ (i % 8).toNat = 0 then i
              else find_free_bit_loop d s n f (i + 1) b1).toNat = false ∧
            ∀ k : Int, i ≤ k → k < (if b1 &&& 2 ^ (i % 8).toNat = 0 then i
                else find_free_bit_loop d s n f (i + 1) b1) →
              k / 32768 = (if b1 &&& 2 ^ (i % 8).toNat = 0 then i
                else find_free_bit_loop d s n f (i + 1) b1) / 32768 →
              bitmap_bit d s k.toNat = true := by
        intro b1 hb1 hread hlow hne1
        by_cases htest : b1 &&& 2 ^ (i % 8).toNat = 0
        · rw [if_pos htest]
          have hclear := (and_two_pow_eq_zero _ _).mp htest
          have hsmall : i % 32768 < 8 := by
            by_contra hbig
            have := hlow (i % 8).toNat (by omega) (by omega)
            rw [this] at hclear
            exact absurd hclear (by simp)
          have e : (s * 4096 + i / 8).toNat = ((s + i / 32768) * 4096).toNat := by omega
          refine ⟨le_refl _, hin, hsmall, ?_, ?_, ?_⟩
          · rw [e]; exact hread hsmall
          · rw [bitmap_bit_eq d s i hs hi, e, ← hb1]
            exact hclear
          · intro k h1 h2
            omega
        · rw [if_neg htest] at hne1 ⊢
          have hset : b1.testBit (i % 8).toNat = true := by
            cases h : b1.testBit (i % 8).toNat
            · exact absurd ((and_two_pow_eq_zero _ _).mpr h) htest
            · rfl
          have hinv1 : (i + 1) % 32768 = 0 ∨
              (b1 = (d.byte ((s + (i + 1) / 32768) * 4096).toNat).val ∧
                ∀ k : Nat, (k : Int) < (i + 1) % 32768 → k < 8 → b1.testBit k = true) := by
            by_cases hz : (i + 1) % 32768 = 0
            · left; exact hz
            · right
              have e : (i + 1) / 32768 = i / 32768 := by omega
              rw [e]
              refine ⟨hb1, ?_⟩
              intro k hk hk8
              by_cases hki : (k : Int) < i % 32768
              · exact hlow k hki hk8
              · have : k = (i % 8).toNat := by omega
                rw [this]
                exact hset
          obtain ⟨r1, r2, r3, r4, r5, r6⟩ := ih (i + 1) b1 (by omega) hinv1 hne1
          refine ⟨by omega, r2, r3, r4, r5, ?_⟩
          intro k h1 h2 h3
          by_cases hki : k = i
          · subst hki
            have hsm : k % 32768 < 8 := by omega
            have e : (s * 4096 + k / 8).toNat = ((s + k / 32768) * 4096).toNat := by omega
            rw [bitmap_bit_eq d s k hs hi, e, ← hb1]
            exact hset
          · exact r6 k (by omega) h2 h3
      by_cases hst : i / 8 % 4096 = 0
      · rw [if_pos hst] at hne ⊢
        have haddr : wrap32 (wrap32 (s + i / 8 / 4096) * 4096) = (s + i / 32768) * 4096 := by
          have e : i / 8 / 4096 = i / 32768 := by omega
          rw [e, wrap32_of_range (x := s + i / 32768) (by omega) (by omega)]
          rw [wrap32_of_range (by omega) (by omega)]
        rw [haddr] at hne ⊢
        cases hp : pread d 1 ((s + i / 32768) * 4096) with
        | none =>
          simp only [hp] at hne
          simp at hne
        | some buf =>
          simp only [hp, Option.map_some'] at hne ⊢
          obtain ⟨hp0, hp1, hbuf⟩ := pread_some hp
          have hb : buf 0 = (d.byte ((s + i / 32768) * 4096).toNat).val := by
            rw [hbuf]
            simp only [Nat.add_zero, Nat.lt_one_iff, if_true]
          apply key (buf 0) hb (fun _ => hp1) _ hne
          intro k hk hk8
          rw [hb]
          rcases hinv with hz | ⟨hbb, hl2⟩
          · omega
          · rw [← hbb]
            exact hl2 k hk hk8
      · rw [if_neg hst] at hne ⊢
        simp only at hne ⊢
        rcases hinv with hz | ⟨hbb, hl2⟩
        · omega
        · exact key b hbb (fun h => by omega) hl2 hne
    · rw [if_neg hin] at hne
      simp at hne

end NFS

namespace NFS

/-! ## Bitmap allocator: allocation -/

/-- Function `find_free_bit`: a result other than `-1` is an index in range whose bit is 0,
it is among the first eight indices of its bitmap block, and every lower index of
that block has its bit set. -/
theorem find_free_bit_sound (d : Disk) (s l n : Int) (hs : 0 ≤ s) (hl : 0 ≤ l)
    (hsl : s + l ≤ 524287) (hn : n ≤ l * 32768) (hne : find_free_bit d s l n ≠ -1) :
    0 ≤ find_free_bit d s l n ∧ find_free_bit d s l n < n ∧
      find_free_bit d s l n % 32768 < 8 ∧
      (s * 4096 + find_free_bit d s l n / 8).toNat + 1 ≤ d.size ∧
      bitmap_bit d s (find_free_bit d s l n).toNat = false ∧
      ∀ k : Int, 0 ≤ k → k < find_free_bit d s l n →
        k / 32768 = find_free_bit d s l n / 32768 → bitmap_bit d s k.toNat = true := by
  unfold find_free_bit at hne ⊢
  exact find_free_bit_loop_sound d s l n hs hl hsl hn n.toNat 0 0 (le_refl _)
    (Or.inl (by decide)) hne

theorem testBit_set_byte (b k m : Nat) :
    ((b ||| 2 ^ k) % 256).testBit m = (decide (m < 8) && (b.testBit m || decide (k = m))) := by
  have h := Nat.testBit_mod_two_pow (b ||| 2 ^ k) 8 m
  have e : (2 : Nat) ^ 8 = 256 := by decide
  rw [e] at h
  rw [h, Nat.testBit_or, Nat.testBit_two_pow]

/-- Setting bit `i` of a bitmap: the bit is set afterwards, no bit that was set is
cleared, and no byte of the image other than byte `i / 8` of the bitmap changes. -/
theorem set_bitmap_one (d : Disk) (s l i : Int) (hs : 0 ≤ s) (hl : 0 ≤ l)
    (hsl : s + l ≤ 524287) (h0 : 0 ≤ i) (hi : i < 2147483648)
    (hok : (set_bitmap d s l i 1).1 ≠ -1) :
    (set_bitmap d s l i 1).2.size = d.size ∧
      (∀ a : Nat, a ≠ (s * 4096 + i / 8).toNat → (set_bitmap d s l i 1).2.byte a = d.byte a) ∧
      bitmap_bit (set_bitmap d s l i 1).2 s i.toNat = true ∧
      (∀ j : Nat, bitmap_bit d s j = true → bitmap_bit (set_bitmap d s l i 1).2 s j = true) ∧
      (∀ j : Nat, j ≠ i.toNat → bitmap_bit (set_bitmap d s l i 1).2 s j = bitmap_bit d s j) := by
  obtain ⟨h1, h2, h3, h4, h5⟩ := set_bitmap_nonneg d s l i 1 hs hl hsl h0 hi hok
  rw [if_pos (by decide)] at h5
  have hbit : ∀ j : Nat, bitmap_bit (set_bitmap d s l i 1).2 s j
      = (bitmap_bit d s j || decide (j = i.toNat)) := by
    intro j
    unfold bitmap_bit
    simp only [UFS_BLOCK_SIZE]
    by_cases hj : (s * 4096).toNat + j / 8 = (s * 4096 + i / 8).toNat
    · rw [hj, h5, testBit_set_byte]
      have hd1 : decide (j % 8 < 8) = true := decide_eq_true (Nat.mod_lt _ (by decide))
      have hd2 : decide ((i % 8).toNat = j % 8) = decide (j = i.toNat) :=
        decide_eq_decide.mpr (by omega)
      rw [hd1, hd2, Bool.true_and]
    · rw [h4 _ hj]
      have hji : ¬ j = i.toNat := by omega
      simp [hji]
  refine ⟨h3, h4, ?_, ?_, ?_⟩
  · rw [hbit]; simp
  · intro j hj
    rw [hbit, hj]; simp
  · intro j hj
    rw [hbit]; simp [hj]

/-- Function `allocate_data_block`: a result other than `-1` is a block of the data region
whose data-bitmap bit was 0; the call sets that bit, clears none, and changes no
byte of the image outside the bitmap byte that holds it. -/
theorem allocate_data_block_spec (sb : super_t) (d : Disk) (hlay : layout_ok sb)
    (hne : (allocate_data_block sb d).1 ≠ -1) :
    ∃ i : Int, 0 ≤ i ∧ i < sb.num_data ∧
      (allocate_data_block sb d).1 = sb.data_region_addr + i ∧
      bitmap_bit d sb.data_bitmap_addr i.toNat = false ∧
      (allocate_data_block sb d).2.size = d.size ∧
      (∀ a : Nat, a ≠ (sb.data_bitmap_addr * 4096 + i / 8).toNat →
        (allocate_data_block sb d).2.byte a = d.byte a) ∧
      i / 8 < sb.data_bitmap_len * 4096 ∧
      bitmap_bit (allocate_data_block sb d).2 sb.data_bitmap_addr i.toNat = true ∧
      (∀ j : Nat, bitmap_bit d sb.data_bitmap_addr j = true →
        bitmap_bit (allocate_data_block sb d).2 sb.data_bitmap_addr j = true) := by
  unfold layout_ok at hlay
  unfold allocate_data_block at hne ⊢
  simp only at hne ⊢
  by_cases hf : find_free_bit d sb.data_bitmap_addr sb.data_bitmap_len sb.num_data = -1
  · rw [if_pos hf] at hne
    simp at hne
  · rw [if_neg hf] at hne ⊢
    obtain ⟨f1, f2, f3, f4, f5, f6⟩ := find_free_bit_sound d sb.data_bitmap_addr
      sb.data_bitmap_len sb.num_data (by omega) (by omega) (by omega) (by omega) hf
    generalize find_free_bit d sb.data_bitmap_addr sb.data_bitmap_len sb.num_data = i at *
    by_cases hsb : (set_bitmap d sb.data_bitmap_addr sb.data_bitmap_len i 1).1 = -1
    · rw [if_pos hsb] at hne
      simp at hne
    · rw [if_neg hsb] at hne ⊢
      obtain ⟨s1, s2, s3, s4, _⟩ := set_bitmap_one d sb.data_bitmap_addr sb.data_bitmap_len i
        (by omega) (by omega) (by omega) f1 (by omega) hsb
      have s0 := (set_bitmap_nonneg d sb.data_bitmap_addr sb.data_bitmap_len i 1
        (by omega) (by omega) (by omega) f1 (by omega) hsb).1
      refine ⟨i, f1, f2, ?_, f5, s1, s2, s0, s3, s4⟩
      exact wrap32_of_range (by omega) (by omega)

/-- Function `allocate_inode`: a result other than `-1` is an inode number in range whose
inode-bitmap bit was 0, the lowest such of its bitmap block; the call sets that
bit and changes no byte of the image outside the bitmap byte that holds it. -/
theorem allocate_inode_spec (sb : super_t) (d : Disk) (hlay : layout_ok sb)
    (hne : (allocate_inode sb d).1 ≠ -1) :
    0 ≤ (allocate_inode sb d).1 ∧ (allocate_inode sb d).1 < sb.num_inodes ∧
      bitmap_bit d sb.inode_bitmap_addr (allocate_inode sb d).1.toNat = false ∧
      (∀ k : Int, 0 ≤ k → k < (allocate_inode sb d).1 →
        k / 32768 = (allocate_inode sb d).1 / 32768 →
        bitmap_bit d sb.inode_bitmap_addr k.toNat = true) ∧
      (allocate_inode sb d).2.size = d.size ∧
      (∀ a : Nat, a ≠ (sb.inode_bitmap_addr * 4096 + (allocate_inode sb d).1 / 8).toNat →
        (allocate_inode sb d).2.byte a = d.byte a) ∧
      (allocate_inode sb d).1 / 8 < sb.inode_bitmap_len * 4096 ∧
      bitmap_bit (allocate_inode sb d).2 sb.inode_bitmap_addr (allocate_inode sb d).1.toNat
        = true := by
  unfold layout_ok at hlay
  unfold allocate_inode at hne ⊢
  simp only at hne ⊢
  by_cases hf : find_free_bit d sb.inode_bitmap_addr sb.inode_bitmap_len sb.num_inodes = -1
  · rw [if_pos hf] at hne
    simp at hne
  · rw [if_neg hf] at hne ⊢
    obtain ⟨f1, f2, f3, f4, f5, f6⟩ := find_free_bit_sound d sb.inode_bitmap_addr
      sb.inode_bitmap_len sb.num_inodes (by omega) (by omega) (by omega) (by omega) hf
    generalize find_free_bit d sb.inode_bitmap_addr sb.inode_bitmap_len sb.num_inodes = i at *
    by_cases hsb : (set_bitmap d sb.inode_bitmap_addr sb.inode_bitmap_len i 1).1 = -1
    · rw [if_pos hsb] at hne
      simp at hne
    · rw [if_neg hsb] at hne ⊢
      obtain ⟨s1, s2, s3, _, _⟩ := set_bitmap_one d sb.inode_bitmap_addr sb.inode_bitmap_len i
        (by omega) (by omega) (by omega) f1 (by omega) hsb
      have s0 := (set_bitmap_nonneg d sb.inode_bitmap_addr sb.inode_bitmap_len i 1
        (by omega) (by omega) (by omega) f1 (by omega) hsb).1
      exact ⟨f1, f2, f5, f6, s1, s2, s0, s3⟩

end NFS

namespace NFS

/-! ## Blocks and inode records under writes elsewhere -/

theorem same_from_refl (lo : Int) (d : Disk) : same_from lo d d := ⟨rfl, fun _ _ => rfl⟩

theorem same_from_trans {lo : Int} {d d1 d2 : Disk} (h1 : same_from lo d d1)
    (h2 : same_from lo d1 d2) : same_from lo d d2 :=
  ⟨h2.1.trans h1.1, fun a ha => (h2.2 a ha).trans (h1.2 a ha)⟩

theorem block_addr (b : Int) (h0 : 0 ≤ b) (h1 : b ≤ 524287) :
    wrap32 (b * UFS_BLOCK_SIZE) = b * 4096 := by
  simp only [UFS_BLOCK_SIZE]
  exact wrap32_of_range (by omega) (by omega)

/-- Reading a block gives the same result on two images of equal length that
agree on the bytes of the block. -/
theorem read_block_congr {d d1 : Disk} (b : Int) (h0 : 0 ≤ b) (h1 : b ≤ 524287)
    (hsz : d1.size = d.size)
    (hb : ∀ a : Nat, b * 4096 ≤ (a : Int) → (a : Int) < b * 4096 + 4096 → d1.byte a = d.byte a) :
    read_block d1 b = read_block d b := by
  unfold read_block
  rw [block_addr b h0 h1]
  apply pread_congr _ _ hsz
  intro a ha1 ha2
  exact hb a (by omega) (by omega)

/-- The byte offset of an inode of the inode region. -/
theorem inode_addr_eq (sb : super_t) (inum : Int) (hlay : layout_ok sb) (h0 : 0 ≤ inum)
    (h1 : inum < sb.num_inodes) :
    inode_addr sb inum = (sb.inode_region_addr + inum / 32) * 4096 + inum % 32 * 128 ∧
      sb.inode_region_addr * 4096 ≤ inode_addr sb inum ∧
      inode_addr sb inum + 128 ≤ (sb.inode_region_addr + sb.inode_region_len) * 4096 := by
  unfold layout_ok at hlay
  have e : inode_addr sb inum = (sb.inode_region_addr + inum / 32) * 4096 + inum % 32 * 128 := by
    unfold inode_addr toU64
    simp only [UFS_BLOCK_SIZE]
    have e1 : inum % 18446744073709551616 = inum := by omega
    rw [e1]
    rw [wrap32_of_range (x := sb.inode_region_addr + inum / 32) (by omega) (by omega)]
    rw [wrap32_of_range (x := inum % 32 * 128) (by omega) (by omega)]
    rw [wrap32_of_range (x := (sb.inode_region_addr + inum / 32) * 4096) (by omega) (by omega)]
    rw [wrap32_of_range (by omega) (by omega)]
  rw [e]
  refine ⟨rfl, by omega, by omega⟩

/-- What `read_block` finds in a block that `write_block` has just written. -/
theorem read_block_write_block {d d1 : Disk} {b : Int} {buf : Nat → Nat}
    (hw : write_block d b buf = some d1) :
    ∃ buf1, read_block d1 b = some buf1 ∧ ∀ k, k < 4096 → buf1 k = buf k % 256 := by
  unfold write_block at hw
  obtain ⟨h0, hsz, hin, _⟩ := pwrite_some hw
  unfold read_block
  rw [pread_of_fits d1 4096 _ h0 (by omega)]
  refine ⟨_, rfl, ?_⟩
  intro k hk
  simp only [hk, if_true]
  rw [hin _ (by omega) (by omega), toByte_val]
  congr 2
  omega

/-- A block write inside the image leaves the length and every byte outside the
block as they were. -/
theorem write_block_frame {d d1 : Disk} {b : Int} {buf : Nat → Nat} (h0 : 0 ≤ b)
    (h1 : b ≤ 524287) (hfit : (b * 4096).toNat + 4096 ≤ d.size)
    (hw : write_block d b buf = some d1) :
    d1.size = d.size ∧
      ∀ a : Nat, ((a : Int) < b * 4096 ∨ b * 4096 + 4096 ≤ (a : Int)) → d1.byte a = d.byte a := by
  unfold write_block at hw
  rw [block_addr b h0 h1] at hw
  obtain ⟨hsz, _, hout⟩ := pwrite_inside hw hfit
  refine ⟨hsz, ?_⟩
  intro a ha
  apply hout
  omega

theorem read_block_some {d : Disk} {b : Int} {buf : Nat → Nat} (h0 : 0 ≤ b) (h1 : b ≤ 524287)
    (h : read_block d b = some buf) :
    (b * 4096).toNat + 4096 ≤ d.size ∧
      ∀ k, k < 4096 → buf k = (d.byte ((b * 4096).toNat + k)).val := by
  unfold read_block at h
  rw [block_addr b h0 h1] at h
  refine ⟨(pread_some h).2.1, ?_⟩
  intro k hk
  exact pread_at h k hk

theorem read_block_lt {d : Disk} {b : Int} {buf : Nat → Nat}
    (h : read_block d b = some buf) (k : Nat) : buf k < 256 := by
  unfold read_block at h
  rw [(pread_some h).2.2]
  simp only
  split
  · exact (d.byte _).isLt
  · decide

/-- A stored inode record inside the image leaves the length and every byte
outside the record as they were. -/
theorem put_inode_frame {sb : super_t} {d d1 : Disk} {inum : Int} {ino : inode_t}
    (hlay : layout_ok sb) (hfit : (inode_addr sb inum).toNat + 128 ≤ d.size)
    (h : put_inode sb d inum ino = (0, d1)) :
    d1.size = d.size ∧
      ∀ a : Nat, ((a : Int) < sb.inode_region_addr * 4096
          ∨ (sb.inode_region_addr + sb.inode_region_len) * 4096 ≤ (a : Int)) →
        d1.byte a = d.byte a := by
  obtain ⟨h0, h1, hw⟩ := put_inode_zero h
  obtain ⟨_, e1, e2⟩ := inode_addr_eq sb inum hlay h0 h1
  simp only [SIZEOF_INODE] at hw
  unfold layout_ok at hlay
  obtain ⟨hsz, _, hout⟩ := pwrite_inside hw hfit
  refine ⟨hsz, ?_⟩
  intro a ha
  apply hout
  omega

/-! ## Deletion: what it leaves alone -/

theorem free_data_block_frame (sb : super_t) (d : Disk) (b : Int) (hlay : layout_ok sb) :
    same_from (sb.inode_region_addr * 4096) d (free_data_block sb d b).2 := by
  unfold layout_ok at hlay
  unfold free_data_block
  obtain ⟨h1, h2⟩ := set_bitmap_frame d sb.data_bitmap_addr sb.data_bitmap_len
    (wrap32 (b - sb.data_region_addr)) 0 (by omega) (by omega) (by omega) (wrap32_range _)
  refine ⟨h1, ?_⟩
  intro a ha
  apply h2
  omega

theorem free_inode_frame (sb : super_t) (d : Disk) (inum : Int) (hlay : layout_ok sb)
    (hi : int32 inum) : same_from (sb.inode_region_addr * 4096) d (free_inode sb d inum).2 := by
  unfold layout_ok at hlay
  unfold free_inode
  obtain ⟨h1, h2⟩ := set_bitmap_frame d sb.inode_bitmap_addr sb.inode_bitmap_len
    inum 0 (by omega) (by omega) (by omega) hi
  refine ⟨h1, ?_⟩
  intro a ha
  apply h2
  omega

theorem free_blocks_frame (sb : super_t) (hlay : layout_ok sb) (l : List Int) :
    ∀ d : Disk, same_from (sb.inode_region_addr * 4096) d (free_blocks sb d l).2 := by
  induction l with
  | nil => intro d; exact same_from_refl _ _
  | cons b rest ih =>
    intro d
    rw [free_blocks]
    split
    · exact same_from_refl _ _
    · simp only
      split
      · exact free_data_block_frame sb d b hlay
      · exact same_from_trans (free_data_block_frame sb d b hlay) (ih _)

theorem rdc_entries_frame (sb : super_t) (hlay : layout_ok sb)
    (recurse : Disk → Int → Option (Int × Disk))
    (hrec : ∀ d i r d1, recurse d i = some (r, d1) →
      same_from (sb.inode_region_addr * 4096) d d1)
    (entries : Nat → Nat) :
    ∀ (n j : Nat) (d : Disk) (r : Int) (d1 : Disk),
      rdc_entries sb recurse entries n j d = some (r, d1) →
      same_from (sb.inode_region_addr * 4096) d d1 := by
  intro n
  induction n with
  | zero =>
    intro j d r d1 h
    simp only [rdc_entries, Option.some.injEq, Prod.mk.injEq] at h
    rw [← h.2]
    exact same_from_refl _ _
  | succ n ih =>
    intro j d r d1 h
    rw [rdc_entries] at h
    split at h
    · cases hg : get_inode sb d (ent_inum entries j) with
      | none =>
        simp only [hg, Option.some.injEq, Prod.mk.injEq] at h
        rw [← h.2]
        exact same_from_refl _ _
      | some child =>
        simp only [hg] at h
        have hsub : ∀ r1 d2, (if child.type = UFS_DIRECTORY then recurse d (ent_inum entries j)
            else some (0, d)) = some (r1, d2) →
            same_from (sb.inode_region_addr * 4096) d d2 := by
          intro r1 d2 hs
          split at hs
          · exact hrec _ _ _ _ hs
          · simp only [Option.some.injEq, Prod.mk.injEq] at hs
            rw [← hs.2]
            exact same_from_refl _ _
        cases hsv : (if child.type = UFS_DIRECTORY then recurse d (ent_inum entries j)
            else some (0, d)) with
        | none => simp only [hsv] at h; simp at h
        | some x =>
          obtain ⟨r1, d2⟩ := x
          have f1 := hsub r1 d2 hsv
          simp only [hsv] at h
          have f2 := free_blocks_frame sb hlay child.direct d2
          have f3 := free_inode_frame sb (free_blocks sb d2 child.direct).2 (ent_inum entries j)
            hlay (rd32_range _ _)
          split at h
          · simp only [Option.some.injEq, Prod.mk.injEq] at h
            rw [← h.2]
            exact f1
          · split at h
            · simp only [Option.some.injEq, Prod.mk.injEq] at h
              rw [← h.2]
              exact same_from_trans f1 f2
            · split at h
              · simp only [Option.some.injEq, Prod.mk.injEq] at h
                rw [← h.2]
                exact same_from_trans f1 (same_from_trans f2 f3)
              · exact same_from_trans (same_from_trans f1 (same_from_trans f2 f3))
                  (ih _ _ _ _ h)
    · exact ih _ _ _ _ h

theorem rdc_blocks_frame (sb : super_t) (hlay : layout_ok sb)
    (recurse : Disk → Int → Option (Int × Disk))
    (hrec : ∀ d i r d1, recurse d i = some (r, d1) →
      same_from (sb.inode_region_addr * 4096) d d1)
    (l : List Int) :
    ∀ (d : Disk) (r : Int) (d1 : Disk), rdc_blocks sb recurse l d = some (r, d1) →
      same_from (sb.inode_region_addr * 4096) d d1 := by
  induction l with
  | nil =>
    intro d r d1 h
    simp only [rdc_blocks, Option.some.injEq, Prod.mk.injEq] at h
    rw [← h.2]
    exact same_from_refl _ _
  | cons b rest ih =>
    intro d r d1 h
    rw [rdc_blocks] at h
    split at h
    · simp only [Option.some.injEq, Prod.mk.injEq] at h
      rw [← h.2]
      exact same_from_refl _ _
    · cases hrd : read_block d b with
      | none =>
        simp only [hrd, Option.some.injEq, Prod.mk.injEq] at h
        rw [← h.2]
        exact same_from_refl _ _
      | some entries =>
        simp only [hrd] at h
        cases he : rdc_entries sb recurse entries ENTRIES_PER_BLOCK 0 d with
        | none => simp only [he] at h; simp at h
        | some x =>
          obtain ⟨r1, d2⟩ := x
          have f1 := rdc_entries_frame sb hlay recurse hrec entries _ _ _ _ _ he
          simp only [he] at h
          split at h
          · simp only [Option.some.injEq, Prod.mk.injEq] at h
            rw [← h.2]
            exact f1
          · exact same_from_trans f1 (ih _ _ _ h)

/-- Function `remove_directory_contents` changes no byte from the inode region on (it only
writes bitmap bytes) and does not change the length of the image. -/
theorem remove_directory_contents_frame (sb : super_t) (hlay : layout_ok sb) :
    ∀ (depth : Nat) (d : Disk) (inum r : Int) (d1 : Disk),
      remove_directory_contents sb depth d inum = some (r, d1) →
      same_from (sb.inode_region_addr * 4096) d d1 := by
  intro depth
  induction depth with
  | zero =>
    intro d inum r d1 h
    rw [remove_directory_contents] at h
    unfold rdc_body at h
    cases hg : get_inode sb d inum with
    | none =>
      simp only [hg, Option.some.injEq, Prod.mk.injEq] at h
      rw [← h.2]
      exact same_from_refl _ _
    | some ino =>
      simp only [hg] at h
      exact rdc_blocks_frame sb hlay _ (fun _ _ _ _ hh => by simp at hh) _ _ _ _ h
  | succ n ih =>
    intro d inum r d1 h
    rw [remove_directory_contents] at h
    unfold rdc_body at h
    cases hg : get_inode sb d inum with
    | none =>
      simp only [hg, Option.some.injEq, Prod.mk.injEq] at h
      rw [← h.2]
      exact same_from_refl _ _
    | some ino =>
      simp only [hg] at h
      exact rdc_blocks_frame sb hlay _ ih _ _ _ _ h

end NFS

namespace NFS

/-! ## Directory entries under changes elsewhere in the block -/

theorem strcmp_eq_congr (f g : Nat → Nat) (name : List Nat) :
    ∀ p : Nat, (∀ k, k ≤ name.length → f (p + k) = g (p + k)) →
      strcmp_eq f p name = strcmp_eq g p name := by
  induction name with
  | nil =>
    intro p h
    have := h 0 (le_refl _)
    simp only [Nat.add_zero] at this
    simp only [strcmp_eq, this]
  | cons c cs ih =>
    intro p h
    have h0 := h 0 (Nat.zero_le _)
    simp only [Nat.add_zero] at h0
    rw [strcmp_eq, strcmp_eq, h0]
    congr 1
    apply ih
    intro k hk
    have := h (k + 1) (by simp only [List.length_cons]; omega)
    have e : p + (k + 1) = p + 1 + k := by omega
    rw [e] at this
    exact this

/-- Whether an entry is live and carries a name of at most 27 characters depends
on the 32 bytes of the entry only. -/
theorem entry_matches_congr (f g : Nat → Nat) (name : List Nat) (j : Nat)
    (hlen : name.length ≤ 27)
    (h : ∀ k, 32 * j ≤ k → k < 32 * j + 32 → f k = g k) :
    entry_matches f name j = entry_matches g name j := by
  unfold entry_matches ent_inum
  simp only [SIZEOF_DIRENT]
  rw [rd32_congr f g (32 * j + 28) (fun k hk => h _ (by omega) (by omega))]
  rw [strcmp_eq_congr f g name (32 * j) (fun k hk => h _ (by omega) (by omega))]

/-! ## The search of `MFS_Unlink`, when it finds the entry -/

theorem unlink_find_found {d : Disk} {name : List Nat} {l : List Int} :
    ∀ {i0 : Nat} {t : Int} {i j : Nat}, unlink_find d name l i0 = some (some (t, i, j)) →
      i0 ≤ i ∧ i - i0 < l.length ∧ (∀ k, k ≤ i - i0 → l.getD k (-1) ≠ -1) ∧
      (∀ k, k < i - i0 → ∀ e, read_block d (l.getD k (-1)) = some e →
        ∀ j1, j1 < ENTRIES_PER_BLOCK → entry_matches e name j1 = false) ∧
      ∃ entries, read_block d (l.getD (i - i0) (-1)) = some entries ∧ j < ENTRIES_PER_BLOCK ∧
        entry_matches entries name j = true ∧
        (∀ j1, j1 < j → entry_matches entries name j1 = false) ∧ t = ent_inum entries j := by
  induction l with
  | nil => intro i0 t i j h; simp [unlink_find] at h
  | cons b rest ih =>
    intro i0 t i j h
    rw [unlink_find] at h
    split at h
    · simp at h
    · rename_i hb
      cases hrd : read_block d b with
      | none => simp [hrd] at h
      | some entries =>
        simp only [hrd] at h
        cases hfi : first_index (entry_matches entries name) ENTRIES_PER_BLOCK 0 with
        | some j0 =>
          simp only [hfi, Option.some.injEq, Prod.mk.injEq] at h
          obtain ⟨h1, h2, h3⟩ := h
          subst h2 h3
          obtain ⟨_, f2, f3, f4⟩ := first_index_some hfi
          have e : i0 - i0 = 0 := by omega
          rw [e]
          refine ⟨le_refl _, by simp, ?_, ?_, entries, ?_, by omega, f3, ?_, h1.symm⟩
          · intro k hk
            have : k = 0 := by omega
            subst this
            simpa using hb
          · intro k hk
            omega
          · simpa using hrd
          · intro j1 hj1
            exact f4 j1 (Nat.zero_le _) hj1
        | none =>
          simp only [hfi] at h
          obtain ⟨g1, g2, g3, g4, entries1, g5, g6, g7, g8, g9⟩ := ih h
          have e : i - i0 = (i - (i0 + 1)) + 1 := by omega
          rw [e]
          refine ⟨by omega, by simp only [List.length_cons]; omega, ?_, ?_, entries1, ?_,
            g6, g7, g8, g9⟩
          · intro k hk
            cases k with
            | zero => simpa using hb
            | succ k =>
              simp only [List.getD_cons_succ]
              exact g3 k (by omega)
          · intro k hk e1 he1 j1 hj1
            cases k with
            | zero =>
              simp only [List.getD_cons_zero] at he1
              rw [hrd] at he1
              simp only [Option.some.injEq] at he1
              subst he1
              exact first_index_none hfi j1 (Nat.zero_le _) (by omega)
            | succ k =>
              simp only [List.getD_cons_succ] at he1
              exact g4 k (by omega) e1 he1 j1 hj1
          · simpa using g5

theorem takeWhile_prefix (l : List Int) :
    ∀ i : Nat, i < l.length → (∀ k, k ≤ i → l.getD k (-1) ≠ -1) →
      i < (l.takeWhile (fun b => decide (b ≠ -1))).length ∧
      ∀ k, k ≤ i → (l.takeWhile (fun b => decide (b ≠ -1))).getD k (-1) = l.getD k (-1) := by
  induction l with
  | nil => intro i hi; simp at hi
  | cons b rest ih =>
    intro i hi hk
    have hb : b ≠ -1 := by simpa using hk 0 (Nat.zero_le _)
    have hdec : decide (b ≠ -1) = true := by simp [hb]
    rw [List.takeWhile_cons, hdec]
    simp only [if_true, List.length_cons]
    cases i with
    | zero =>
      refine ⟨by omega, ?_⟩
      intro k hk0
      have : k = 0 := by omega
      subst this
      simp
    | succ i =>
      obtain ⟨h1, h2⟩ := ih i (by simpa using hi) (fun k hk1 => by
        have := hk (k + 1) (by omega)
        simpa using this)
      refine ⟨by omega, ?_⟩
      intro k hk0
      cases k with
      | zero => simp
      | succ k =>
        simp only [List.getD_cons_succ]
        exact h2 k (by omega)

theorem mem_scanned_slots (ino : inode_t) (i j : Nat) :
    (i, j) ∈ scanned_slots ino ↔ i < (scanned_blocks ino).length ∧ j < ENTRIES_PER_BLOCK := by
  unfold scanned_slots
  simp only [List.mem_flatMap, List.mem_range, List.mem_map, Prod.mk.injEq]
  constructor
  · rintro ⟨a, ha, b, hb, rfl, rfl⟩
    exact ⟨ha, hb⟩
  · rintro ⟨h1, h2⟩
    exact ⟨i, h1, j, h2, rfl, rfl⟩

/-- Function `MFS_Lookup` answers `-1` when no scanned block that can be read holds a live
entry with the name. -/
theorem lookup_blocks_absent (d : Disk) (name : List Nat) (l : List Int)
    (h : ∀ b ∈ l.takeWhile (fun b => decide (b ≠ -1)), ∀ e, read_block d b = some e →
      ∀ j, j < ENTRIES_PER_BLOCK → entry_matches e name j = false) :
    lookup_blocks d name l = -1 := by
  induction l with
  | nil => rfl
  | cons b rest ih =>
    rw [lookup_blocks]
    split
    · rfl
    · rename_i hb
      have hdec : decide (b ≠ -1) = true := by simp [hb]
      rw [List.takeWhile_cons, hdec] at h
      simp only [if_true] at h
      cases hrd : read_block d b with
      | none => rfl
      | some entries =>
        simp only
        have hnone : first_index (entry_matches entries name) ENTRIES_PER_BLOCK 0 = none := by
          cases hfi : first_index (entry_matches entries name) ENTRIES_PER_BLOCK 0 with
          | none => rfl
          | some j =>
            obtain ⟨_, f2, f3, _⟩ := first_index_some hfi
            have := h b (List.mem_cons_self _ _) entries hrd j (by omega)
            rw [this] at f3
            exact absurd f3 (by simp)
        simp only [hnone]
        exact ih (fun b1 hb1 => h b1 (List.mem_cons_of_mem _ hb1))

end NFS

namespace NFS

/-! ## Unlink: the path that returns 0 -/

/-- The end of `MFS_Unlink`, when it returns 0: the freeing touches no byte from
the inode region on, then the entry is cleared in the parent's block and the
parent inode is stored with its size lowered by one entry. -/
theorem unlink_remove_zero {sb : super_t} {d d1 : Disk} {pinum : Int} {pino tino : inode_t}
    {t : Int} {i j : Nat} (hlay : layout_ok sb) (ht : int32 t)
    (h : unlink_remove sb d pinum pino tino t i j = (0, d1)) :
    ∃ d2 entries d3, same_from (sb.inode_region_addr * 4096) d d2 ∧
      read_block d2 (pino.direct.getD i 0) = some entries ∧
      write_block d2 (pino.direct.getD i 0)
        (memset0 (wr32 entries (SIZEOF_DIRENT * j + 28) (-1)) (SIZEOF_DIRENT * j) 28) = some d3 ∧
      put_inode sb d3 pinum { pino with size := wrap32 (pino.size - 32) } = (0, d1) := by
  unfold unlink_remove at h
  simp only at h
  have f1 := free_blocks_frame sb hlay tino.direct d
  have f2 := free_inode_frame sb (free_blocks sb d tino.direct).2 t hlay ht
  split at h
  · simp at h
  · split at h
    · simp at h
    · cases hrd : read_block (free_inode sb (free_blocks sb d tino.direct).2 t).2
          (pino.direct.getD i 0) with
      | none =>
        simp only [hrd] at h
        simp at h
      | some entries =>
        simp only [hrd] at h
        cases hw : write_block (free_inode sb (free_blocks sb d tino.direct).2 t).2
            (pino.direct.getD i 0)
            (memset0 (wr32 entries (SIZEOF_DIRENT * j + 28) (-1)) (SIZEOF_DIRENT * j) 28) with
        | none =>
          simp only [hw] at h
          simp at h
        | some d3 =>
          simp only [hw] at h
          refine ⟨_, entries, d3, same_from_trans f1 f2, hrd, hw, ?_⟩
          split at h
          · simp at h
          · rename_i hp
            simp only [Prod.mk.injEq, true_and] at h
            apply Prod.ext
            · simpa using hp
            · exact h

/-- The steps of a call of `MFS_Unlink` that returns 0. -/
theorem MFS_Unlink_zero {sb : super_t} {depth : Nat} {d d1 : Disk} {pinum : Int}
    {name : List Nat} (hlay : layout_ok sb)
    (h : MFS_Unlink sb depth d pinum name = some (0, d1)) :
    name.length ≤ 27 ∧ ∃ pino, get_inode sb d pinum = some pino ∧ pino.type = UFS_DIRECTORY ∧
      ((unlink_find d name pino.direct 0 = some none ∧ d1 = d) ∨
        ∃ t i j d2 entries d3,
          unlink_find d name pino.direct 0 = some (some (t, i, j)) ∧
          same_from (sb.inode_region_addr * 4096) d d2 ∧
          read_block d2 (pino.direct.getD i 0) = some entries ∧
          write_block d2 (pino.direct.getD i 0)
            (memset0 (wr32 entries (SIZEOF_DIRENT * j + 28) (-1)) (SIZEOF_DIRENT * j) 28)
              = some d3 ∧
          put_inode sb d3 pinum { pino with size := wrap32 (pino.size - 32) } = (0, d1)) := by
  unfold MFS_Unlink at h
  split at h
  · simp at h
  · rename_i hc
    refine ⟨by omega, ?_⟩
    cases hg : get_inode sb d pinum with
    | none => simp [hg] at h
    | some pino =>
      simp only [hg] at h
      split at h
      · simp at h
      · rename_i hdir
        refine ⟨pino, rfl, by simpa using hdir, ?_⟩
        cases hf : unlink_find d name pino.direct 0 with
        | none => simp [hf] at h
        | some o =>
          cases o with
          | none =>
            simp only [hf, Option.some.injEq, Prod.mk.injEq, true_and] at h
            left
            exact ⟨rfl, h.symm⟩
          | some x =>
            obtain ⟨t, i, j⟩ := x
            right
            simp only [hf] at h
            obtain ⟨_, _, _, _, entries0, _, _, _, _, htt⟩ := unlink_find_found hf
            have ht : int32 t := by rw [htt]; exact rd32_range _ _
            cases hgt : get_inode sb d t with
            | none => simp [hgt] at h
            | some tino =>
              simp only [hgt] at h
              split at h
              · split at h
                · simp at h
                · cases hr : remove_directory_contents sb depth d t with
                  | none => simp [hr] at h
                  | some y =>
                    obtain ⟨r, dr⟩ := y
                    simp only [hr] at h
                    split at h
                    · simp at h
                    · simp only [Option.some.injEq] at h
                      obtain ⟨d2, entries, d3, g1, g2, g3, g4⟩ := unlink_remove_zero hlay ht h
                      exact ⟨t, i, j, d2, entries, d3, rfl,
                        same_from_trans (remove_directory_contents_frame sb hlay _ _ _ _ _ hr) g1,
                        g2, g3, g4⟩
              · simp only [Option.some.injEq] at h
                obtain ⟨d2, entries, d3, g1, g2, g3, g4⟩ := unlink_remove_zero hlay ht h
                exact ⟨t, i, j, d2, entries, d3, rfl, g1, g2, g3, g4⟩

end NFS

namespace NFS

/-! ## Unlink, then lookup -/

theorem mem_getD_of_mem {l : List Int} {b : Int} (h : b ∈ l) :
    ∃ k, k < l.length ∧ l.getD k (-1) = b := by
  obtain ⟨k, hk, hb⟩ := List.mem_iff_getElem.mp h
  exact ⟨k, hk, by rw [List.getD_eq_getElem _ _ hk]; exact hb⟩

theorem live_at_eq {d : Disk} {ino : inode_t} {name : List Nat} {i : Nat} {e : Nat → Nat}
    (h : read_block d ((scanned_blocks ino).getD i (-1)) = some e) (j : Nat) :
    live_at d ino name i j = entry_matches e name j := by
  unfold live_at
  simp only [h]

/-- The cleared entry is no longer live. -/
theorem ent_inum_cleared (e entries : Nat → Nat) (j : Nat)
    (he : ∀ k, k < 4096 → e k
      = memset0 (wr32 entries (SIZEOF_DIRENT * j + 28) (-1)) (SIZEOF_DIRENT * j) 28 k % 256)
    (hj : j < 128) : ent_inum e j = -1 := by
  unfold ent_inum
  simp only [SIZEOF_DIRENT] at he ⊢
  rw [rd32_of_bytes e (32 * j + 28) (-1)]
  · decide
  · intro k hk
    rw [he _ (by omega)]
    unfold memset0 wr32
    rw [if_neg (by omega), if_pos (by omega)]
    have e1 : 32 * j + 28 + k - (32 * j + 28) = k := by omega
    rw [e1]
    exact Nat.mod_eq_of_lt (le32_byte_lt _ _)

/-- Claim C6 (amended). On a well-laid-out image, for a directory `pinum` whose
scanned blocks lie in the data region and hold at most one live entry named
`name`: whenever `MFS_Unlink(pinum, name)` returns 0, `MFS_Lookup(pinum, name)`
on the image it leaves returns `-1`. -/
theorem MFS_Unlink_then_Lookup (sb : super_t) (depth : Nat) (d d1 : Disk) (pinum : Int)
    (name : List Nat) (pino : inode_t)
    (hlay : layout_ok sb)
    (hpino : get_inode sb d pinum = some pino)
    (hblocks : blocks_in_data_region sb pino)
    (huniq : name_unique d pino name)
    (hunlink : MFS_Unlink sb depth d pinum name = some (0, d1)) :
    MFS_Lookup sb d1 pinum name = -1 := by
  obtain ⟨hlen, pino1, hp1, hdir, hcase⟩ := MFS_Unlink_zero hlay hunlink
  rw [hpino] at hp1
  simp only [Option.some.injEq] at hp1
  subst hp1
  rcases hcase with ⟨hf, hd⟩ | ⟨t, i, j, d2, entries, d3, hf, hsame, hrd, hw, hput⟩
  · subst hd
    rw [MFS_Lookup_of_get_inode name hpino hdir,
      lookup_blocks_eq_unlink_find d1 name pino.direct 0, hf]
  · have hlay0 := hlay
    unfold layout_ok at hlay0
    obtain ⟨_, hil, hnz, hnomatch, entries0, hrd0, hj, hmatch, hfirst, htt⟩ := unlink_find_found hf
    simp only [Nat.sub_zero] at hil hnz hnomatch hrd0
    obtain ⟨hiscan, hscan⟩ := takeWhile_prefix pino.direct i hil hnz
    have hbt : pino.direct.getD i 0 = (scanned_blocks pino).getD i (-1) := by
      unfold scanned_blocks
      rw [hscan i (le_refl _), List.getD_eq_getElem _ _ hil, List.getD_eq_getElem _ _ hil]
    have hbt0 : pino.direct.getD i (-1) = (scanned_blocks pino).getD i (-1) := by
      unfold scanned_blocks
      rw [hscan i (le_refl _)]
    have hbtmem : (scanned_blocks pino).getD i (-1) ∈ scanned_blocks pino := by
      have hi2 : i < (scanned_blocks pino).length := hiscan
      rw [List.getD_eq_getElem _ _ hi2]
      exact List.getElem_mem hi2
    rw [hbt] at hrd hw
    rw [hbt0] at hrd0
    generalize hbtdef : (scanned_blocks pino).getD i (-1) = bt at *
    have hbtr := hblocks bt hbtmem
    -- the images in between
    obtain ⟨hfit2, hent⟩ := read_block_some (by omega) (by omega) hrd
    obtain ⟨hsz32, hout32⟩ := write_block_frame (by omega) (by omega) hfit2 hw
    obtain ⟨hp0, hp1, hri⟩ := get_inode_some hpino
    have hfitino : (inode_addr sb pinum).toNat + 128 ≤ d3.size := by
      unfold read_inode at hri
      cases hpr : pread d SIZEOF_INODE (inode_addr sb pinum) with
      | none => simp [hpr] at hri
      | some buf =>
        have := (pread_some hpr).2.1
        simp only [SIZEOF_INODE] at this
        have h2 := hsame.1
        omega
    obtain ⟨hsz13, hout13⟩ := put_inode_frame hlay hfitino hput
    have hok1 : inode_ok { pino with size := wrap32 (pino.size - 32) } := by
      have := get_inode_ok hpino
      exact ⟨this.1, wrap32_range _, this.2.2.1, this.2.2.2⟩
    have hget1 := get_inode_put_inode hput hok1
    rw [MFS_Lookup_of_get_inode name hget1 hdir]
    show lookup_blocks d1 name pino.direct = -1
    -- the old content of the target block
    have hrd20 : read_block d2 bt = read_block d bt :=
      read_block_congr bt (by omega) (by omega) hsame.1
        (fun a ha1 ha2 => hsame.2 a (by omega))
    have hee : entries = entries0 := by
      rw [hrd20, hrd0] at hrd
      simpa using hrd.symm
    subst hee
    have hislot : (i, j) ∈ scanned_slots pino := (mem_scanned_slots pino i j).mpr ⟨hiscan, hj⟩
    have hlive_ij : live_at d pino name i j = true := by
      rw [live_at_eq (by rw [hbtdef]; exact hrd0) j]
      exact hmatch
    apply lookup_blocks_absent
    intro b hbmem0 e he j1 hj1
    have hbmem : b ∈ scanned_blocks pino := hbmem0
    have hbr := hblocks b hbmem
    obtain ⟨k, hk, hkb⟩ := mem_getD_of_mem hbmem
    have hkslot : (k, j1) ∈ scanned_slots pino := (mem_scanned_slots pino k j1).mpr ⟨hk, hj1⟩
    have hrd13 : read_block d1 b = read_block d3 b :=
      read_block_congr b (by omega) (by omega) hsz13
        (fun a ha1 ha2 => hout13 a (Or.inr (by omega)))
    by_cases hbb : b = bt
    · subst hbb
      obtain ⟨buf1, hb1, hbuf1⟩ := read_block_write_block hw
      rw [hrd13, hb1] at he
      simp only [Option.some.injEq] at he
      subst he
      by_cases hjj : j1 = j
      · subst hjj
        unfold entry_matches
        rw [ent_inum_cleared buf1 entries j1 hbuf1 (by simpa [ENTRIES_PER_BLOCK] using hj1)]
        rfl
      · have hj128 : j1 < 128 := by simpa [ENTRIES_PER_BLOCK] using hj1
        have hcongr : entry_matches buf1 name j1 = entry_matches entries name j1 := by
          apply entry_matches_congr _ _ _ _ hlen
          intro m hm1 hm2
          rw [hbuf1 m (by omega)]
          unfold memset0 wr32
          simp only [SIZEOF_DIRENT]
          have hne : ¬ (32 * j ≤ m ∧ m < 32 * j + 28) := by omega
          have hne2 : ¬ (32 * j + 28 ≤ m ∧ m < 32 * j + 28 + 4) := by omega
          rw [if_neg hne, if_neg hne2]
          exact Nat.mod_eq_of_lt (read_block_lt hrd m)
        rw [hcongr]
        cases hm : entry_matches entries name j1 with
        | false => rfl
        | true =>
          exfalso
          have hlive : live_at d pino name i j1 = true := by
            rw [live_at_eq (by rw [hbtdef]; exact hrd0) j1]
            exact hm
          have := huniq (i, j1) ((mem_scanned_slots pino i j1).mpr ⟨hiscan, hj1⟩) (i, j) hislot
            hlive hlive_ij
          simp only [Prod.mk.injEq, true_and] at this
          exact hjj this
    · have hrd32 : read_block d3 b = read_block d2 b :=
        read_block_congr b (by omega) (by omega) hsz32
          (fun a ha1 ha2 => hout32 a (by omega))
      have hrd2 : read_block d2 b = read_block d b :=
        read_block_congr b (by omega) (by omega) hsame.1
          (fun a ha1 ha2 => hsame.2 a (by omega))
      rw [hrd13, hrd32, hrd2] at he
      cases hm : entry_matches e name j1 with
      | false => rfl
      | true =>
        exfalso
        have hlive : live_at d pino name k j1 = true := by
          rw [live_at_eq (by rw [hkb]; exact he) j1]
          exact hm
        have := huniq (k, j1) hkslot (i, j) hislot hlive hlive_ij
        simp only [Prod.mk.injEq] at this
        apply hbb
        rw [← hkb, this.1, hbtdef]

theorem result_eq_of_fst (o : Option (Int × Disk)) (d0 : Disk) (r : Int)
    (h : o.map Prod.fst = some r) : o = some (r, (o.map Prod.snd).getD d0) := by
  cases o with
  | none => simp at h
  | some x =>
    simp only [Option.map_some', Option.some.injEq] at h
    simp only [Option.map_some', Option.getD_some, Option.some.injEq]
    exact Prod.ext h rfl

set_option maxRecDepth 100000 in
/-- Witness of C6 (amended): file `f` is unlinked from directory `d` (inode 1) and
is no longer found there. -/
theorem MFS_Unlink_then_Lookup_witness :
    MFS_Lookup demo_sb file_unlinked_image 1 [102] = -1 :=
  MFS_Unlink_then_Lookup demo_sb 0 dir_with_file_image file_unlinked_image 1 [102]
    { type := UFS_DIRECTORY, size := 96, direct := 5 :: List.replicate 29 (-1) }
    (by decide) (by decide) (by decide) (by decide)
    (result_eq_of_fst _ dir_with_file_image 0 (by decide))

set_option maxRecDepth 100000 in
/-- Counterexample to C6 as stated: the root directory of `dup_name_image` holds
two live entries named `a`; `MFS_Unlink(0, "a")` returns 0 and removes the first,
and `MFS_Lookup(0, "a")` then finds the second, inode 2. -/
theorem MFS_Unlink_then_Lookup_duplicate_name :
    (get_inode demo_sb dup_name_image 0).map (fun ino => ino.type) = some UFS_DIRECTORY
      ∧ (MFS_Unlink demo_sb 0 dup_name_image 0 [97]).map Prod.fst = some 0
      ∧ (MFS_Unlink demo_sb 0 dup_name_image 0 [97]).map
          (fun r => MFS_Lookup demo_sb r.2 0 [97]) = some 2 := by
  decide

end NFS

namespace NFS

/-! ## Creation: inserting the entry, then looking it up -/

theorem first_index_of_first {p : Nat → Bool} :
    ∀ (n s j : Nat), s ≤ j → j < s + n → p j = true → (∀ i, s ≤ i → i < j → p i = false) →
      first_index p n s = some j := by
  intro n
  induction n with
  | zero => intro s j h1 h2; omega
  | succ n ih =>
    intro s j h1 h2 h3 h4
    rw [first_index]
    by_cases hsj : s = j
    · subst hsj
      rw [h3]
      simp
    · rw [h4 s (le_refl _) (by omega)]
      simp only [Bool.false_eq_true, if_false]
      exact ih (s + 1) j (by omega) (by omega) h3 (fun i hi1 hi2 => h4 i (by omega) hi2)

/-- After `strcpy` of a name of byte-sized characters, the bytes spell the name. -/
theorem strcmp_eq_strcpy (buf e : Nat → Nat) (p : Nat) (name : List Nat)
    (hchars : ∀ c ∈ name, c < 256)
    (he : ∀ k, k ≤ name.length → e (p + k) = strcpy buf p name (p + k) % 256) :
    strcmp_eq e p name = true := by
  have key : ∀ (l : List Nat) (q : Nat), (∀ c ∈ l, c < 256) →
      (∀ k, k < l.length → e (q + k) = l.getD k 0) → e (q + l.length) = 0 →
      strcmp_eq e q l = true := by
    intro l
    induction l with
    | nil =>
      intro q _ _ h0
      simp only [List.length_nil, Nat.add_zero] at h0
      simp [strcmp_eq, h0]
    | cons c cs ih =>
      intro q hc hk h0
      rw [strcmp_eq]
      have h1 := hk 0 (by simp)
      simp only [Nat.add_zero, List.getD_cons_zero] at h1
      rw [h1]
      simp only [beq_self_eq_true, Bool.true_and]
      apply ih (q + 1) (fun x hx => hc x (List.mem_cons_of_mem _ hx))
      · intro k hk1
        have := hk (k + 1) (by simp only [List.length_cons]; omega)
        simp only [List.getD_cons_succ] at this
        rw [← this]
        congr 1
        omega
      · rw [← h0]
        congr 1
        simp only [List.length_cons]
        omega
  apply key name p hchars
  · intro k hk
    rw [he k (by omega)]
    unfold strcpy
    rw [if_pos (by omega)]
    have e1 : p + k - p = k := by omega
    rw [e1]
    apply Nat.mod_eq_of_lt
    rw [List.getD_eq_getElem _ _ hk]
    exact hchars _ (List.getElem_mem hk)
  · rw [he name.length (le_refl _)]
    unfold strcpy
    rw [if_neg (by omega), if_pos rfl]

/-- The entry `MFS_Creat` writes is live, carries the name and the new inode
number. -/
theorem entry_written (entries e : Nat → Nat) (name : List Nat) (j : Nat) (n : Int)
    (hj : j < 128) (hlen : name.length ≤ 27) (hchars : ∀ c ∈ name, c < 256)
    (hn0 : 0 ≤ n) (hn1 : n < 2147483648)
    (he : ∀ k, k < 4096 → e k
      = wr32 (strcpy entries (SIZEOF_DIRENT * j) name) (SIZEOF_DIRENT * j + 28) n k % 256) :
    ent_inum e j = n ∧ entry_matches e name j = true := by
  simp only [SIZEOF_DIRENT] at he
  have h1 : ent_inum e j = n := by
    unfold ent_inum
    simp only [SIZEOF_DIRENT]
    rw [rd32_of_bytes e (32 * j + 28) n, wrap32_of_range (by omega) hn1]
    intro k hk
    rw [he _ (by omega)]
    unfold wr32
    rw [if_pos (by omega)]
    have e1 : 32 * j + 28 + k - (32 * j + 28) = k := by omega
    rw [e1]
    exact Nat.mod_eq_of_lt (le32_byte_lt _ _)
  refine ⟨h1, ?_⟩
  unfold entry_matches
  rw [h1]
  have hne : (n != -1) = true := by
    simp only [bne_iff_ne, ne_eq]
    omega
  rw [hne, Bool.true_and]
  simp only [SIZEOF_DIRENT]
  apply strcmp_eq_strcpy entries e (32 * j) name hchars
  intro k hk
  rw [he _ (by omega)]
  unfold wr32
  rw [if_neg (by omega)]

theorem first_index_eq_none {p : Nat → Bool} :
    ∀ (n s : Nat), (∀ i, s ≤ i → i < s + n → p i = false) → first_index p n s = none := by
  intro n
  induction n with
  | zero => intro s _; rfl
  | succ n ih =>
    intro s h
    rw [first_index, h s (le_refl _) (by omega)]
    simp only [Bool.false_eq_true, if_false]
    exact ih (s + 1) (fun i h1 h2 => h i (by omega) (by omega))

theorem read_block_of_fits (d : Disk) (b : Int) (h0 : 0 ≤ b) (h1 : b ≤ 524287)
    (hfit : b * 4096 + 4096 ≤ (d.size : Int)) : ∃ e, read_block d b = some e := by
  unfold read_block
  rw [block_addr b h0 h1, pread_of_fits d 4096 (b * 4096) (by omega) (by omega)]
  exact ⟨_, rfl⟩

theorem write_block_ok (d : Disk) (b : Int) (buf : Nat → Nat) (h0 : 0 ≤ b) (h1 : b ≤ 524287) :
    ∃ d1, write_block d b buf = some d1 := by
  unfold write_block
  rw [block_addr b h0 h1]
  exact pwrite_of_nonneg d buf 4096 (b * 4096) (by omega)

theorem put_inode_ok (sb : super_t) (d : Disk) (inum : Int) (ino : inode_t)
    (hlay : layout_ok sb) (h0 : 0 ≤ inum) (h1 : inum < sb.num_inodes) :
    ∃ d1, put_inode sb d inum ino = (0, d1) := by
  obtain ⟨_, e1, _⟩ := inode_addr_eq sb inum hlay h0 h1
  unfold layout_ok at hlay
  obtain ⟨d1, hd1⟩ := pwrite_of_nonneg d (encode_inode ino) SIZEOF_INODE (inode_addr sb inum)
    (by omega)
  refine ⟨d1, ?_⟩
  unfold put_inode
  rw [if_neg (by omega)]
  simp only [hd1]

/-- The insertion loop of `MFS_Creat` on a directory whose scanned blocks lie in
the data region, hold no live entry with the name and have a free slot: it
returns 0, `MFS_Lookup`'s scan of the image it leaves finds the new inode number,
and it changed nothing outside one directory block and the inode region. -/
theorem creat_insert_lookup (sb : super_t) (hlay : layout_ok sb) (da : Disk) (pinum : Int)
    (pino : inode_t) (name : List Nat) (n : Int)
    (hcov : (sb.data_region_addr + sb.data_region_len) * 4096 ≤ (da.size : Int))
    (hp0 : 0 ≤ pinum) (hp1 : pinum < sb.num_inodes) (hn0 : 0 ≤ n) (hn1 : n < 2147483648)
    (hlen : name.length ≤ 27) (hchars : ∀ c ∈ name, c < 256) :
    ∀ l : List Int,
      (∀ b ∈ l.takeWhile (fun b => decide (b ≠ -1)),
        sb.data_region_addr ≤ b ∧ b < sb.data_region_addr + sb.data_region_len) →
      (∀ b ∈ l.takeWhile (fun b => decide (b ≠ -1)), ∀ e, read_block da b = some e →
        ∀ j, j < ENTRIES_PER_BLOCK → entry_matches e name j = false) →
      (∃ b ∈ l.takeWhile (fun b => decide (b ≠ -1)), ∃ e, read_block da b = some e ∧
        ∃ j, j < ENTRIES_PER_BLOCK ∧ ent_inum e j = -1) →
      (creat_insert sb da pinum pino name n l).1 = 0 ∧
      lookup_blocks (creat_insert sb da pinum pino name n l).2 name l = n ∧
      ∃ bi, (∃ e j, read_block da bi = some e ∧ j < ENTRIES_PER_BLOCK ∧ ent_inum e j = -1) ∧
        sb.data_region_addr ≤ bi ∧ bi < sb.data_region_addr + sb.data_region_len ∧
        (creat_insert sb da pinum pino name n l).2.size = da.size ∧
        ∀ a : Nat, ((a : Int) < bi * 4096 ∨ bi * 4096 + 4096 ≤ (a : Int)) →
          ((a : Int) < sb.inode_region_addr * 4096
            ∨ (sb.inode_region_addr + sb.inode_region_len) * 4096 ≤ (a : Int)) →
          (creat_insert sb da pinum pino name n l).2.byte a = da.byte a := by
  have hlay0 := hlay
  unfold layout_ok at hlay0
  obtain ⟨_, _, hino_end⟩ := inode_addr_eq sb pinum hlay hp0 hp1
  intro l
  induction l with
  | nil =>
    intro _ _ hfree
    obtain ⟨b, hb, _⟩ := hfree
    simp at hb
  | cons b rest ih =>
    intro hblk habs hfree
    by_cases hb : b = -1
    · obtain ⟨b1, hb1, _⟩ := hfree
      rw [List.takeWhile_cons] at hb1
      simp [hb] at hb1
    · have hdec : decide (b ≠ -1) = true := by simp [hb]
      rw [List.takeWhile_cons, hdec] at hblk habs hfree
      simp only [if_true] at hblk habs hfree
      have hbr := hblk b (List.mem_cons_self _ _)
      obtain ⟨entries, hrd⟩ := read_block_of_fits da b (by omega) (by omega) (by omega)
      have habs_b := habs b (List.mem_cons_self _ _) entries hrd
      obtain ⟨hfitb, _⟩ := read_block_some (by omega) (by omega) hrd
      rw [creat_insert, lookup_blocks]
      simp only [hb, if_false, hrd]
      cases hfi : first_index (fun j => ent_inum entries j == -1) ENTRIES_PER_BLOCK 0 with
      | some j =>
        simp only
        obtain ⟨_, fj, ffree, _⟩ := first_index_some hfi
        have hj : j < 128 := by simpa [ENTRIES_PER_BLOCK] using fj
        obtain ⟨d0, hw⟩ := write_block_ok da b
          (wr32 (strcpy entries (SIZEOF_DIRENT * j) name) (SIZEOF_DIRENT * j + 28) n)
          (by omega) (by omega)
        obtain ⟨d1, hput⟩ := put_inode_ok sb d0 pinum
          { pino with size := wrap32 (pino.size + 32) } hlay hp0 hp1
        simp only [hw, hput, if_true]
        obtain ⟨hsz0, hout0⟩ := write_block_frame (by omega) (by omega) hfitb hw
        obtain ⟨hsz1, hout1⟩ := put_inode_frame hlay (by omega) hput
        obtain ⟨buf1, hb1, hbuf1⟩ := read_block_write_block hw
        have hrd1 : read_block d1 b = some buf1 := by
          rw [← hb1]
          exact read_block_congr b (by omega) (by omega) hsz1
            (fun a ha1 ha2 => hout1 a (Or.inr (by omega)))
        obtain ⟨hinum, hmatch⟩ := entry_written entries buf1 name j n hj hlen hchars hn0 hn1 hbuf1
        have hfirst : first_index (entry_matches buf1 name) ENTRIES_PER_BLOCK 0 = some j := by
          apply first_index_of_first _ _ _ (Nat.zero_le _) (by omega) hmatch
          intro i _ hij
          have hcongr : entry_matches buf1 name i = entry_matches entries name i := by
            apply entry_matches_congr _ _ _ _ hlen
            intro m hm1 hm2
            rw [hbuf1 m (by omega)]
            unfold wr32 strcpy
            simp only [SIZEOF_DIRENT]
            rw [if_neg (by omega), if_neg (by omega), if_neg (by omega)]
            exact Nat.mod_eq_of_lt (read_block_lt hrd m)
          rw [hcongr]
          exact habs_b i (by omega)
        simp only [hrd1, hfirst]
        refine ⟨trivial, hinum, b, ⟨entries, j, hrd, fj, by simpa using ffree⟩, hbr.1, hbr.2,
          by omega, ?_⟩
        intro a ha1 ha2
        rw [hout1 a ha2, hout0 a ha1]
      | none =>
        simp only
        have hnofree := first_index_none hfi
        have hfree_rest : ∃ b1 ∈ rest.takeWhile (fun b => decide (b ≠ -1)), ∃ e,
            read_block da b1 = some e ∧ ∃ j, j < ENTRIES_PER_BLOCK ∧ ent_inum e j = -1 := by
          obtain ⟨b1, hb1, e, he, j, hj, hje⟩ := hfree
          rcases List.mem_cons.mp hb1 with h | h
          · subst h
            rw [hrd] at he
            simp only [Option.some.injEq] at he
            subst he
            have := hnofree j (Nat.zero_le _) (by omega)
            simp [hje] at this
          · exact ⟨b1, h, e, he, j, hj, hje⟩
        obtain ⟨r1, r2, bi, ⟨ei, ji, hei, hji, hfi2⟩, hbi1, hbi2, hsz, hout⟩ :=
          ih (fun b1 hb1 => hblk b1 (List.mem_cons_of_mem _ hb1))
            (fun b1 hb1 => habs b1 (List.mem_cons_of_mem _ hb1)) hfree_rest
        have hbbi : b ≠ bi := by
          intro h
          subst h
          rw [hrd] at hei
          simp only [Option.some.injEq] at hei
          subst hei
          have := hnofree ji (Nat.zero_le _) (by omega)
          simp [hfi2] at this
        have hrdr : read_block (creat_insert sb da pinum pino name n rest).2 b = some entries := by
          rw [← hrd]
          exact read_block_congr b (by omega) (by omega) hsz
            (fun a ha1 ha2 => hout a (by omega) (Or.inr (by omega)))
        have hnone : first_index (entry_matches entries name) ENTRIES_PER_BLOCK 0 = none :=
          first_index_eq_none _ _ (fun i _ hi => habs_b i (by omega))
        simp only [hrdr, hnone]
        exact ⟨r1, r2, bi, ⟨ei, ji, hei, hji, hfi2⟩, hbi1, hbi2, hsz, hout⟩

end NFS

namespace NFS

/-! ## Creation: the steps before the entry is inserted -/

/-- The steps of `MFS_Creat` between the allocation of the inode and the
insertion of the entry succeed when, for a directory, a data block can be
allocated; they leave the image its length and every allocated block of the data
region its content. -/
theorem creat_prepare (sb : super_t) (d : Disk) (junk : Nat → Nat) (pinum type : Int)
    (new_inode : inode_t) (hlay : layout_ok sb)
    (hcov : (sb.data_region_addr + sb.data_region_len) * 4096 ≤ (d.size : Int))
    (hinode : (allocate_inode sb d).1 ≠ -1)
    (hblock : type = UFS_DIRECTORY → (allocate_data_block sb (allocate_inode sb d).2).1 ≠ -1) :
    ∃ db ino1 da,
      creat_bootstrap sb (allocate_inode sb d).2 junk pinum type (allocate_inode sb d).1 new_inode
        = .ok (db, ino1) ∧
      put_inode sb db (allocate_inode sb d).1 ino1 = (0, da) ∧
      da.size = d.size ∧
      ∀ b : Int, sb.data_region_addr ≤ b → b < sb.data_region_addr + sb.data_region_len →
        bitmap_bit d sb.data_bitmap_addr (b - sb.data_region_addr).toNat = true →
        read_block da b = read_block d b := by
  have hlay0 := hlay
  unfold layout_ok at hlay0
  obtain ⟨n0, n1, _, _, isz, iout, ilt, _⟩ := allocate_inode_spec sb d hlay hinode
  generalize hdi : (allocate_inode sb d).2 = di at *
  generalize hn : (allocate_inode sb d).1 = n at *
  -- the image after the bootstrap of a directory
  have hboot : ∃ db ino1, creat_bootstrap sb di junk pinum type n new_inode = .ok (db, ino1) ∧
      db.size = d.size ∧
      ∀ b : Int, sb.data_region_addr ≤ b → b < sb.data_region_addr + sb.data_region_len →
        bitmap_bit d sb.data_bitmap_addr (b - sb.data_region_addr).toNat = true →
        read_block db b = read_block d b := by
    unfold creat_bootstrap
    by_cases hty : type = UFS_DIRECTORY
    · rw [if_pos hty]
      simp only
      have hblk := hblock hty
      rw [if_neg hblk]
      obtain ⟨idx, x0, x1, xeq, xclear, xsz, xout, xlt, _, _⟩ :=
        allocate_data_block_spec sb di hlay hblk
      generalize hd2 : (allocate_data_block sb di).2 = d2 at *
      rw [xeq]
      obtain ⟨d3, hw⟩ := write_block_ok d2 (sb.data_region_addr + idx)
        (bootstrap_entries junk n pinum) (by omega) (by omega)
      obtain ⟨wsz, wout⟩ := write_block_frame (by omega) (by omega) (by omega) hw
      simp only [hw]
      refine ⟨_, _, rfl, by omega, ?_⟩
      intro b hb0 hb1 hbit
      have hne : b ≠ sb.data_region_addr + idx := by
        intro h
        have hbit_di : bitmap_bit di sb.data_bitmap_addr (b - sb.data_region_addr).toNat
            = bitmap_bit d sb.data_bitmap_addr (b - sb.data_region_addr).toNat := by
          unfold bitmap_bit
          simp only [UFS_BLOCK_SIZE]
          rw [iout _ (by omega)]
        rw [h] at hbit_di hbit
        have e : (sb.data_region_addr + idx - sb.data_region_addr).toNat = idx.toNat := by omega
        rw [e] at hbit_di hbit
        rw [xclear] at hbit_di
        rw [hbit] at hbit_di
        exact absurd hbit_di (by simp)
      apply read_block_congr b (by omega) (by omega) (by omega)
      intro a ha1 ha2
      rw [wout a (by omega), xout a (by omega), iout a (by omega)]
    · rw [if_neg hty]
      refine ⟨_, _, rfl, isz, ?_⟩
      intro b hb0 hb1 _
      apply read_block_congr b (by omega) (by omega) isz
      intro a ha1 ha2
      exact iout a (by omega)
  obtain ⟨db, ino1, hb1, hb2, hb3⟩ := hboot
  obtain ⟨da, hput⟩ := put_inode_ok sb db n ino1 hlay n0 n1
  obtain ⟨_, _, hend⟩ := inode_addr_eq sb n hlay n0 n1
  obtain ⟨psz, pout⟩ := put_inode_frame hlay (by omega) hput
  refine ⟨db, ino1, da, hb1, hput, by omega, ?_⟩
  intro b hb0 hb1' hbit
  rw [← hb3 b hb0 hb1' hbit]
  apply read_block_congr b (by omega) (by omega) psz
  intro a ha1 ha2
  exact pout a (Or.inr (by omega))

end NFS

namespace NFS

/-! ## Create, then lookup -/

theorem mem_scanned_entries {d : Disk} {ino : inode_t} {b : Int} {e : Nat → Nat} {j : Nat}
    (hb : b ∈ scanned_blocks ino) (he : read_block d b = some e) (hj : j < ENTRIES_PER_BLOCK) :
    (e, j) ∈ scanned_entries d ino := by
  unfold scanned_entries
  rw [List.mem_flatMap]
  refine ⟨b, hb, ?_⟩
  unfold block_entries
  simp only [he, List.mem_map, List.mem_range, Prod.mk.injEq, true_and, exists_eq_right]
  exact hj

theorem of_mem_scanned_entries {d : Disk} {ino : inode_t} {x : (Nat → Nat) × Nat}
    (h : x ∈ scanned_entries d ino) :
    ∃ b ∈ scanned_blocks ino, read_block d b = some x.1 ∧ x.2 < ENTRIES_PER_BLOCK := by
  unfold scanned_entries at h
  rw [List.mem_flatMap] at h
  obtain ⟨b, hb, hx⟩ := h
  refine ⟨b, hb, ?_⟩
  unfold block_entries at hx
  cases hrd : read_block d b with
  | none => simp [hrd] at hx
  | some e =>
    simp only [hrd, List.mem_map, List.mem_range] at hx
    obtain ⟨j, hj, hjx⟩ := hx
    rw [← hjx]
    exact ⟨rfl, hj⟩

/-- Claim C4 (amended). On a well-laid-out image that contains its data region, let
`pinum` be a directory whose scanned blocks lie in the data region, are marked
allocated, hold no live entry named `name` and have a free slot; let `name` have
at most 27 characters and `type` be a file or a directory.  When `allocate_inode`
finds an inode and, for a directory, `allocate_data_block` finds a block, then
`MFS_Creat(pinum, type, name)` returns 0 and `MFS_Lookup(pinum, name)` on the
image it leaves returns the inode number allocated; that number had its
inode-bitmap bit clear before the call and is the lowest such of its bitmap
block. -/
theorem MFS_Creat_then_Lookup (sb : super_t) (d : Disk) (junk : Nat → Nat) (pinum type : Int)
    (name : List Nat) (pino : inode_t)
    (hlay : layout_ok sb)
    (hcov : (sb.data_region_addr + sb.data_region_len) * 4096 ≤ (d.size : Int))
    (hpino : get_inode sb d pinum = some pino) (hdir : pino.type = UFS_DIRECTORY)
    (htype : type = UFS_REGULAR_FILE ∨ type = UFS_DIRECTORY)
    (hlen : name.length ≤ 27) (hchars : ∀ c ∈ name, 0 < c ∧ c < 256)
    (hblocks : blocks_in_data_region sb pino) (hmarked : blocks_allocated sb d pino)
    (habs : ∀ e ∈ scanned_entries d pino, live_named name e = false)
    (hfree : ∃ e ∈ scanned_entries d pino, ent_inum e.1 e.2 = -1)
    (hinode : (allocate_inode sb d).1 ≠ -1)
    (hblock : type = UFS_DIRECTORY →
      (allocate_data_block sb (allocate_inode sb d).2).1 ≠ -1) :
    (MFS_Creat sb d junk pinum type name).1 = 0 ∧
      MFS_Lookup sb (MFS_Creat sb d junk pinum type name).2 pinum name
        = (allocate_inode sb d).1 ∧
      0 ≤ (allocate_inode sb d).1 ∧
      bitmap_bit d sb.inode_bitmap_addr (allocate_inode sb d).1.toNat = false ∧
      ∀ k : Int, 0 ≤ k → k < (allocate_inode sb d).1 →
        k / 32768 = (allocate_inode sb d).1 / 32768 →
        bitmap_bit d sb.inode_bitmap_addr k.toNat = true := by
  have hlay0 := hlay
  unfold layout_ok at hlay0
  obtain ⟨hp0, hp1, _⟩ := get_inode_some hpino
  obtain ⟨n0, n1, nclear, nlow, _, _, _, _⟩ := allocate_inode_spec sb d hlay hinode
  -- the name is absent: `MFS_Lookup` before the call answers -1
  have habs_d : ∀ b ∈ scanned_blocks pino, ∀ e, read_block d b = some e →
      ∀ j, j < ENTRIES_PER_BLOCK → entry_matches e name j = false := by
    intro b hb e he j hj
    exact habs (e, j) (mem_scanned_entries hb he hj)
  have hlook : MFS_Lookup sb d pinum name = -1 := by
    rw [MFS_Lookup_of_get_inode name hpino hdir]
    exact lookup_blocks_absent d name pino.direct habs_d
  -- the steps up to the insertion
  obtain ⟨db, ino1, da, hboot, hput, hsz, hsame⟩ := creat_prepare sb d junk pinum type
    { type := type, size := if type = UFS_DIRECTORY then 64 else 0,
      direct := List.replicate DIRECT_PTRS (-1) } hlay hcov hinode hblock
  have hsame_b : ∀ b ∈ scanned_blocks pino, read_block da b = read_block d b := by
    intro b hb
    have := hblocks b hb
    exact hsame b this.1 this.2 (hmarked b hb)
  have habs_a : ∀ b ∈ pino.direct.takeWhile (fun b => decide (b ≠ -1)), ∀ e,
      read_block da b = some e → ∀ j, j < ENTRIES_PER_BLOCK → entry_matches e name j = false := by
    intro b hb e he j hj
    rw [hsame_b b hb] at he
    exact habs_d b hb e he j hj
  have hfree_a : ∃ b ∈ pino.direct.takeWhile (fun b => decide (b ≠ -1)), ∃ e,
      read_block da b = some e ∧ ∃ j, j < ENTRIES_PER_BLOCK ∧ ent_inum e j = -1 := by
    obtain ⟨x, hx, hxfree⟩ := hfree
    obtain ⟨b, hb, hrd, hj⟩ := of_mem_scanned_entries hx
    exact ⟨b, hb, x.1, by rw [hsame_b b hb]; exact hrd, x.2, hj, hxfree⟩
  obtain ⟨c1, c2, _⟩ := creat_insert_lookup sb hlay da pinum pino name (allocate_inode sb d).1
    (by omega) hp0 hp1 n0 (by omega) hlen (fun c hc => (hchars c hc).2) pino.direct
    hblocks habs_a hfree_a
  -- the call itself
  have hcall : MFS_Creat sb d junk pinum type name
      = creat_insert sb da pinum pino name (allocate_inode sb d).1 pino.direct := by
    unfold MFS_Creat
    have hguard : ¬ (pinum < 0 ∨ (type ≠ UFS_REGULAR_FILE ∧ type ≠ UFS_DIRECTORY)
        ∨ name.length > 27) := by
      intro h
      rcases h with h | h | h
      · omega
      · rcases htype with ht | ht
        · exact h.1 ht
        · exact h.2 ht
      · omega
    rw [if_neg hguard]
    simp only [hpino]
    rw [if_neg (by simp [hdir]), if_neg (by rw [hlook]; decide)]
    rw [if_neg hinode]
    simp only [hboot, hput]
    rw [if_neg (by simp)]
  rw [hcall]
  refine ⟨c1, ?_, n0, nclear, nlow⟩
  have hres : creat_insert sb da pinum pino name (allocate_inode sb d).1 pino.direct
      = (0, (creat_insert sb da pinum pino name (allocate_inode sb d).1 pino.direct).2) :=
    Prod.ext c1 rfl
  obtain ⟨d0, hput0⟩ := creat_insert_zero hres
  have hok : inode_ok { pino with size := wrap32 (pino.size + 32) } := by
    have := get_inode_ok hpino
    exact ⟨this.1, wrap32_range _, this.2.2.1, this.2.2.2⟩
  have hget := get_inode_put_inode hput0 hok
  rw [MFS_Lookup_of_get_inode name hget hdir]
  exact c2

end NFS

namespace NFS

set_option maxRecDepth 100000 in
/-- Witness of C4 (amended): on the empty image `MFS_Creat(0, UFS_DIRECTORY, "d")`
returns 0 and `d` is then found as the inode allocated (inode 1). -/
theorem MFS_Creat_then_Lookup_witness :
    (MFS_Creat demo_sb fresh_image free_junk 0 UFS_DIRECTORY [100]).1 = 0 ∧
      MFS_Lookup demo_sb (MFS_Creat demo_sb fresh_image free_junk 0 UFS_DIRECTORY [100]).2 0 [100]
        = (allocate_inode demo_sb fresh_image).1 ∧
      0 ≤ (allocate_inode demo_sb fresh_image).1 ∧
      bitmap_bit fresh_image demo_sb.inode_bitmap_addr (allocate_inode demo_sb fresh_image).1.toNat
        = false ∧
      ∀ k : Int, 0 ≤ k → k < (allocate_inode demo_sb fresh_image).1 →
        k / 32768 = (allocate_inode demo_sb fresh_image).1 / 32768 →
        bitmap_bit fresh_image demo_sb.inode_bitmap_addr k.toNat = true :=
  MFS_Creat_then_Lookup demo_sb fresh_image free_junk 0 UFS_DIRECTORY [100]
    { type := UFS_DIRECTORY, size := 64, direct := 4 :: List.replicate 29 (-1) }
    (by decide) (by decide) (by decide) (by decide) (by decide) (by decide) (by decide)
    (by decide) (by decide) (by decide) (by decide) (by decide) (by decide)

set_option maxRecDepth 100000 in
/-- Counterexample to C4 as stated: under `one_block_sb` the only data block of
`fresh_image` is the one of the root directory.  The root has a free entry slot
(slot 2), the name `d` is absent and inode 1 is free, yet
`MFS_Creat(0, UFS_DIRECTORY, "d")` returns `-5`: a new directory also needs a free
data block. -/
theorem MFS_Creat_directory_without_free_block :
    bitmap_bit fresh_image one_block_sb.inode_bitmap_addr 1 = false
      ∧ (read_block fresh_image 4).map (fun e => ent_inum e 2) = some (-1)
      ∧ MFS_Lookup one_block_sb fresh_image 0 [100] = -1
      ∧ (MFS_Creat one_block_sb fresh_image free_junk 0 UFS_DIRECTORY [100]).1 = -5 := by
  decide

end NFS

namespace NFS

set_option maxRecDepth 100000 in
/-- Counterexample to C1 as stated: in `full_disk_image` inode 1 is a regular
file and no data block is free; `MFS_Write(1, "a", 0, 1)` returns 0, not 1, and
the `MFS_Read` that follows returns 0 bytes. -/
theorem MFS_Write_short_on_full_disk :
    (get_inode one_block_sb full_disk_image 1).map (fun i => i.type) = some UFS_REGULAR_FILE
      ∧ (MFS_Write one_block_sb full_disk_image 1 [97] 0 1).1 = 0
      ∧ MFS_Read one_block_sb (MFS_Write one_block_sb full_disk_image 1 [97] 0 1).2 1 0 1
          = (0, []) := by
  decide

end NFS

namespace NFS

theorem getD_set_self (l : List Int) (i : Nat) (v : Int) (h : i < l.length) :
    (l.set i v).getD i 0 = v := by
  simp [List.getD_eq_getElem?_getD, h]

theorem getD_set_ne (l : List Int) (i j : Nat) (v : Int) (h : j ≠ i) :
    (l.set i v).getD j 0 = l.getD j 0 := by
  simp [List.getD_eq_getElem?_getD, List.getElem?_set_ne (Ne.symm h)]

/-- Allocating a block for an absent direct slot keeps the invariant of the
write loop. -/
theorem write_inv_alloc (sb : super_t) (d0 : Disk) (ino0 : inode_t) (B : List Nat) (O : Int)
    (d : Disk) (ino : inode_t) (bw : Int) (idx : Nat) (hlay : layout_ok sb)
    (hfit : O + B.length ≤ 122880)
    (hinv : write_inv sb d0 ino0 B O d ino bw) (hidx : idx < DIRECT_PTRS)
    (habs : ino.direct.getD idx 0 = -1)
    (hne : (allocate_data_block sb d).1 ≠ -1) :
    write_inv sb d0 ino0 B O (allocate_data_block sb d).2
      { ino with direct := ino.direct.set idx (allocate_data_block sb d).1 } bw ∧
    (ino.direct.set idx (allocate_data_block sb d).1).getD idx 0 ≠ -1 := by
  obtain ⟨i, hi0, hi1, hr, hclear, hsz, hframe, hidx8, hset, hmono⟩ :=
    allocate_data_block_spec sb d hlay hne
  generalize allocate_data_block sb d = r at *
  obtain ⟨nb, d1⟩ := r
  simp only at hne hr hsz hframe hset hmono ⊢
  have hlay0 := hlay
  unfold layout_ok at hlay0
  obtain ⟨h0, h1, hty, hsize, hok, hfb, hdsz, hkeep, hst⟩ := hinv
  have hlen : ino.direct.length = DIRECT_PTRS := hok.2.2.1
  have hself : (ino.direct.set idx nb).getD idx 0 = nb :=
    getD_set_self _ _ _ (by rw [hlen]; exact hidx)
  have hfresh : ∀ j, j < DIRECT_PTRS → ino.direct.getD j 0 ≠ -1 → ino.direct.getD j 0 ≠ nb := by
    intro j hj hp heq
    have hm := (hfb j hj hp).2.2.1
    rw [heq, hr] at hm
    have : (sb.data_region_addr + i - sb.data_region_addr) = i := by ring
    rw [this, hclear] at hm
    exact Bool.noConfusion hm
  have hbytes : ∀ a : Nat, sb.data_region_addr * 4096 ≤ (a : Int) → d1.byte a = d.byte a := by
    intro a ha
    apply hframe
    intro heq
    rw [heq] at ha
    omega
  refine ⟨⟨h0, h1, hty, hsize, ?_, ?_, ?_, ?_, ?_⟩, ?_⟩
  · refine ⟨hok.1, hok.2.1, ?_, ?_⟩
    · simp only [List.length_set]
      exact hlen
    · intro x hx
      rcases List.mem_or_eq_of_mem_set hx with hx | hx
      · exact hok.2.2.2 x hx
      · rw [hx, hr]
        unfold int32
        omega
  · intro j hj hp
    simp only at hp ⊢
    by_cases hji : j = idx
    · subst hji
      rw [hself]
      refine ⟨by omega, by omega, ?_, ?_⟩
      · rw [hr]
        have : (sb.data_region_addr + i - sb.data_region_addr) = i := by ring
        rw [this]
        exact hset
      · intro k hk hkj
        rw [getD_set_ne _ _ _ _ hkj]
        by_cases hkp : ino.direct.getD k 0 = -1
        · rw [hkp, hr]
          omega
        · exact hfresh k hk hkp
    · rw [getD_set_ne _ _ _ _ hji] at hp ⊢
      obtain ⟨ha, hb, hc, hd⟩ := hfb j hj hp
      refine ⟨ha, hb, hmono _ hc, ?_⟩
      intro k hk hkj
      by_cases hki : k = idx
      · subst hki
        rw [hself]
        exact fun h => hfresh j hj hp h.symm
      · rw [getD_set_ne _ _ _ _ hki]
        exact hd k hk hkj
  · rw [hsz]
    exact hdsz
  · intro j hj hp
    simp only
    have hji : j ≠ idx := by
      intro h
      subst h
      have := hkeep j hj hp
      rw [habs] at this
      exact hp this.symm
    rw [getD_set_ne _ _ _ _ hji]
    exact hkeep j hj hp
  · intro k hk
    obtain ⟨hp, hb⟩ := hst k hk
    simp only
    have hji : ((O + k) / 4096).toNat ≠ idx := by
      intro h
      rw [h] at hp
      exact hp habs
    rw [getD_set_ne _ _ _ _ hji]
    refine ⟨hp, ?_⟩
    rw [← hb]
    have hlt : ((O + k) / 4096).toNat < DIRECT_PTRS := by
      simp only [DIRECT_PTRS]
      omega
    obtain ⟨ha, _, _, _⟩ := hfb _ hlt hp
    have hm := Int.emod_nonneg (O + k) (by norm_num : (4096 : Int) ≠ 0)
    rw [hbytes]
    rw [Int.toNat_of_nonneg (by omega)]
    omega
  · rw [hself]
    exact hne

end NFS

namespace NFS

/-- One pass of the write loop over a present direct slot: the block is read,
the bytes are stored and the invariant holds for the advanced count. -/
theorem write_inv_step (sb : super_t) (d0 : Disk) (ino0 : inode_t) (B : List Nat) (O : Int)
    (d : Disk) (ino : inode_t) (bw : Int) (hlay : layout_ok sb)
    (hcov : (sb.data_region_addr + sb.data_region_len) * 4096 ≤ (d0.size : Int))
    (hO : 0 ≤ O) (hfit : O + B.length ≤ 122880) (hB : ∀ c ∈ B, c < 256)
    (hinv : write_inv sb d0 ino0 B O d ino bw) (hlt : bw < B.length)
    (hp : ino.direct.getD ((O + bw) / 4096).toNat 0 ≠ -1) :
    ∃ buf, read_block d (ino.direct.getD ((O + bw) / 4096).toNat 0) = some buf ∧
      ∀ btc : Int, 0 < btc → btc ≤ 4096 - (O + bw) % 4096 → bw + btc ≤ B.length →
        ∃ d2, write_block d (ino.direct.getD ((O + bw) / 4096).toNat 0)
            (fun k => if ((O + bw) % 4096).toNat ≤ k
                ∧ k < ((O + bw) % 4096).toNat + btc.toNat
              then B.getD (bw.toNat + (k - ((O + bw) % 4096).toNat)) 0 else buf k) = some d2 ∧
          write_inv sb d0 ino0 B O d2 ino (bw + btc) := by
  have hlay0 := hlay
  unfold layout_ok at hlay0
  obtain ⟨h0, h1, hty, hsize, hok, hfb, hdsz, hkeep, hst⟩ := hinv
  have hidx : ((O + bw) / 4096).toNat < DIRECT_PTRS := by
    simp only [DIRECT_PTRS]
    omega
  obtain ⟨hb0, hb1, hbm, hbd⟩ := hfb _ hidx hp
  generalize hblk : ino.direct.getD ((O + bw) / 4096).toNat 0 = blk at hb0 hb1 hbm hbd hp ⊢
  have hblk0 : 0 ≤ blk := by omega
  have hblk1 : blk ≤ 524287 := by omega
  have hblkfit : blk * 4096 + 4096 ≤ (d.size : Int) := by
    rw [hdsz]
    omega
  obtain ⟨buf, hbuf⟩ := read_block_of_fits d blk hblk0 hblk1 hblkfit
  refine ⟨buf, hbuf, ?_⟩
  intro btc hbtc0 hbtc1 hbtc2
  obtain ⟨d2, hd2⟩ := write_block_ok d blk
    (fun k => if ((O + bw) % 4096).toNat ≤ k ∧ k < ((O + bw) % 4096).toNat + btc.toNat
      then B.getD (bw.toNat + (k - ((O + bw) % 4096).toNat)) 0 else buf k) hblk0 hblk1
  refine ⟨d2, hd2, ?_⟩
  have hfitN : (blk * 4096).toNat + 4096 ≤ d.size := by omega
  obtain ⟨hsz2, hout⟩ := write_block_frame hblk0 hblk1 hfitN hd2
  obtain ⟨buf2, hbuf2, hval2⟩ := read_block_write_block hd2
  have hin := (read_block_some hblk0 hblk1 hbuf2).2
  have hold := (read_block_some hblk0 hblk1 hbuf).2
  have hB0 : ∀ k : Nat, B.getD k 0 < 256 := by
    intro k
    by_cases hk : k < B.length
    · rw [List.getD_eq_getElem _ _ hk]
      exact hB _ (List.getElem_mem hk)
    · rw [List.getD_eq_default _ _ (by omega)]
      norm_num
  have hmod := Int.emod_nonneg (O + bw) (by norm_num : (4096 : Int) ≠ 0)
  have hmodlt := Int.emod_lt_of_pos (O + bw) (by norm_num : (0 : Int) < 4096)
  refine ⟨by omega, by omega, hty, hsize, hok, ?_, ?_, hkeep, ?_⟩
  · intro j hj hpj
    obtain ⟨ha, hb, hc, hd⟩ := hfb j hj hpj
    refine ⟨ha, hb, ?_, hd⟩
    rw [← hc]
    unfold bitmap_bit
    rw [hout]
    left
    simp only [UFS_BLOCK_SIZE]
    omega
  · rw [hsz2]
    exact hdsz
  · intro k hk
    have hkm := Int.emod_nonneg (O + k) (by norm_num : (4096 : Int) ≠ 0)
    have hkmlt := Int.emod_lt_of_pos (O + k) (by norm_num : (0 : Int) < 4096)
    by_cases hkb : (k : Int) < bw
    · obtain ⟨hpk, hbk⟩ := hst k hkb
      refine ⟨hpk, ?_⟩
      rw [← hbk]
      by_cases hsame : ((O + k) / 4096).toNat = ((O + bw) / 4096).toNat
      · rw [hsame, hblk]
        have haddr : (blk * 4096 + (O + k) % 4096).toNat
            = (blk * 4096).toNat + ((O + k) % 4096).toNat := by omega
        rw [haddr, ← hin _ (by omega), hval2 _ (by omega), ← hold _ (by omega)]
        have hnot : ¬ (((O + bw) % 4096).toNat ≤ ((O + k) % 4096).toNat
            ∧ ((O + k) % 4096).toNat < ((O + bw) % 4096).toNat + btc.toNat) := by omega
        simp only [hnot, if_false]
        exact Nat.mod_eq_of_lt (read_block_lt hbuf _)
      · have hkidx : ((O + k) / 4096).toNat < DIRECT_PTRS := by
          simp only [DIRECT_PTRS]
          omega
        have hne := hbd _ hkidx hsame
        obtain ⟨ha, hb, _, _⟩ := hfb _ hkidx hpk
        rw [hout]
        rw [Int.toNat_of_nonneg (by omega)]
        omega
    · have hsame : ((O + k) / 4096).toNat = ((O + bw) / 4096).toNat := by omega
      rw [hsame, hblk]
      refine ⟨hp, ?_⟩
      have haddr : (blk * 4096 + (O + k) % 4096).toNat
          = (blk * 4096).toNat + ((O + k) % 4096).toNat := by omega
      rw [haddr, ← hin _ (by omega), hval2 _ (by omega)]
      have hyes : ((O + bw) % 4096).toNat ≤ ((O + k) % 4096).toNat
          ∧ ((O + k) % 4096).toNat < ((O + bw) % 4096).toNat + btc.toNat := by omega
      simp only [hyes, and_self, if_true]
      have hidxk : bw.toNat + (((O + k) % 4096).toNat - ((O + bw) % 4096).toNat) = k := by omega
      rw [hidxk]
      exact Nat.mod_eq_of_lt (hB0 k)

end NFS

namespace NFS

/-- The write loop, started where its invariant holds with fuel for the bytes
left, ends with every byte stored, or returns early a count short of the
request because a block was missing from the inode that could not be allocated. -/
theorem write_loop_inv (sb : super_t) (d0 : Disk) (ino0 : inode_t) (B : List Nat) (O : Int)
    (hlay : layout_ok sb)
    (hcov : (sb.data_region_addr + sb.data_region_len) * 4096 ≤ (d0.size : Int))
    (hO : 0 ≤ O) (hfit : O + B.length ≤ 122880) (hB : ∀ c ∈ B, c < 256) :
    ∀ (f : Nat) (d : Disk) (ino : inode_t) (bw : Int),
      write_inv sb d0 ino0 B O d ino bw → (B.length : Int) - bw ≤ f →
      (∃ d1 ino1, write_loop sb B O B.length f d ino bw = .ok (d1, ino1, B.length)
          ∧ write_inv sb d0 ino0 B O d1 ino1 B.length) ∨
      (∃ r d1, write_loop sb B O B.length f d ino bw = .error (r, d1) ∧ r < B.length ∧
        ∃ i : Nat, i < DIRECT_PTRS ∧ O < 4096 * (i + 1) ∧ 4096 * (i : Int) < O + B.length
          ∧ ino0.direct.getD i 0 = -1) := by
  intro f
  induction f with
  | zero =>
    intro d ino bw hinv hf
    left
    have hbw : bw = B.length := by
      have := hinv.2.1
      omega
    subst hbw
    exact ⟨d, ino, rfl, hinv⟩
  | succ n ih =>
    intro d ino bw hinv hf
    by_cases hlt : bw < B.length
    · have h0 : 0 ≤ bw := hinv.1
      have hidx : ((O + bw) / 4096).toNat < DIRECT_PTRS := by
        simp only [DIRECT_PTRS]
        omega
      have hnge : ¬ ((O + bw) / UFS_BLOCK_SIZE ≥ DIRECT_PTRS) := by
        simp only [UFS_BLOCK_SIZE, DIRECT_PTRS]
        omega
      have hmod := Int.emod_nonneg (O + bw) (by norm_num : (4096 : Int) ≠ 0)
      have hmodlt := Int.emod_lt_of_pos (O + bw) (by norm_num : (0 : Int) < 4096)
      rw [write_loop]
      simp only [hlt, if_true, hnge, if_false]
      by_cases hp : ino.direct.getD ((O + bw) / 4096).toNat 0 = -1
      · simp only [UFS_BLOCK_SIZE, hp, if_true]
        by_cases hr : (allocate_data_block sb d).1 = -1
        · simp only [hr, if_true]
          right
          refine ⟨bw, _, rfl, hlt, ((O + bw) / 4096).toNat, hidx, by omega, by omega, ?_⟩
          by_contra h
          have hk := hinv.2.2.2.2.2.2.2.1 _ hidx h
          rw [hp] at hk
          exact h hk.symm
        · simp only [hr, if_false]
          obtain ⟨hinv1, hp1⟩ := write_inv_alloc sb d0 ino0 B O d ino bw _ hlay hfit hinv hidx hp hr
          obtain ⟨buf, hbuf, hstep⟩ :=
            write_inv_step sb d0 ino0 B O _ _ bw hlay hcov hO hfit hB hinv1 hlt hp1
          simp only at hbuf hstep
          simp only [hbuf]
          by_cases hc : 4096 - (O + bw) % 4096 > (B.length : Int) - bw
          · obtain ⟨d2, hd2, hinv2⟩ := hstep ((B.length : Int) - bw) (by omega) (by omega) (by omega)
            simp only [hc, if_true, hd2]
            exact ih d2 _ _ hinv2 (by omega)
          · obtain ⟨d2, hd2, hinv2⟩ := hstep (4096 - (O + bw) % 4096) (by omega) (by omega)
              (by omega)
            simp only [hc, if_false, hd2]
            exact ih d2 _ _ hinv2 (by omega)
      · simp only [UFS_BLOCK_SIZE, hp, if_false]
        obtain ⟨buf, hbuf, hstep⟩ :=
          write_inv_step sb d0 ino0 B O d ino bw hlay hcov hO hfit hB hinv hlt hp
        simp only [hbuf]
        by_cases hc : 4096 - (O + bw) % 4096 > (B.length : Int) - bw
        · obtain ⟨d2, hd2, hinv2⟩ := hstep ((B.length : Int) - bw) (by omega) (by omega) (by omega)
          simp only [hc, if_true, hd2]
          exact ih d2 ino _ hinv2 (by omega)
        · obtain ⟨d2, hd2, hinv2⟩ := hstep (4096 - (O + bw) % 4096) (by omega) (by omega)
            (by omega)
          simp only [hc, if_false, hd2]
          exact ih d2 ino _ hinv2 (by omega)
    · left
      have hbw : bw = B.length := by
        have := hinv.2.1
        omega
      subst hbw
      refine ⟨d, ino, ?_, hinv⟩
      rw [write_loop]
      simp only [hlt, if_false]

end NFS

namespace NFS

/-- The read loop over an inode in which the bytes of `B` are stored at the file
offsets from `O` on returns them all. -/
theorem read_loop_stored (d : Disk) (ino : inode_t) (B : List Nat) (O : Int)
    (hO : 0 ≤ O) (hfit : O + B.length ≤ 122880)
    (hblk : ∀ i, i < DIRECT_PTRS → ino.direct.getD i 0 ≠ -1 →
      0 ≤ ino.direct.getD i 0 ∧ ino.direct.getD i 0 ≤ 524287 ∧
        ino.direct.getD i 0 * 4096 + 4096 ≤ (d.size : Int))
    (hst : stored d ino B O B.length) :
    ∀ (f : Nat) (br : Int), 0 ≤ br → br ≤ B.length → (B.length : Int) - br ≤ f →
      read_loop d ino O B.length f br (B.take br.toNat) = ((B.length : Int), B) := by
  intro f
  induction f with
  | zero =>
    intro br h0 h1 hf
    have hbr : br = B.length := by omega
    subst hbr
    simp [read_loop]
  | succ n ih =>
    intro br h0 h1 hf
    by_cases hlt : br < B.length
    · have hidx : ((O + br) / 4096).toNat < DIRECT_PTRS := by
        simp only [DIRECT_PTRS]
        omega
      have hnge : ¬ ((O + br) / UFS_BLOCK_SIZE ≥ DIRECT_PTRS) := by
        simp only [UFS_BLOCK_SIZE, DIRECT_PTRS]
        omega
      have hmod := Int.emod_nonneg (O + br) (by norm_num : (4096 : Int) ≠ 0)
      have hmodlt := Int.emod_lt_of_pos (O + br) (by norm_num : (0 : Int) < 4096)
      have hp : ino.direct.getD ((O + br) / 4096).toNat 0 ≠ -1 := by
        have := (hst br.toNat (by omega)).1
        rw [Int.toNat_of_nonneg h0] at this
        exact this
      obtain ⟨hb0, hb1, hb2⟩ := hblk _ hidx hp
      obtain ⟨buf, hbuf⟩ := read_block_of_fits d _ hb0 hb1 hb2
      have hval := (read_block_some hb0 hb1 hbuf).2
      rw [read_loop]
      simp only [hlt, if_true, hnge, if_false, UFS_BLOCK_SIZE, hp, hbuf]
      have hgen : ∀ btc : Int, 0 < btc → btc ≤ 4096 - (O + br) % 4096 → br + btc ≤ B.length →
          read_loop d ino O B.length n (br + btc)
            (B.take br.toNat ++ (List.range btc.toNat).map
              (fun k => buf (((O + br) % 4096).toNat + k))) = ((B.length : Int), B) := by
        intro btc hc0 hc1 hc2
        have hkey : (List.range btc.toNat).map (fun k => buf (((O + br) % 4096).toNat + k))
            = (B.drop br.toNat).take btc.toNat := by
          apply List.ext_getElem
          · simp only [List.length_map, List.length_range, List.length_take, List.length_drop]
            omega
          · intro i hi1 hi2
            simp only [List.length_map, List.length_range] at hi1
            simp only [List.getElem_map, List.getElem_range, List.getElem_take, List.getElem_drop]
            have hs := (hst (br.toNat + i) (by omega)).2
            have hidxeq : ((O + ((br.toNat + i : Nat) : Int)) / 4096).toNat
                = ((O + br) / 4096).toNat := by omega
            rw [hidxeq] at hs
            have haddr : (ino.direct.getD ((O + br) / 4096).toNat 0 * 4096
                  + (O + ((br.toNat + i : Nat) : Int)) % 4096).toNat
                = (ino.direct.getD ((O + br) / 4096).toNat 0 * 4096).toNat
                  + (((O + br) % 4096).toNat + i) := by omega
            rw [haddr] at hs
            rw [hval _ (by omega), hs]
            exact List.getD_eq_getElem _ _ _
        rw [hkey, ← List.take_add]
        have hsum : br.toNat + btc.toNat = (br + btc).toNat := by omega
        rw [hsum]
        exact ih (br + btc) (by omega) hc2 (by omega)
      by_cases hc : 4096 - (O + br) % 4096 > (B.length : Int) - br
      · simp only [hc, if_true]
        exact hgen _ (by omega) (by omega) (by omega)
      · simp only [hc, if_false]
        exact hgen _ (by omega) (by omega) (by omega)
    · have hbr : br = B.length := by omega
      subst hbr
      rw [read_loop]
      simp

end NFS

namespace NFS

/-- Function `MFS_Write` on a well-formed file either stores every byte and writes the
inode back, or returns a count short of the request because a block missing
from the inode could not be allocated. -/
theorem MFS_Write_cases (sb : super_t) (d : Disk) (inum : Int) (B : List Nat) (O : Int)
    (ino : inode_t) (hlay : layout_ok sb)
    (hcov : (sb.data_region_addr + sb.data_region_len) * 4096 ≤ (d.size : Int))
    (hino : get_inode sb d inum = some ino) (hreg : ino.type = UFS_REGULAR_FILE)
    (hblocks : file_blocks_ok sb d ino)
    (hO : 0 ≤ O) (hfit : O + B.length ≤ 122880) (hB : ∀ c ∈ B, c < 256) :
    (∃ d1 ino1 d2, write_inv sb d ino B O d1 ino1 B.length ∧
        put_inode sb d1 inum (if O + B.length > ino1.size
          then { ino1 with size := O + B.length } else ino1) = (0, d2) ∧
        MFS_Write sb d inum B O B.length = ((B.length : Int), d2)) ∨
      (∃ r d1, MFS_Write sb d inum B O B.length = (r, d1) ∧ r < B.length ∧
        ∃ i : Nat, i < DIRECT_PTRS ∧ O < 4096 * (i + 1) ∧ 4096 * (i : Int) < O + B.length
          ∧ ino.direct.getD i 0 = -1) := by
  obtain ⟨hi0, hi1, _⟩ := get_inode_some hino
  have hinv0 : write_inv sb d ino B O d ino 0 := by
    refine ⟨le_refl _, by omega, rfl, rfl, get_inode_ok hino, hblocks, rfl, fun _ _ _ => rfl, ?_⟩
    intro k hk
    omega
  have hguard : ¬ (inum < 0 ∨ O < 0 ∨ (B.length : Int) < 0) := by omega
  have hty : ¬ (ino.type ≠ UFS_REGULAR_FILE) := fun h => h hreg
  unfold MFS_Write
  simp only [hguard, if_false, hino, hty, Int.toNat_ofNat]
  rcases write_loop_inv sb d ino B O hlay hcov hO hfit hB B.length d ino 0 hinv0 (by omega) with
    ⟨d1, ino1, hw, hinv1⟩ | ⟨r, d1, hw, hr, hex⟩
  · left
    obtain ⟨d2, hd2⟩ := put_inode_ok sb d1 inum
      (if O + B.length > ino1.size then { ino1 with size := O + B.length } else ino1) hlay hi0 hi1
    refine ⟨d1, ino1, d2, hinv1, hd2, ?_⟩
    simp only [hw, hd2]
    simp
  · right
    refine ⟨r, d1, ?_, hr, hex⟩
    simp only [hw]

end NFS

namespace NFS

/-- C1 (amended): on a well-formed image (layout in order, data region inside
the image) take a regular file whose present direct slots name pairwise
different, allocated blocks of the data region, an offset `O ≥ 0` and bytes `B`
with `O + len(B) ≤ DIRECT_PTRS * UFS_BLOCK_SIZE`.  If every block the range
`[O, O + len(B))` touches is present in the inode, `MFS_Write(inum, B, O, len(B))`
returns `len(B)`; and whenever it returns `len(B)`, the `MFS_Read` of `len(B)`
bytes at `O` that follows returns `len(B)` and exactly `B`, across block
boundaries too. -/
theorem MFS_Write_then_Read (sb : super_t) (d : Disk) (inum : Int) (B : List Nat) (O : Int)
    (ino : inode_t) (hlay : layout_ok sb)
    (hcov : (sb.data_region_addr + sb.data_region_len) * 4096 ≤ (d.size : Int))
    (hino : get_inode sb d inum = some ino) (hreg : ino.type = UFS_REGULAR_FILE)
    (hblocks : file_blocks_ok sb d ino)
    (hO : 0 ≤ O) (hfit : O + B.length ≤ DIRECT_PTRS * UFS_BLOCK_SIZE)
    (hB : ∀ c ∈ B, c < 256) :
    ((∀ i : Nat, i < DIRECT_PTRS → O < 4096 * (i + 1) → 4096 * (i : Int) < O + B.length →
        ino.direct.getD i 0 ≠ -1) →
      (MFS_Write sb d inum B O B.length).1 = B.length) ∧
    ((MFS_Write sb d inum B O B.length).1 = B.length →
      MFS_Read sb (MFS_Write sb d inum B O B.length).2 inum O B.length
        = ((B.length : Int), B)) := by
  have hfit1 : O + B.length ≤ 122880 := by
    simpa [DIRECT_PTRS, UFS_BLOCK_SIZE] using hfit
  obtain ⟨hi0, hi1, _⟩ := get_inode_some hino
  have hlay0 := hlay
  unfold layout_ok at hlay0
  rcases MFS_Write_cases sb d inum B O ino hlay hcov hino hreg hblocks hO hfit1 hB with
    ⟨d1, ino1, d2, hinv, hput, hW⟩ | ⟨r, d1, hW, hr, i, hi, h1, h2, h3⟩
  · rw [hW]
    refine ⟨fun _ => rfl, fun _ => ?_⟩
    simp only
    obtain ⟨_, _, hty, hsize, hok, hfb, hdsz, _, hst⟩ := hinv
    generalize hino2 : (if O + B.length > ino1.size
      then { ino1 with size := O + B.length } else ino1) = ino2 at hput
    have hdir : ino2.direct = ino1.direct := by
      rw [← hino2]
      split <;> rfl
    have hsz2 : O + B.length ≤ ino2.size := by
      rw [← hino2]
      split
      · exact le_refl _
      · omega
    have hok2 : inode_ok ino2 := by
      rw [← hino2]
      split
      · refine ⟨hok.1, ?_, hok.2.2.1, hok.2.2.2⟩
        unfold int32
        simp only
        omega
      · exact hok
    have hget := get_inode_put_inode hput hok2
    obtain ⟨ha1, ha2, ha3⟩ := inode_addr_eq sb inum hlay hi0 hi1
    obtain ⟨hsz, hframe⟩ := put_inode_frame hlay (by omega) hput
    have hguard : ¬ (inum < 0 ∨ O < 0 ∨ (B.length : Int) < 0) := by omega
    unfold MFS_Read
    simp only [hguard, if_false, hget]
    by_cases hge : O ≥ ino2.size
    · have hlen : B.length = 0 := by omega
      have hnil : B = [] := List.length_eq_zero.mp hlen
      subst hnil
      simp [hge]
    · have hw : wrap32 (O + B.length) = O + B.length := wrap32_of_range (by omega) (by omega)
      have hgt : ¬ (wrap32 (O + B.length) > ino2.size) := by
        rw [hw]
        omega
      simp only [hge, if_false, hgt, Int.toNat_ofNat]
      have hst2 : stored d2 ino2 B O B.length := by
        intro k hk
        obtain ⟨hp, hb⟩ := hst k hk
        rw [hdir]
        refine ⟨hp, ?_⟩
        rw [← hb]
        have hidx : ((O + k) / 4096).toNat < DIRECT_PTRS := by
          simp only [DIRECT_PTRS]
          omega
        obtain ⟨hb0, _, _, _⟩ := hfb _ hidx hp
        have hkm := Int.emod_nonneg (O + k) (by norm_num : (4096 : Int) ≠ 0)
        rw [hframe]
        right
        rw [Int.toNat_of_nonneg (by omega)]
        omega
      have hblk : ∀ i, i < DIRECT_PTRS → ino2.direct.getD i 0 ≠ -1 →
          0 ≤ ino2.direct.getD i 0 ∧ ino2.direct.getD i 0 ≤ 524287 ∧
            ino2.direct.getD i 0 * 4096 + 4096 ≤ (d2.size : Int) := by
        intro i hi hp
        rw [hdir] at hp ⊢
        obtain ⟨hb0, hb1, _, _⟩ := hfb i hi hp
        rw [hsz, hdsz]
        omega
      exact read_loop_stored d2 ino2 B O hO hfit1 hblk hst2 B.length 0 (le_refl _) (by omega)
        (by omega)
  · rw [hW]
    simp only
    refine ⟨fun hall => absurd h3 (hall i hi h1 h2), fun h => ?_⟩
    omega

end NFS

namespace NFS

set_option maxRecDepth 100000 in
/-- Witness of C1 (amended): in `one_file_image` the eleven bytes of
`hello world` written to the empty file of inode 1 at offset 4090, across the
boundary of its first two blocks, are all written and read back. -/
theorem MFS_Write_then_Read_witness :
    (MFS_Write demo_sb one_file_image 1 [104, 101, 108, 108, 111, 32, 119, 111, 114, 108, 100]
        4090 11).1 = 11 ∧
      MFS_Read demo_sb
        (MFS_Write demo_sb one_file_image 1 [104, 101, 108, 108, 111, 32, 119, 111, 114, 108, 100]
          4090 11).2 1 4090 11
        = (11, [104, 101, 108, 108, 111, 32, 119, 111, 114, 108, 100]) :=
  ⟨by decide,
    (MFS_Write_then_Read demo_sb one_file_image 1
      [104, 101, 108, 108, 111, 32, 119, 111, 114, 108, 100] 4090
      { type := UFS_REGULAR_FILE, size := 0, direct := List.replicate 30 (-1) }
      (by decide) (by decide) (by decide) (by decide) (by decide) (by decide) (by decide)
      (by decide)).2 (by decide)⟩

end NFS

namespace NFS

set_option maxRecDepth 100000 in
/-- Claim C11 (code defect). In `full_dir_image` the root directory has one block,
all of whose 128 entries are live, direct slot 1 is `-1`, the name `x` is absent,
inode 1 is free and `allocate_data_block` would hand out block 8.  Yet
`MFS_Creat(0, UFS_REGULAR_FILE, "x")` returns `-1`, and leaves the root with slot
1 still absent and the name still not found: the insertion loop skips an absent
slot and never allocates a block for the directory. -/
theorem MFS_Creat_does_not_grow_directory :
    (get_inode wide_sb full_dir_image 0).map (fun i => (i.type, i.size, i.direct.take 2))
        = some (UFS_DIRECTORY, 4096, [7, -1])
      ∧ (read_block full_dir_image 7).map
          (fun e => (List.range 128).all (fun j => ent_inum e j != -1)) = some true
      ∧ MFS_Lookup wide_sb full_dir_image 0 [120] = -1
      ∧ bitmap_bit full_dir_image wide_sb.inode_bitmap_addr 1 = false
      ∧ (allocate_data_block wide_sb full_dir_image).1 = 8
      ∧ (MFS_Creat wide_sb full_dir_image free_junk 0 UFS_REGULAR_FILE [120]).1 = -1
      ∧ (get_inode wide_sb
            (MFS_Creat wide_sb full_dir_image free_junk 0 UFS_REGULAR_FILE [120]).2 0).map
          (fun i => i.direct.take 2) = some [7, -1]
      ∧ MFS_Lookup wide_sb
          (MFS_Creat wide_sb full_dir_image free_junk 0 UFS_REGULAR_FILE [120]).2 0 [120]
          = -1 := by
  decide

set_option maxRecDepth 100000 in
/-- Claim C14 (code defect). In `one_file_image` the file of inode 1 has size 0.
`MFS_Write(1, "x", 200000, 1)` writes nothing and returns 0, and the size stored
is 200000, beyond `DIRECT_PTRS * UFS_BLOCK_SIZE = 122880`: the size is set to
`offset + bytes_written` also when the offset lies past the last direct block. -/
theorem MFS_Write_size_beyond_maximum :
    (get_inode demo_sb one_file_image 1).map (fun i => (i.type, i.size))
        = some (UFS_REGULAR_FILE, 0)
      ∧ (MFS_Write demo_sb one_file_image 1 [120] 200000 1).1 = 0
      ∧ (get_inode demo_sb (MFS_Write demo_sb one_file_image 1 [120] 200000 1).2 1).map
          (fun i => (i.type, i.size)) = some (UFS_REGULAR_FILE, 200000) := by
  decide

set_option maxRecDepth 100000 in
/-- Claim C18 (code defect). In `one_free_block_image` one data block is free.
`MFS_Write(1, "hello world", 4090, 11)` on the empty file of inode 1 fills the
first block it allocates (block 5, data bit 1) with six bytes, finds no block for
the rest and returns 6 without storing the inode: the inode on disk still has
size 0 and no direct slot, block 5 stays marked allocated, and
`MFS_Read(1, buf, 4090, 6)` returns 0 bytes. -/
theorem MFS_Write_short_write_not_stored :
    bitmap_bit one_free_block_image two_block_sb.data_bitmap_addr 1 = false
      ∧ (MFS_Write two_block_sb one_free_block_image 1
          [104, 101, 108, 108, 111, 32, 119, 111, 114, 108, 100] 4090 11).1 = 6
      ∧ get_inode two_block_sb (MFS_Write two_block_sb one_free_block_image 1
          [104, 101, 108, 108, 111, 32, 119, 111, 114, 108, 100] 4090 11).2 1
          = some { type := UFS_REGULAR_FILE, size := 0, direct := List.replicate 30 (-1) }
      ∧ bitmap_bit (MFS_Write two_block_sb one_free_block_image 1
          [104, 101, 108, 108, 111, 32, 119, 111, 114, 108, 100] 4090 11).2
          two_block_sb.data_bitmap_addr 1 = true
      ∧ MFS_Read two_block_sb (MFS_Write two_block_sb one_free_block_image 1
          [104, 101, 108, 108, 111, 32, 119, 111, 114, 108, 100] 4090 11).2 1 4090 6
          = (0, []) := by
  decide

set_option maxRecDepth 100000 in
/-- Claim C19 (code defect). For the data bitmap of `fresh_image` (block 2, one
block long) `set_bitmap` with index `-8` returns 0, not `-1`, and sets bit 0 of
byte 8191, the byte before the bitmap (the last byte of the inode bitmap): only
the upper bound of the byte index is tested. -/
theorem set_bitmap_negative_index_writes_below :
    (set_bitmap fresh_image 2 1 (-8) 1).1 = 0
      ∧ fresh_image.byte 8191 = 0
      ∧ (set_bitmap fresh_image 2 1 (-8) 1).2.byte 8191 = 1 := by
  decide

end NFS

namespace NFS

set_option maxRecDepth 100000 in
/-- When `offset + nbytes` does not fit an `int` and wraps to a negative value,
the clamp of `MFS_Read` is skipped: on the 5-byte file of `hello_file_image`, a
read of `2147483647` bytes at offset 1 returns the 4095 bytes to the end of the
block. -/
theorem MFS_Read_overflow_reads_past_size :
    (MFS_Read demo_sb hello_file_image 1 1 2147483647).1 = 4095 := by
  decide

end NFS

namespace NFS

/-- The result of `allocate_data_block` is an `int`. -/
theorem allocate_data_block_int32 (sb : super_t) (d : Disk) :
    int32 (allocate_data_block sb d).1 := by
  unfold allocate_data_block int32
  simp only
  split
  · simp
  · split
    · simp
    · exact wrap32_range _

/-- When the write loop is left for the code after it, the inode it hands on has
the type and size it started with and is a record C can hold, and the count is
either the one it started from or ends inside the direct blocks. -/
theorem write_loop_keeps (sb : super_t) (buffer : List Nat) (offset nbytes : Int) :
    ∀ (f : Nat) (d : Disk) (ino : inode_t) (bw : Int) (d1 : Disk) (ino1 : inode_t) (bw1 : Int),
      write_loop sb buffer offset nbytes f d ino bw = .ok (d1, ino1, bw1) → inode_ok ino →
      ino1.type = ino.type ∧ ino1.size = ino.size ∧ inode_ok ino1 ∧ bw ≤ bw1 ∧
        (bw1 = bw ∨ offset + bw1 ≤ 122880) := by
  intro f
  induction f with
  | zero =>
    intro d ino bw d1 ino1 bw1 h hok
    simp only [write_loop, Except.ok.injEq, Prod.mk.injEq] at h
    obtain ⟨_, h2, h3⟩ := h
    subst h2 h3
    exact ⟨rfl, rfl, hok, le_refl _, Or.inl rfl⟩
  | succ n ih =>
    intro d ino bw d1 ino1 bw1 h hok
    rw [write_loop] at h
    by_cases hlt : bw < nbytes
    · simp only [hlt, if_true] at h
      by_cases hge : (offset + bw) / UFS_BLOCK_SIZE ≥ DIRECT_PTRS
      · simp only [hge, if_true, Except.ok.injEq, Prod.mk.injEq] at h
        obtain ⟨_, h2, h3⟩ := h
        subst h2 h3
        exact ⟨rfl, rfl, hok, le_refl _, Or.inl rfl⟩
      · simp only [hge, if_false] at h
        have hmod := Int.emod_nonneg (offset + bw) (by norm_num : (4096 : Int) ≠ 0)
        have hmodlt := Int.emod_lt_of_pos (offset + bw) (by norm_num : (0 : Int) < 4096)
        simp only [UFS_BLOCK_SIZE, DIRECT_PTRS] at hge
        have hnext : ∀ (da : Disk) (inoa : inode_t),
            inoa.type = ino.type → inoa.size = ino.size → inode_ok inoa →
            (match read_block da (inoa.direct.getD ((offset + bw) / UFS_BLOCK_SIZE).toNat 0) with
              | none => Except.error (-1, da)
              | some block_buffer =>
                match write_block da (inoa.direct.getD ((offset + bw) / UFS_BLOCK_SIZE).toNat 0)
                  (fun k =>
                    if ((offset + bw) % UFS_BLOCK_SIZE).toNat ≤ k
                      ∧ k < ((offset + bw) % UFS_BLOCK_SIZE).toNat
                        + (if UFS_BLOCK_SIZE - (offset + bw) % UFS_BLOCK_SIZE > nbytes - bw
                            then nbytes - bw
                            else UFS_BLOCK_SIZE - (offset + bw) % UFS_BLOCK_SIZE).toNat
                    then buffer.getD (bw.toNat + (k - ((offset + bw) % UFS_BLOCK_SIZE).toNat)) 0
                    else block_buffer k) with
                | none => Except.error (-1, da)
                | some d2 =>
                  write_loop sb buffer offset nbytes n d2 inoa
                    (bw + (if UFS_BLOCK_SIZE - (offset + bw) % UFS_BLOCK_SIZE > nbytes - bw
                            then nbytes - bw
                            else UFS_BLOCK_SIZE - (offset + bw) % UFS_BLOCK_SIZE)))
              = .ok (d1, ino1, bw1) →
            ino1.type = ino.type ∧ ino1.size = ino.size ∧ inode_ok ino1 ∧ bw ≤ bw1 ∧
              (bw1 = bw ∨ offset + bw1 ≤ 122880) := by
          intro da inoa hty hsz hoka hm
          split at hm
          · simp at hm
          · split at hm
            · simp at hm
            · obtain ⟨e1, e2, e3, e4, e5⟩ := ih _ _ _ _ _ _ hm hoka
              simp only [UFS_BLOCK_SIZE] at e4 e5
              refine ⟨e1.trans hty, e2.trans hsz, e3, ?_, ?_⟩
              · split at e4 <;> omega
              · right
                split at e5 <;> split at e4 <;> omega
        by_cases hp : ino.direct.getD ((offset + bw) / UFS_BLOCK_SIZE).toNat 0 = -1
        · simp only [hp, if_true] at h
          by_cases hr : (allocate_data_block sb d).1 = -1
          · simp [hr] at h
          · simp only [hr, if_false] at h
            refine hnext (allocate_data_block sb d).2
              { ino with direct := (ino.direct.set ((offset + bw) / UFS_BLOCK_SIZE).toNat
                  (allocate_data_block sb d).1) } rfl rfl ?_ h
            refine ⟨hok.1, hok.2.1, ?_, ?_⟩
            · simp only [List.length_set]
              exact hok.2.2.1
            · intro x hx
              rcases List.mem_or_eq_of_mem_set hx with hx | hx
              · exact hok.2.2.2 x hx
              · rw [hx]
                exact allocate_data_block_int32 sb d
        · simp only [hp, if_false] at h
          exact hnext d ino rfl rfl hok h
    · simp only [hlt, if_false, Except.ok.injEq, Prod.mk.injEq] at h
      obtain ⟨_, h2, h3⟩ := h
      subst h2 h3
      exact ⟨rfl, rfl, hok, le_refl _, Or.inl rfl⟩

end NFS

namespace NFS

/-- Function `MFS_Stat` reports the type and size of the inode `get_inode` returns. -/
theorem MFS_Stat_of_get_inode {sb : super_t} {d : Disk} {inum : Int} {ino : inode_t}
    (h : get_inode sb d inum = some ino) (m : MFS_Stat_t) :
    MFS_Stat sb d inum m = (0, { type := ino.type, size := ino.size }) := by
  obtain ⟨h0, h1, hr⟩ := get_inode_some h
  unfold MFS_Stat
  rw [if_neg (by omega)]
  simp only [hr]

/-- Claim C15. When `MFS_Write(inum, buf, offset, nbytes)` on an existing inode
leaves its loop for the code that stores the inode and returns a count `k ≥ 0`
(so `put_inode` succeeded), the size recorded afterwards is
`max(old size, offset + k)`, which is not below the old size, and `MFS_Stat`
reports the old type with that size. -/
theorem MFS_Write_size_rule (sb : super_t) (d : Disk) (inum : Int) (buffer : List Nat)
    (offset nbytes k : Int) (ino : inode_t) (m : MFS_Stat_t)
    (hoff : offset < 2147483648)
    (hino : get_inode sb d inum = some ino)
    (hstore : write_loop_completes sb d inum buffer offset nbytes = true)
    (hret : (MFS_Write sb d inum buffer offset nbytes).1 = k) (hk : 0 ≤ k) :
    (get_inode sb (MFS_Write sb d inum buffer offset nbytes).2 inum).map (fun i => i.size)
        = some (max ino.size (offset + k)) ∧
      ino.size ≤ max ino.size (offset + k) ∧
      MFS_Stat sb (MFS_Write sb d inum buffer offset nbytes).2 inum m
        = (0, { type := ino.type, size := max ino.size (offset + k) }) := by
  unfold write_loop_completes at hstore
  simp only [hino] at hstore
  cases hw : write_loop sb buffer offset nbytes nbytes.toNat d ino 0 with
  | error e => simp [hw] at hstore
  | ok s =>
    obtain ⟨d1, ino1, bw1⟩ := s
    obtain ⟨hty, hsz, hok1, hb0, hb1⟩ := write_loop_keeps sb buffer offset nbytes _ _ _ _ _ _ _ hw
      (get_inode_ok hino)
    unfold MFS_Write at hret ⊢
    by_cases hguard : inum < 0 ∨ offset < 0 ∨ nbytes < 0
    · simp only [hguard, if_true] at hret
      omega
    · simp only [hguard, if_false, hino] at hret ⊢
      by_cases hreg : ino.type ≠ UFS_REGULAR_FILE
      · rw [if_pos hreg] at hret
        simp only at hret
        omega
      · simp only [hreg, if_false, hw] at hret ⊢
        generalize hino2 : (if offset + bw1 > ino1.size
          then { ino1 with size := offset + bw1 } else ino1) = ino2 at hret ⊢
        have hty2 : ino2.type = ino.type := by
          rw [← hino2]
          split
          · exact hty
          · exact hty
        have hsz2 : ino2.size = max ino.size (offset + bw1) := by
          rw [← hino2]
          split
          · simp only
            rw [max_eq_right (by omega)]
          · rw [hsz, max_eq_left (by omega)]
        have hok2 : inode_ok ino2 := by
          rw [← hino2]
          split
          · refine ⟨hok1.1, ?_, hok1.2.2.1, hok1.2.2.2⟩
            unfold int32
            simp only
            have := hok1.2.1
            unfold int32 at this
            omega
          · exact hok1
        rcases put_inode_fst sb d1 inum ino2 with hp | hp
        · have hput : put_inode sb d1 inum ino2 = (0, (put_inode sb d1 inum ino2).2) := by
            rw [← hp]
          have hget := get_inode_put_inode hput hok2
          have hne : ¬ ((put_inode sb d1 inum ino2).1 ≠ 0) := fun h => h hp
          simp only [hne, if_false] at hret ⊢
          subst hret
          refine ⟨?_, le_max_left _ _, ?_⟩
          · rw [hget]
            simp only [Option.map_some', hsz2]
          · rw [MFS_Stat_of_get_inode hget, hty2, hsz2]
        · have hne : (put_inode sb d1 inum ino2).1 ≠ 0 := by
            rw [hp]
            decide
          rw [if_pos hne] at hret
          simp only at hret
          omega

set_option maxRecDepth 100000 in
/-- Witness of C15: `MFS_Write(1, "hello", 0, 5)` on the empty file of
`one_file_image` returns 5 and `MFS_Stat` then reports a regular file of size 5. -/
theorem MFS_Write_size_rule_witness :
    (get_inode demo_sb (MFS_Write demo_sb one_file_image 1 [104, 101, 108, 108, 111] 0 5).2 1).map
        (fun i => i.size) = some (max 0 (0 + 5)) ∧
      (0 : Int) ≤ max 0 (0 + 5) ∧
      MFS_Stat demo_sb (MFS_Write demo_sb one_file_image 1 [104, 101, 108, 108, 111] 0 5).2 1
          { type := 7, size := 7 }
        = (0, { type := UFS_REGULAR_FILE, size := max 0 (0 + 5) }) :=
  MFS_Write_size_rule demo_sb one_file_image 1 [104, 101, 108, 108, 111] 0 5 5
    { type := UFS_REGULAR_FILE, size := 0, direct := List.replicate 30 (-1) }
    { type := 7, size := 7 } (by decide) (by decide) (by decide) (by decide) (by decide)

end NFS

namespace NFS

/-! ## Bitmap allocator: the effect of `set_bitmap` -/

theorem testBit_mask (k m : Nat) (hk : k < 8) (hm : m < 8) :
    (4294967295 - 2 ^ k).testBit m = !decide (k = m) := by
  interval_cases k <;> interval_cases m <;> rfl

theorem testBit_clear_byte (b k m : Nat) (hk : k < 8) :
    ((b &&& (4294967295 - 2 ^ k)) % 256).testBit m
      = (decide (m < 8) && (b.testBit m && !decide (k = m))) := by
  have h := Nat.testBit_mod_two_pow (b &&& (4294967295 - 2 ^ k)) 8 m
  have e : (2 : Nat) ^ 8 = 256 := by decide
  rw [e] at h
  rw [h, Nat.testBit_and]
  by_cases hm : m < 8
  · rw [testBit_mask k m hk hm]
  · simp [hm]

/-- Two bytes with the same eight bits are equal. -/
theorem byte_eq_of_bits (x y : Fin 256)
    (h : ∀ m, m < 8 → x.val.testBit m = y.val.testBit m) : x = y := by
  apply Fin.ext
  apply Nat.eq_of_testBit_eq
  intro m
  by_cases hm : m < 8
  · exact h m hm
  · have hx : x.val < 2 ^ m :=
      lt_of_lt_of_le x.isLt (by
        calc 256 = 2 ^ 8 := by decide
          _ ≤ 2 ^ m := Nat.pow_le_pow_right (by decide) (by omega))
    have hy : y.val < 2 ^ m :=
      lt_of_lt_of_le y.isLt (by
        calc 256 = 2 ^ 8 := by decide
          _ ≤ 2 ^ m := Nat.pow_le_pow_right (by decide) (by omega))
    rw [Nat.testBit_lt_two_pow hx, Nat.testBit_lt_two_pow hy]

/-- The bits of a bitmap after a successful `set_bitmap` at an index that is not
negative. -/
theorem set_bitmap_bits (d : Disk) (s l i v : Int) (hs : 0 ≤ s) (hl : 0 ≤ l)
    (hsl : s + l ≤ 524287) (h0 : 0 ≤ i) (hi : i < 2147483648)
    (hok : (set_bitmap d s l i v).1 ≠ -1) (j : Nat) :
    bitmap_bit (set_bitmap d s l i v).2 s j
      = if j = i.toNat then decide (v ≠ 0) else bitmap_bit d s j := by
  obtain ⟨h1, h2, h3, h4, h5⟩ := set_bitmap_nonneg d s l i v hs hl hsl h0 hi hok
  unfold bitmap_bit
  simp only [UFS_BLOCK_SIZE]
  by_cases hj : (s * 4096).toNat + j / 8 = (s * 4096 + i / 8).toNat
  · rw [hj, h5]
    have hd1 : decide (j % 8 < 8) = true := decide_eq_true (Nat.mod_lt _ (by decide))
    by_cases hv : v ≠ 0
    · rw [if_pos hv, testBit_set_byte, hd1, Bool.true_and]
      by_cases hji : j = i.toNat
      · rw [if_pos hji]
        have : (i % 8).toNat = j % 8 := by omega
        simp [this, hv]
      · rw [if_neg hji]
        have : ¬ (i % 8).toNat = j % 8 := by omega
        simp [this]
    · rw [if_neg hv, testBit_clear_byte _ _ _ (by omega), hd1, Bool.true_and]
      by_cases hji : j = i.toNat
      · rw [if_pos hji]
        have : (i % 8).toNat = j % 8 := by omega
        simp [this, hv]
      · rw [if_neg hji]
        have : ¬ (i % 8).toNat = j % 8 := by omega
        simp [this]
  · rw [h4 _ hj]
    have hji : ¬ j = i.toNat := by omega
    rw [if_neg hji]

/-- Function `set_bitmap` succeeds for an index inside the bitmap whose byte lies in
the image. -/
theorem set_bitmap_succeeds (d : Disk) (s l i v : Int) (hs : 0 ≤ s) (hl : 0 ≤ l)
    (hsl : s + l ≤ 524287) (h0 : 0 ≤ i) (hi : i < l * 32768) (hint : i < 2147483648)
    (hfit : (s * 4096 + i / 8).toNat + 1 ≤ d.size) :
    (set_bitmap d s l i v).1 = 0 := by
  have hdiv : i.tdiv 8 = i / 8 := Int.tdiv_eq_ediv h0 (by decide)
  have hpos := set_bitmap_pos s l i hs hl hsl ⟨by omega, by omega⟩ (by rw [hdiv]; omega)
  unfold set_bitmap
  simp only [UFS_BLOCK_SIZE]
  rw [wrap32_of_range (x := l * 4096) (by omega) (by omega)]
  rw [if_neg (by rw [hdiv]; omega), hpos, hdiv]
  rw [pread_of_fits d 1 (s * 4096 + i / 8) (by omega) hfit]
  simp only
  obtain ⟨d1, hd1⟩ := pwrite_of_nonneg d
    (fun _ => if v ≠ 0 then
        ((if 0 < 1 then (d.byte ((s * 4096 + i / 8).toNat + 0)).val else 0) ||| shl1 (i.tmod 8)) % 256
      else ((if 0 < 1 then (d.byte ((s * 4096 + i / 8).toNat + 0)).val else 0)
        &&& (4294967295 - shl1 (i.tmod 8))) % 256) 1 (s * 4096 + i / 8) (by omega)
  simp only [hd1]

end NFS

namespace NFS

/-- A successful `allocate_data_block` is `set_bitmap(…, i, 1)` for the index `i`
of a clear bit, and returns the block `data_region_addr + i`. -/
theorem allocate_data_block_eq (sb : super_t) (d : Disk) (hlay : layout_ok sb)
    (hne : (allocate_data_block sb d).1 ≠ -1) :
    ∃ i : Int, 0 ≤ i ∧ i < sb.num_data ∧
      (allocate_data_block sb d).1 = sb.data_region_addr + i ∧
      bitmap_bit d sb.data_bitmap_addr i.toNat = false ∧
      (set_bitmap d sb.data_bitmap_addr sb.data_bitmap_len i 1).1 ≠ -1 ∧
      (allocate_data_block sb d).2 = (set_bitmap d sb.data_bitmap_addr sb.data_bitmap_len i 1).2 := by
  unfold layout_ok at hlay
  unfold allocate_data_block at hne ⊢
  simp only at hne ⊢
  by_cases hf : find_free_bit d sb.data_bitmap_addr sb.data_bitmap_len sb.num_data = -1
  · rw [if_pos hf] at hne
    simp at hne
  · rw [if_neg hf] at hne ⊢
    obtain ⟨f1, f2, f3, f4, f5, f6⟩ := find_free_bit_sound d sb.data_bitmap_addr
      sb.data_bitmap_len sb.num_data (by omega) (by omega) (by omega) (by omega) hf
    generalize find_free_bit d sb.data_bitmap_addr sb.data_bitmap_len sb.num_data = i at *
    by_cases hsb : (set_bitmap d sb.data_bitmap_addr sb.data_bitmap_len i 1).1 = -1
    · rw [if_pos hsb] at hne
      simp at hne
    · rw [if_neg hsb] at hne ⊢
      exact ⟨i, f1, f2, wrap32_of_range (by omega) (by omega), f5, hsb, rfl⟩

/-- Claim C20. For an index inside a bitmap that lies in the image (and in the
first `2^19 - 1` blocks), `set_bitmap(start, len, index, value)` succeeds; bit
`index` of the bitmap is then 1 if `value != 0` and 0 otherwise, every other bit
of the bitmap is as before, and so are the length of the image and every byte
other than the one that holds bit `index`.  Consequently, on any image and
well-laid-out superblock, `free_data_block` of the block a successful
`allocate_data_block` returned succeeds and gives back the image as it was before
the allocation. -/
theorem set_bitmap_effect_and_frame (d : Disk) (s l i v : Int) (hs : 0 ≤ s) (hl : 0 ≤ l)
    (hsl : s + l ≤ 524287) (hfit : (s + l) * 4096 ≤ (d.size : Int))
    (h0 : 0 ≤ i) (hi : i < l * 32768) (hint : i < 2147483648) :
    (set_bitmap d s l i v).1 = 0 ∧
      bitmap_bit (set_bitmap d s l i v).2 s i.toNat = decide (v ≠ 0) ∧
      (∀ j : Nat, j ≠ i.toNat →
        bitmap_bit (set_bitmap d s l i v).2 s j = bitmap_bit d s j) ∧
      (set_bitmap d s l i v).2.size = d.size ∧
      (∀ a : Nat, a ≠ (s * 4096 + i / 8).toNat → (set_bitmap d s l i v).2.byte a = d.byte a) ∧
      (∀ (sb : super_t) (d0 : Disk), layout_ok sb → (allocate_data_block sb d0).1 ≠ -1 →
        (free_data_block sb (allocate_data_block sb d0).2 (allocate_data_block sb d0).1).1 = 0 ∧
        (free_data_block sb (allocate_data_block sb d0).2 (allocate_data_block sb d0).1).2
          = d0) := by
  have hsucc := set_bitmap_succeeds d s l i v hs hl hsl h0 hi hint (by omega)
  have hok : (set_bitmap d s l i v).1 ≠ -1 := by
    rw [hsucc]
    decide
  obtain ⟨_, _, h3, h4, _⟩ := set_bitmap_nonneg d s l i v hs hl hsl h0 hint hok
  have hbits := set_bitmap_bits d s l i v hs hl hsl h0 hint hok
  refine ⟨hsucc, ?_, ?_, h3, h4, ?_⟩
  · rw [hbits, if_pos rfl]
  · intro j hj
    rw [hbits, if_neg hj]
  · intro sb d0 hlay hne
    obtain ⟨k, k0, k1, hk, hclear, hset, hd1⟩ := allocate_data_block_eq sb d0 hlay hne
    have hlay0 := hlay
    unfold layout_ok at hlay0
    obtain ⟨a1, a2, a3, a4, _⟩ := set_bitmap_nonneg d0 sb.data_bitmap_addr sb.data_bitmap_len k 1
      (by omega) (by omega) (by omega) k0 (by omega) hset
    have abits := set_bitmap_bits d0 sb.data_bitmap_addr sb.data_bitmap_len k 1
      (by omega) (by omega) (by omega) k0 (by omega) hset
    rw [hd1, hk]
    generalize (set_bitmap d0 sb.data_bitmap_addr sb.data_bitmap_len k 1).2 = d1 at *
    unfold free_data_block
    simp only
    have hrel : wrap32 (sb.data_region_addr + k - sb.data_region_addr) = k := by
      have : sb.data_region_addr + k - sb.data_region_addr = k := by ring
      rw [this]
      exact wrap32_of_range (by omega) (by omega)
    rw [hrel]
    have fsucc := set_bitmap_succeeds d1 sb.data_bitmap_addr sb.data_bitmap_len k 0
      (by omega) (by omega) (by omega) k0 (by omega) (by omega) (by omega)
    have fok : (set_bitmap d1 sb.data_bitmap_addr sb.data_bitmap_len k 0).1 ≠ -1 := by
      rw [fsucc]
      decide
    obtain ⟨_, _, b3, b4, _⟩ := set_bitmap_nonneg d1 sb.data_bitmap_addr sb.data_bitmap_len k 0
      (by omega) (by omega) (by omega) k0 (by omega) fok
    have bbits := set_bitmap_bits d1 sb.data_bitmap_addr sb.data_bitmap_len k 0
      (by omega) (by omega) (by omega) k0 (by omega) fok
    refine ⟨fsucc, Disk.ext_of (by omega) ?_⟩
    intro a
    by_cases ha : a = (sb.data_bitmap_addr * 4096 + k / 8).toNat
    · apply byte_eq_of_bits
      intro m hm
      have e := bbits (8 * (k.toNat / 8) + m)
      rw [abits] at e
      unfold bitmap_bit at e hclear
      simp only [UFS_BLOCK_SIZE] at e hclear
      have e1 : (sb.data_bitmap_addr * 4096).toNat + (8 * (k.toNat / 8) + m) / 8 = a := by omega
      have e2 : (8 * (k.toNat / 8) + m) % 8 = m := by omega
      rw [e1, e2] at e
      rw [e]
      have e3 : (sb.data_bitmap_addr * 4096).toNat + k.toNat / 8 = a := by omega
      rw [e3] at hclear
      by_cases hmk : 8 * (k.toNat / 8) + m = k.toNat
      · have e4 : k.toNat % 8 = m := by omega
        rw [e4] at hclear
        simp [hmk, hclear]
      · simp [hmk]
    · rw [b4 a ha, a4 a ha]

set_option maxRecDepth 100000 in
/-- Witness of C20: bit 5 of the data bitmap of `fresh_image` (block 2). -/
theorem set_bitmap_effect_and_frame_witness :
    (set_bitmap fresh_image 2 1 5 1).1 = 0 ∧
      bitmap_bit (set_bitmap fresh_image 2 1 5 1).2 2 (5 : Int).toNat = decide ((1 : Int) ≠ 0) ∧
      (∀ j : Nat, j ≠ (5 : Int).toNat →
        bitmap_bit (set_bitmap fresh_image 2 1 5 1).2 2 j = bitmap_bit fresh_image 2 j) ∧
      (set_bitmap fresh_image 2 1 5 1).2.size = fresh_image.size ∧
      (∀ a : Nat, a ≠ ((2 : Int) * 4096 + 5 / 8).toNat →
        (set_bitmap fresh_image 2 1 5 1).2.byte a = fresh_image.byte a) ∧
      (∀ (sb : super_t) (d0 : Disk), layout_ok sb → (allocate_data_block sb d0).1 ≠ -1 →
        (free_data_block sb (allocate_data_block sb d0).2 (allocate_data_block sb d0).1).1 = 0 ∧
        (free_data_block sb (allocate_data_block sb d0).2 (allocate_data_block sb d0).1).2
          = d0) :=
  set_bitmap_effect_and_frame fresh_image 2 1 5 1 (by decide) (by decide) (by decide)
    (by decide) (by decide) (by decide) (by decide)

end NFS

namespace NFS

/-- Function `set_bitmap` either fails and leaves the image as it was, or returns 0. -/
theorem set_bitmap_cases (d : Disk) (s l idx v : Int) :
    set_bitmap d s l idx v = (-1, d) ∨ (set_bitmap d s l idx v).1 = 0 := by
  unfold set_bitmap
  simp only
  split
  · left; rfl
  · split
    · left; rfl
    · split
      · left; rfl
      · right; rfl

/-- When `allocate_data_block` fails it leaves the image as it was. -/
theorem allocate_data_block_fail (sb : super_t) (d : Disk) (hlay : layout_ok sb)
    (h : (allocate_data_block sb d).1 = -1) : (allocate_data_block sb d).2 = d := by
  unfold layout_ok at hlay
  unfold allocate_data_block at h ⊢
  simp only at h ⊢
  by_cases hf : find_free_bit d sb.data_bitmap_addr sb.data_bitmap_len sb.num_data = -1
  · rw [if_pos hf]
  · rw [if_neg hf] at h ⊢
    obtain ⟨f1, f2, _⟩ := find_free_bit_sound d sb.data_bitmap_addr
      sb.data_bitmap_len sb.num_data (by omega) (by omega) (by omega) (by omega) hf
    generalize find_free_bit d sb.data_bitmap_addr sb.data_bitmap_len sb.num_data = i at *
    by_cases hsb : (set_bitmap d sb.data_bitmap_addr sb.data_bitmap_len i 1).1 = -1
    · rw [if_pos hsb]
      simp only
      rcases set_bitmap_cases d sb.data_bitmap_addr sb.data_bitmap_len i 1 with hc | hc
      · rw [hc]
      · rw [hc] at hsb
        exact absurd hsb (by decide)
    · rw [if_neg hsb] at h
      simp only at h
      rw [wrap32_of_range (by omega) (by omega)] at h
      omega

/-- Writing back a block that was read and patched in the byte range
`[lo, hi)` changes no byte of the image outside that range of the block. -/
theorem write_block_patch {d d2 : Disk} {b : Int} {buf buf1 : Nat → Nat} (lo hi : Nat)
    (h0 : 0 ≤ b) (h1 : b ≤ 524287) (hr : read_block d b = some buf)
    (hsame : ∀ k, k < 4096 → ¬ (lo ≤ k ∧ k < hi) → buf1 k = buf k)
    (hw : write_block d b buf1 = some d2) :
    d2.size = d.size ∧
      ∀ a : Nat, ¬ ((b * 4096).toNat + lo ≤ a ∧ a < (b * 4096).toNat + hi) →
        d2.byte a = d.byte a := by
  obtain ⟨hfit, hold⟩ := read_block_some h0 h1 hr
  obtain ⟨hsz, hout⟩ := write_block_frame h0 h1 hfit hw
  obtain ⟨buf2, hbuf2, hval2⟩ := read_block_write_block hw
  have hin := (read_block_some h0 h1 hbuf2).2
  refine ⟨hsz, ?_⟩
  intro a ha
  by_cases hblk : (b * 4096).toNat ≤ a ∧ a < (b * 4096).toNat + 4096
  · apply Fin.ext
    have e : a = (b * 4096).toNat + (a - (b * 4096).toNat) := by omega
    rw [e, ← hin _ (by omega), hval2 _ (by omega), hsame _ (by omega) (by omega),
      ← hold _ (by omega)]
    exact Nat.mod_eq_of_lt (read_block_lt hr _)
  · apply hout
    omega

end NFS

namespace NFS

/-- Once the count has reached the end of the last direct block or the number of
bytes asked for, the write loop is left. -/
theorem write_loop_last_done (sb : super_t) (buffer : List Nat) (N : Int) (n : Nat) (d : Disk)
    (ino : inode_t) :
    write_loop sb buffer 122870 N n d ino (if 10 > N then N else 10)
      = .ok (d, ino, if 10 > N then N else 10) := by
  cases n with
  | zero => rfl
  | succ n =>
    rw [write_loop]
    by_cases h : 10 > N
    · simp only [h, if_true, lt_irrefl, if_false]
    · simp only [h, if_false]
      by_cases h2 : (10 : Int) < N
      · simp only [h2, if_true]
        have : ((122870 : Int) + 10) / UFS_BLOCK_SIZE ≥ DIRECT_PTRS := by
          simp only [UFS_BLOCK_SIZE, DIRECT_PTRS]
          decide
        simp only [this, if_true]
      · simp only [h2, if_false]

theorem MFS_Write_last_shape (sb : super_t) (d : Disk) (inum : Int) (buffer : List Nat) (N : Int)
    (ino : inode_t) (hlay : layout_ok sb)
    (hcov : (sb.data_region_addr + sb.data_region_len) * 4096 ≤ (d.size : Int))
    (hino : get_inode sb d inum = some ino) (hreg : ino.type = UFS_REGULAR_FILE)
    (hblocks : file_blocks_ok sb d ino) (hN : 0 ≤ N) :
    (N = 0 ∧ ∃ ino2 d3, put_inode sb d inum ino2 = (0, d3)
        ∧ MFS_Write sb d inum buffer 122870 N = (0, d3)) ∨
    (0 < N ∧ ino.direct.getD 29 0 = -1 ∧ (allocate_data_block sb d).1 = -1
        ∧ MFS_Write sb d inum buffer 122870 N = (0, d)) ∨
    (0 < N ∧ ∃ d1 blk buf buf1 d2 ino2 d3,
      ((ino.direct.getD 29 0 = -1 ∧ blk = (allocate_data_block sb d).1 ∧ blk ≠ -1
          ∧ d1 = (allocate_data_block sb d).2)
        ∨ (ino.direct.getD 29 0 ≠ -1 ∧ blk = ino.direct.getD 29 0 ∧ d1 = d)) ∧
      read_block d1 blk = some buf ∧ (∀ k, k < 4096 → ¬ (4086 ≤ k ∧ k < 4096) → buf1 k = buf k) ∧
      write_block d1 blk buf1 = some d2 ∧ put_inode sb d2 inum ino2 = (0, d3) ∧
      MFS_Write sb d inum buffer 122870 N = (if 10 > N then N else 10, d3)) := by
  obtain ⟨hi0, hi1, _⟩ := get_inode_some hino
  have hlay0 := hlay
  unfold layout_ok at hlay0
  have hguard : ¬ (inum < 0 ∨ (122870 : Int) < 0 ∨ N < 0) := by omega
  have hty : ¬ (ino.type ≠ UFS_REGULAR_FILE) := fun h => h hreg
  unfold MFS_Write
  simp only [hguard, if_false, hino, hty]
  cases hf : N.toNat with
  | zero =>
    left
    simp only [write_loop]
    obtain ⟨d3, hd3⟩ := put_inode_ok sb d inum
      (if 122870 + 0 > ino.size then { ino with size := 122870 + 0 } else ino) hlay hi0 hi1
    refine ⟨by omega, _, d3, hd3, ?_⟩
    simp only [hd3]
    simp
  | succ n =>
    right
    have hlt : (0 : Int) < N := by omega
    have hnge : ¬ (((122870 : Int) + 0) / UFS_BLOCK_SIZE ≥ DIRECT_PTRS) := by
      simp only [UFS_BLOCK_SIZE, DIRECT_PTRS]
      decide
    have e29 : (((122870 : Int) + 0) / UFS_BLOCK_SIZE).toNat = 29 := by
      simp only [UFS_BLOCK_SIZE]
      decide
    have e4086 : ((122870 : Int) + 0) % UFS_BLOCK_SIZE = 4086 := by
      simp only [UFS_BLOCK_SIZE]
      decide
    have ebtc : (0 + if UFS_BLOCK_SIZE - 4086 > N - 0 then N - 0 else UFS_BLOCK_SIZE - 4086)
        = if 10 > N then N else 10 := by
      simp only [UFS_BLOCK_SIZE]
      split <;> split <;> omega
    rw [write_loop]
    simp only [hlt, if_true, hnge, if_false, e29, e4086, ebtc]
    have hfin : ∀ (d1 : Disk) (ino1 : inode_t) (blk : Int) (buf : Nat → Nat),
        ino1.direct.getD 29 0 = blk → 0 ≤ blk → blk ≤ 524287 → d1.size = d.size →
        read_block d1 blk = some buf →
        ((ino.direct.getD 29 0 = -1 ∧ blk = (allocate_data_block sb d).1 ∧ blk ≠ -1
            ∧ d1 = (allocate_data_block sb d).2)
          ∨ (ino.direct.getD 29 0 ≠ -1 ∧ blk = ino.direct.getD 29 0 ∧ d1 = d)) →
        ∃ e1 eblk ebuf ebuf1 e2 eino2 d3,
          ((ino.direct.getD 29 0 = -1 ∧ eblk = (allocate_data_block sb d).1 ∧ eblk ≠ -1
              ∧ e1 = (allocate_data_block sb d).2)
            ∨ (ino.direct.getD 29 0 ≠ -1 ∧ eblk = ino.direct.getD 29 0 ∧ e1 = d)) ∧
          read_block e1 eblk = some ebuf ∧
          (∀ k, k < 4096 → ¬ (4086 ≤ k ∧ k < 4096) → ebuf1 k = ebuf k) ∧
          write_block e1 eblk ebuf1 = some e2 ∧ put_inode sb e2 inum eino2 = (0, d3) ∧
          (match
              (match read_block d1 (ino1.direct.getD 29 0) with
                | none => Except.error (-1, d1)
                | some block_buffer =>
                  match
                    write_block d1 (ino1.direct.getD 29 0) fun k =>
                      if (4086 : Int).toNat ≤ k
                        ∧ k < (4086 : Int).toNat
                          + (if UFS_BLOCK_SIZE - 4086 > N - 0 then N - 0
                              else UFS_BLOCK_SIZE - 4086).toNat
                      then buffer.getD ((0 : Int).toNat + (k - (4086 : Int).toNat)) 0
                      else block_buffer k with
                  | none => Except.error (-1, d1)
                  | some d2 =>
                    write_loop sb buffer 122870 N n d2 ino1 (if 10 > N then N else 10)) with
            | Except.error r => r
            | Except.ok (d1, inode1, bytes_written) =>
              if (put_inode sb d1 inum
                    (if 122870 + bytes_written > inode1.size then
                      { type := inode1.type, size := 122870 + bytes_written,
                        direct := inode1.direct }
                    else inode1)).1 ≠ 0 then
                (-1, (put_inode sb d1 inum
                    (if 122870 + bytes_written > inode1.size then
                      { type := inode1.type, size := 122870 + bytes_written,
                        direct := inode1.direct }
                    else inode1)).2)
              else
                (bytes_written, (put_inode sb d1 inum
                    (if 122870 + bytes_written > inode1.size then
                      { type := inode1.type, size := 122870 + bytes_written,
                        direct := inode1.direct }
                    else inode1)).2))
            = (if 10 > N then N else 10, d3) := by
      intro d1 ino1 blk buf hslot hb0 hb1 hsz hbuf hor
      rw [hslot]
      simp only [hbuf]
      obtain ⟨d2, hd2⟩ := write_block_ok d1 blk (fun k =>
        if (4086 : Int).toNat ≤ k
          ∧ k < (4086 : Int).toNat
            + (if UFS_BLOCK_SIZE - 4086 > N - 0 then N - 0 else UFS_BLOCK_SIZE - 4086).toNat
        then buffer.getD ((0 : Int).toNat + (k - (4086 : Int).toNat)) 0
        else buf k) hb0 hb1
      simp only [hd2, write_loop_last_done]
      obtain ⟨d3, hd3⟩ := put_inode_ok sb d2 inum
        (if 122870 + (if 10 > N then N else 10) > ino1.size then
          { ino1 with size := 122870 + (if 10 > N then N else 10) } else ino1) hlay hi0 hi1
      refine ⟨d1, blk, buf, _, d2, _, d3, hor, hbuf, ?_, hd2, hd3, ?_⟩
      · intro k hk hnot
        have h1 : ¬ ((4086 : Int).toNat ≤ k
            ∧ k < (4086 : Int).toNat
              + (if UFS_BLOCK_SIZE - 4086 > N - 0 then N - 0
                  else UFS_BLOCK_SIZE - 4086).toNat) := by
          simp only [UFS_BLOCK_SIZE]
          split <;> omega
        rw [if_neg h1]
      · simp only [hd3]
        simp
    by_cases hp : ino.direct.getD 29 0 = -1
    · simp only [hp, if_true]
      by_cases hr : (allocate_data_block sb d).1 = -1
      · left
        simp only [hr, if_true]
        rw [allocate_data_block_fail sb d hlay hr]
        exact ⟨trivial, trivial, trivial, rfl⟩
      · right
        simp only [hr, if_false]
        obtain ⟨i, hi0', hi1', hbr, _, hsz, _⟩ := allocate_data_block_spec sb d hlay hr
        obtain ⟨buf, hbuf⟩ := read_block_of_fits (allocate_data_block sb d).2
          (allocate_data_block sb d).1 (by omega) (by omega) (by rw [hsz]; omega)
        refine ⟨trivial, ?_⟩
        have := hfin (allocate_data_block sb d).2
          { ino with direct := (ino.direct.set 29 (allocate_data_block sb d).1) }
          (allocate_data_block sb d).1 buf
          (getD_set_self _ _ _ (by rw [(get_inode_ok hino).2.2.1]; decide))
          (by omega) (by omega) hsz hbuf (Or.inl ⟨hp, rfl, hr, rfl⟩)
        simp only [hp] at this
        exact this
    · right
      simp only [hp, if_false]
      obtain ⟨hb0, hb1, _, _⟩ := hblocks 29 (by decide) hp
      obtain ⟨buf, hbuf⟩ := read_block_of_fits d (ino.direct.getD 29 0) (by omega) (by omega)
        (by omega)
      have := hfin d ino (ino.direct.getD 29 0) buf rfl (by omega) (by omega) rfl hbuf
        (Or.inr ⟨hp, rfl, rfl⟩)
      simp only [hp] at this
      exact ⟨trivial, this⟩

end NFS

namespace NFS

/-- A successful `put_inode` on an inode record inside the image changes no byte
outside the 128 bytes of the record. -/
theorem put_inode_record_frame {sb : super_t} {d d1 : Disk} {inum : Int} {ino : inode_t}
    (hfit : (inode_addr sb inum).toNat + 128 ≤ d.size)
    (h : put_inode sb d inum ino = (0, d1)) :
    d1.size = d.size ∧
      ∀ a : Nat, ¬ (inode_addr sb inum ≤ (a : Int) ∧ (a : Int) < inode_addr sb inum + 128) →
        d1.byte a = d.byte a := by
  obtain ⟨_, _, hw⟩ := put_inode_zero h
  obtain ⟨hoff, _⟩ := pwrite_some hw
  simp only [SIZEOF_INODE] at hw
  obtain ⟨hsz, _, hout⟩ := pwrite_inside hw hfit
  refine ⟨hsz, ?_⟩
  intro a ha
  apply hout
  omega

/-- Claim C16 (amended). On a well-laid-out image that contains its data region,
for a regular file whose present direct slots name pairwise different, allocated
blocks of the data region, and every `N ≥ 0`: `MFS_Write` at offset
`DIRECT_PTRS * UFS_BLOCK_SIZE - 10` with `nbytes = N` returns `min(N, 10)`, or 0
when the last direct slot is absent and no block can be allocated for it; the
count is never negative.  The length of the image is unchanged, and no byte
changes outside the last ten bytes of the file's last direct block, the file's
inode record and the data-bitmap byte of that block. -/
theorem MFS_Write_at_last_ten (sb : super_t) (d : Disk) (inum : Int) (buffer : List Nat) (N : Int)
    (ino : inode_t) (hlay : layout_ok sb)
    (hcov : (sb.data_region_addr + sb.data_region_len) * 4096 ≤ (d.size : Int))
    (hino : get_inode sb d inum = some ino) (hreg : ino.type = UFS_REGULAR_FILE)
    (hblocks : file_blocks_ok sb d ino) (hN : 0 ≤ N) :
    ((MFS_Write sb d inum buffer 122870 N).1 = min N 10 ∨
      ((MFS_Write sb d inum buffer 122870 N).1 = 0 ∧ ino.direct.getD 29 0 = -1
        ∧ (allocate_data_block sb d).1 = -1)) ∧
    0 ≤ (MFS_Write sb d inum buffer 122870 N).1 ∧
    (MFS_Write sb d inum buffer 122870 N).1 ≤ min N 10 ∧
    (MFS_Write sb d inum buffer 122870 N).2.size = d.size ∧
    ∀ a : Nat,
      ¬ ((if ino.direct.getD 29 0 = -1 then (allocate_data_block sb d).1
            else ino.direct.getD 29 0) * 4096 + 4086 ≤ (a : Int)
          ∧ (a : Int) < (if ino.direct.getD 29 0 = -1 then (allocate_data_block sb d).1
            else ino.direct.getD 29 0) * 4096 + 4096) →
      ¬ (inode_addr sb inum ≤ (a : Int) ∧ (a : Int) < inode_addr sb inum + 128) →
      (a : Int) ≠ sb.data_bitmap_addr * 4096
        + ((if ino.direct.getD 29 0 = -1 then (allocate_data_block sb d).1
            else ino.direct.getD 29 0) - sb.data_region_addr) / 8 →
      (MFS_Write sb d inum buffer 122870 N).2.byte a = d.byte a := by
  obtain ⟨hi0, hi1, _⟩ := get_inode_some hino
  have hlay0 := hlay
  unfold layout_ok at hlay0
  obtain ⟨ha1, ha2, ha3⟩ := inode_addr_eq sb inum hlay hi0 hi1
  rcases MFS_Write_last_shape sb d inum buffer N ino hlay hcov hino hreg hblocks hN with
    ⟨hN0, ino2, d3, hput, hW⟩ | ⟨hN0, hp, hr, hW⟩ |
    ⟨hN0, d1, blk, buf, buf1, d2, ino2, d3, hor, hbuf, hsame, hwr, hput, hW⟩
  · rw [hW]
    obtain ⟨hsz, hfr⟩ := put_inode_record_frame (by omega) hput
    refine ⟨Or.inl (by simp only; omega), le_refl _, by simp only; omega, hsz, ?_⟩
    intro a _ h2 _
    exact hfr a h2
  · rw [hW]
    refine ⟨Or.inr ⟨rfl, hp, hr⟩, le_refl _, by simp only; omega, rfl, ?_⟩
    intro a _ _ _
    rfl
  · rw [hW]
    have hmin : (if 10 > N then N else 10) = min N 10 := by
      split <;> omega
    have hd1 : d1.size = d.size ∧ 0 ≤ blk ∧ blk ≤ 524287 ∧
        blk = (if ino.direct.getD 29 0 = -1 then (allocate_data_block sb d).1
            else ino.direct.getD 29 0) ∧
        ∀ a : Nat, (a : Int) ≠ sb.data_bitmap_addr * 4096 + (blk - sb.data_region_addr) / 8 →
          d1.byte a = d.byte a := by
      rcases hor with ⟨hp, hb, hne, hd⟩ | ⟨hp, hb, hd⟩
      · rw [hb] at hne
        obtain ⟨i, i0, i1, hbr, _, hsz, hfr, _⟩ := allocate_data_block_spec sb d hlay hne
        rw [hd, hb, if_pos hp]
        refine ⟨hsz, by omega, by omega, rfl, ?_⟩
        intro a ha
        apply hfr
        rw [hbr] at ha
        have : (sb.data_region_addr + i - sb.data_region_addr) = i := by ring
        rw [this] at ha
        omega
      · obtain ⟨hb0, hb1, _, _⟩ := hblocks 29 (by decide) hp
        rw [hd, hb, if_neg hp]
        exact ⟨rfl, by omega, by omega, rfl, fun _ _ => rfl⟩
    obtain ⟨hsz1, hblk0, hblk1, hblkeq, hfr1⟩ := hd1
    rw [← hblkeq]
    obtain ⟨hsz2, hfr2⟩ := write_block_patch 4086 4096 hblk0 hblk1 hbuf hsame hwr
    obtain ⟨hsz3, hfr3⟩ := put_inode_record_frame (by omega) hput
    refine ⟨Or.inl hmin, by simp only; omega, by simp only; omega, by simp only; omega, ?_⟩
    intro a h1 h2 h3
    simp only
    rw [hfr3 a h2, hfr2 a (by omega), hfr1 a h3]

set_option maxRecDepth 100000 in
/-- Witness of C16 (amended): twenty bytes written at offset 122870 to the empty
file of `one_file_image`. -/
theorem MFS_Write_at_last_ten_witness :
    (MFS_Write demo_sb one_file_image 1 (List.replicate 20 120) 122870 20).1 = 10 :=
  (MFS_Write_at_last_ten demo_sb one_file_image 1 (List.replicate 20 120) 20
    { type := UFS_REGULAR_FILE, size := 0, direct := List.replicate 30 (-1) }
    (by decide) (by decide) (by decide) (by decide) (by decide) (by decide)).2.2.1.antisymm
    (by decide)

set_option maxRecDepth 100000 in
/-- Counterexample to C16 as stated: `MFS_Write(1, "x", 122870, 1)` on the empty
file of `one_file_image` returns 1 and puts the file's last direct block at block
5 (bytes 20480 to 24575 of the image); it also changes byte 12420, in the size
field of the inode record, from 0 to 247, and byte 8192 of the data bitmap from 1
to 3. -/
theorem MFS_Write_last_block_changes_metadata :
    (MFS_Write demo_sb one_file_image 1 [120] 122870 1).1 = 1
      ∧ (get_inode demo_sb (MFS_Write demo_sb one_file_image 1 [120] 122870 1).2 1).map
          (fun i => i.direct.getD 29 0) = some 5
      ∧ one_file_image.byte 12420 = 0
      ∧ (MFS_Write demo_sb one_file_image 1 [120] 122870 1).2.byte 12420 = 247
      ∧ one_file_image.byte 8192 = 1
      ∧ (MFS_Write demo_sb one_file_image 1 [120] 122870 1).2.byte 8192 = 3 := by
  decide

end NFS

namespace NFS

/-- The write loop changes no file byte outside the range it writes, in the
blocks the file had at the start. -/
theorem write_loop_kept (sb : super_t) (d0 : Disk) (ino0 : inode_t) (B : List Nat) (O : Int)
    (hlay : layout_ok sb)
    (hcov : (sb.data_region_addr + sb.data_region_len) * 4096 ≤ (d0.size : Int))
    (hO : 0 ≤ O) (hfit : O + B.length ≤ 122880) (hB : ∀ c ∈ B, c < 256)
    (hblocks : file_blocks_ok sb d0 ino0) :
    ∀ (f : Nat) (d : Disk) (ino : inode_t) (bw : Int),
      write_inv sb d0 ino0 B O d ino bw → kept d0 d ino0 O bw →
      ∀ (d1 : Disk) (ino1 : inode_t) (bw1 : Int),
        write_loop sb B O B.length f d ino bw = .ok (d1, ino1, bw1) →
        kept d0 d1 ino0 O bw1 := by
  have hlay0 := hlay
  unfold layout_ok at hlay0
  intro f
  induction f with
  | zero =>
    intro d ino bw hinv hk d1 ino1 bw1 h
    simp only [write_loop, Except.ok.injEq, Prod.mk.injEq] at h
    obtain ⟨h1, _, h3⟩ := h
    subst h1 h3
    exact hk
  | succ n ih =>
    intro d ino bw hinv hk d1 ino1 bw1 h
    by_cases hlt : bw < B.length
    · have h0 : 0 ≤ bw := hinv.1
      have hidx : ((O + bw) / 4096).toNat < DIRECT_PTRS := by
        simp only [DIRECT_PTRS]
        omega
      have hnge : ¬ ((O + bw) / UFS_BLOCK_SIZE ≥ DIRECT_PTRS) := by
        simp only [UFS_BLOCK_SIZE, DIRECT_PTRS]
        omega
      have hmod := Int.emod_nonneg (O + bw) (by norm_num : (4096 : Int) ≠ 0)
      have hmodlt := Int.emod_lt_of_pos (O + bw) (by norm_num : (0 : Int) < 4096)
      -- one pass over a present slot, from a state where the invariants hold
      have hpass : ∀ (da : Disk) (inoa : inode_t),
          write_inv sb d0 ino0 B O da inoa bw → kept d0 da ino0 O bw →
          inoa.direct.getD ((O + bw) / 4096).toNat 0 ≠ -1 →
          (match read_block da (inoa.direct.getD ((O + bw) / 4096).toNat 0) with
            | none => Except.error (-1, da)
            | some block_buffer =>
              match write_block da (inoa.direct.getD ((O + bw) / 4096).toNat 0)
                (fun k =>
                  if ((O + bw) % 4096).toNat ≤ k
                    ∧ k < ((O + bw) % 4096).toNat
                      + (if 4096 - (O + bw) % 4096 > (B.length : Int) - bw
                          then (B.length : Int) - bw else 4096 - (O + bw) % 4096).toNat
                  then B.getD (bw.toNat + (k - ((O + bw) % 4096).toNat)) 0
                  else block_buffer k) with
              | none => Except.error (-1, da)
              | some d2 =>
                write_loop sb B O B.length n d2 inoa
                  (bw + (if 4096 - (O + bw) % 4096 > (B.length : Int) - bw
                          then (B.length : Int) - bw else 4096 - (O + bw) % 4096)))
            = .ok (d1, ino1, bw1) →
          kept d0 d1 ino0 O bw1 := by
        intro da inoa hinva hka hp hm
        obtain ⟨buf, hbuf, hstep⟩ :=
          write_inv_step sb d0 ino0 B O da inoa bw hlay hcov hO hfit hB hinva hlt hp
        obtain ⟨_, _, _, _, _, hfb, hdsz, hkeep, _⟩ := hinva
        obtain ⟨hb0, hb1, _, hbd⟩ := hfb _ hidx hp
        generalize hbtc : (if 4096 - (O + bw) % 4096 > (B.length : Int) - bw
          then (B.length : Int) - bw else 4096 - (O + bw) % 4096) = btc at hm
        have hbtc0 : 0 < btc ∧ btc ≤ 4096 - (O + bw) % 4096 ∧ bw + btc ≤ B.length := by
          rw [← hbtc]
          split <;> omega
        obtain ⟨d2, hd2, hinv2⟩ := hstep btc hbtc0.1 hbtc0.2.1 hbtc0.2.2
        simp only [hbuf, hd2] at hm
        refine ih d2 inoa _ hinv2 ?_ d1 ino1 bw1 hm
        obtain ⟨hsz2, hfr2⟩ := write_block_patch ((O + bw) % 4096).toNat
          (((O + bw) % 4096).toNat + btc.toNat) (by omega) (by omega) hbuf
          (fun k _ hnot => by
            rw [if_neg hnot]) hd2
        intro q hq hq0 hout
        rw [← hka q hq hq0 (by omega)]
        have hqi : q / 4096 < DIRECT_PTRS := by
          simp only [DIRECT_PTRS]
          omega
        obtain ⟨hc0, hc1, _, _⟩ := hblocks _ hqi hq0
        have hsl := hkeep _ hqi hq0
        apply hfr2
        by_cases hsame : q / 4096 = ((O + bw) / 4096).toNat
        · rw [← hsame, hsl]
          omega
        · have hne := hbd _ hqi hsame
          rw [hsl] at hne
          generalize ino0.direct.getD (q / 4096) 0 = s0 at *
          generalize inoa.direct.getD ((O + bw) / 4096).toNat 0 = s1 at *
          omega
      rw [write_loop] at h
      simp only [hlt, if_true, hnge, if_false] at h
      by_cases hp : ino.direct.getD ((O + bw) / 4096).toNat 0 = -1
      · simp only [UFS_BLOCK_SIZE, hp, if_true] at h
        by_cases hr : (allocate_data_block sb d).1 = -1
        · simp [hr] at h
        · simp only [hr, if_false] at h
          obtain ⟨hinv1, hp1⟩ :=
            write_inv_alloc sb d0 ino0 B O d ino bw _ hlay hfit hinv hidx hp hr
          refine hpass _ _ hinv1 ?_ hp1 h
          obtain ⟨i, i0, i1, hbr, _, hsz, hfr, i8, _⟩ := allocate_data_block_spec sb d hlay hr
          intro q hq hq0 hout
          rw [← hk q hq hq0 hout]
          have hqi : q / 4096 < DIRECT_PTRS := by
            simp only [DIRECT_PTRS]
            omega
          obtain ⟨hc0, hc1, _, _⟩ := hblocks _ hqi hq0
          apply hfr
          omega
      · simp only [UFS_BLOCK_SIZE, hp, if_false] at h
        exact hpass d ino hinv hk hp h
    · rw [write_loop] at h
      simp only [hlt, if_false, Except.ok.injEq, Prod.mk.injEq] at h
      obtain ⟨h1, _, h3⟩ := h
      subst h1 h3
      exact hk

end NFS

namespace NFS

/-- One chunk of the read loop: a byte position inside the chunk lies in the block
the chunk was copied from, and the byte of the image at that position is the one
the accumulated output holds. -/
theorem read_chunk_getD (d : Disk) (buf : Nat → Nat) (blk p br btc : Int) (out L : List Nat)
    (k : Nat) (hval : ∀ k, k < 4096 → buf k = (d.byte ((blk * 4096).toNat + k)).val)
    (hb0 : 0 ≤ blk) (h0 : 0 ≤ br) (hlen : out.length = br.toNat)
    (hbtc : 0 < btc ∧ btc ≤ 4096 - (p + br) % 4096)
    (c2 : ∀ k : Nat, k < (br + btc).toNat → L.getD k 0
      = (out ++ (List.range btc.toNat).map
          (fun k => buf (((p + br) % 4096).toNat + k))).getD k 0)
    (hk1 : br ≤ (k : Int)) (hkb : (k : Int) < br + btc) :
    ((p + k) / 4096).toNat = ((p + br) / 4096).toNat ∧
      (d.byte (blk * 4096 + (p + k) % 4096).toNat).val = L.getD k 0 := by
  have hmod := Int.emod_nonneg (p + br) (by norm_num : (4096 : Int) ≠ 0)
  have hmodlt := Int.emod_lt_of_pos (p + br) (by norm_num : (0 : Int) < 4096)
  have hsame : (p + k) / 4096 = (p + br) / 4096 := by omega
  have hmodk : (p + k) % 4096 = (p + br) % 4096 + (k - br) := by omega
  refine ⟨by rw [hsame], ?_⟩
  rw [c2 k (by omega), List.getD_append_right _ _ _ _ (by omega)]
  have hkk : k - out.length < btc.toNat := by omega
  have e : ((List.range btc.toNat).map
        (fun k => buf (((p + br) % 4096).toNat + k))).getD (k - out.length) 0
      = buf (((p + br) % 4096).toNat + (k - out.length)) := by
    rw [List.getD_eq_getElem _ _ (by
      simp only [List.length_map, List.length_range]
      exact hkk)]
    simp only [List.getElem_map, List.getElem_range]
  rw [e, hval _ (by omega)]
  congr 2
  omega

/-- When the read loop returns the full count `m`, every byte from the count it
started at was taken from a present direct slot, and the range ends inside the
direct blocks. -/
theorem read_loop_full (d : Disk) (ino : inode_t) (p m : Int) (L : List Nat) (hm : 0 ≤ m)
    (hp : 0 ≤ p)
    (hblk : ∀ i, i < DIRECT_PTRS → ino.direct.getD i 0 ≠ -1 →
      0 ≤ ino.direct.getD i 0 ∧ ino.direct.getD i 0 ≤ 524287) :
    ∀ (f : Nat) (br : Int) (out : List Nat), 0 ≤ br → br ≤ m → out.length = br.toNat →
      read_loop d ino p m f br out = (m, L) →
      (br < m → p + m ≤ 122880) ∧
      (∀ k : Nat, k < br.toNat → L.getD k 0 = out.getD k 0) ∧
      ∀ k : Nat, br ≤ (k : Int) → (k : Int) < m →
        ino.direct.getD ((p + k) / 4096).toNat 0 ≠ -1 ∧
        (d.byte (ino.direct.getD ((p + k) / 4096).toNat 0 * 4096 + (p + k) % 4096).toNat).val
          = L.getD k 0 := by
  intro f
  induction f with
  | zero =>
    intro br out h0 h1 hlen h
    simp only [read_loop, Prod.mk.injEq] at h
    obtain ⟨e1, e2⟩ := h
    subst e1 e2
    exact ⟨fun h => absurd h (lt_irrefl _), fun _ _ => rfl, fun k hk1 hk2 => by omega⟩
  | succ n ih =>
    intro br out h0 h1 hlen h
    rw [read_loop] at h
    by_cases hlt : br < m
    · simp only [hlt, if_true] at h
      by_cases hge : (p + br) / UFS_BLOCK_SIZE ≥ DIRECT_PTRS
      · simp only [hge, if_true, Prod.mk.injEq] at h
        omega
      · simp only [hge, if_false] at h
        simp only [UFS_BLOCK_SIZE, DIRECT_PTRS] at hge
        by_cases hs : ino.direct.getD ((p + br) / UFS_BLOCK_SIZE).toNat 0 = -1
        · simp only [hs, if_true, Prod.mk.injEq] at h
          omega
        · simp only [hs, if_false] at h
          simp only [UFS_BLOCK_SIZE] at hs h
          have hidx : ((p + br) / 4096).toNat < DIRECT_PTRS := by
            simp only [DIRECT_PTRS]
            omega
          obtain ⟨hb0, hb1⟩ := hblk _ hidx hs
          cases hrd : read_block d (ino.direct.getD ((p + br) / 4096).toNat 0) with
          | none =>
            simp only [hrd, Prod.mk.injEq] at h
            omega
          | some buf =>
            simp only [hrd] at h
            have hval := (read_block_some hb0 hb1 hrd).2
            have hmod := Int.emod_nonneg (p + br) (by norm_num : (4096 : Int) ≠ 0)
            have hmodlt := Int.emod_lt_of_pos (p + br) (by norm_num : (0 : Int) < 4096)
            generalize hbtc : (if 4096 - (p + br) % 4096 > m - br
              then m - br else 4096 - (p + br) % 4096) = btc at h
            have hbtc0 : 0 < btc ∧ btc ≤ 4096 - (p + br) % 4096 ∧ br + btc ≤ m := by
              rw [← hbtc]
              split <;> omega
            have hl : (out ++ (List.range btc.toNat).map
                (fun k => buf (((p + br) % 4096).toNat + k))).length = (br + btc).toNat := by
              simp only [List.length_append, List.length_map, List.length_range, hlen]
              omega
            obtain ⟨c1, c2, c3⟩ := ih (br + btc) _ (by omega) hbtc0.2.2 hl h
            refine ⟨fun _ => ?_, ?_, ?_⟩
            · by_cases hmore : br + btc < m
              · exact c1 hmore
              · omega
            · intro k hk
              rw [c2 k (by omega), List.getD_append _ _ _ _ (by omega)]
            · intro k hk1 hk2
              by_cases hkb : br + btc ≤ (k : Int)
              · exact c3 k hkb hk2
              · obtain ⟨hsame, hbyte⟩ := read_chunk_getD d buf _ p br btc out L k hval hb0 h0
                  hlen ⟨hbtc0.1, hbtc0.2.1⟩ c2 hk1 (by omega)
                rw [hsame]
                exact ⟨hs, hbyte⟩
    · simp only [hlt, if_false, Prod.mk.injEq] at h
      obtain ⟨e1, e2⟩ := h
      subst e1 e2
      exact ⟨fun h => absurd h (lt_irrefl _), fun _ _ => rfl, fun k hk1 hk2 => by omega⟩

end NFS

namespace NFS

/-- An `MFS_Write` on a well-formed file that returns the full count left its loop
with every byte stored and nothing else of the file changed, and stored the
inode. -/
theorem MFS_Write_complete (sb : super_t) (d : Disk) (inum : Int) (B : List Nat) (O : Int)
    (ino : inode_t) (hlay : layout_ok sb)
    (hcov : (sb.data_region_addr + sb.data_region_len) * 4096 ≤ (d.size : Int))
    (hino : get_inode sb d inum = some ino) (hreg : ino.type = UFS_REGULAR_FILE)
    (hblocks : file_blocks_ok sb d ino)
    (hO : 0 ≤ O) (hfit : O + B.length ≤ 122880) (hB : ∀ c ∈ B, c < 256)
    (hW : (MFS_Write sb d inum B O B.length).1 = B.length) :
    ∃ d1 ino1 d2, write_inv sb d ino B O d1 ino1 B.length ∧ kept d d1 ino O B.length ∧
      put_inode sb d1 inum (if O + B.length > ino1.size
        then { ino1 with size := O + B.length } else ino1) = (0, d2) ∧
      MFS_Write sb d inum B O B.length = ((B.length : Int), d2) := by
  obtain ⟨hi0, hi1, _⟩ := get_inode_some hino
  have hinv0 : write_inv sb d ino B O d ino 0 := by
    refine ⟨le_refl _, by omega, rfl, rfl, get_inode_ok hino, hblocks, rfl, fun _ _ _ => rfl, ?_⟩
    intro k hk
    omega
  have hk0 : kept d d ino O 0 := fun _ _ _ _ => rfl
  have hguard : ¬ (inum < 0 ∨ O < 0 ∨ (B.length : Int) < 0) := by omega
  have hty : ¬ (ino.type ≠ UFS_REGULAR_FILE) := fun h => h hreg
  unfold MFS_Write at hW ⊢
  simp only [hguard, if_false, hino, hty, Int.toNat_ofNat] at hW ⊢
  rcases write_loop_inv sb d ino B O hlay hcov hO hfit hB B.length d ino 0 hinv0 (by omega) with
    ⟨d1, ino1, hw, hinv1⟩ | ⟨r, d1, hw, hr, hex⟩
  · have hkept := write_loop_kept sb d ino B O hlay hcov hO hfit hB hblocks B.length d ino 0
      hinv0 hk0 d1 ino1 B.length hw
    obtain ⟨d2, hd2⟩ := put_inode_ok sb d1 inum
      (if O + B.length > ino1.size then { ino1 with size := O + B.length } else ino1) hlay hi0 hi1
    refine ⟨d1, ino1, d2, hinv1, hkept, hd2, ?_⟩
    simp only [hw, hd2]
    simp
  · simp only [hw] at hW
    omega

/-- An `MFS_Read` of a range below the recorded size that returns the full count
took every byte from a present direct slot. -/
theorem MFS_Read_full (sb : super_t) (d : Disk) (inum p m : Int) (ino : inode_t)
    (hino : get_inode sb d inum = some ino) (hp : 0 ≤ p) (hm : 0 ≤ m) (hpm : p + m ≤ ino.size)
    (hblk : ∀ i, i < DIRECT_PTRS → ino.direct.getD i 0 ≠ -1 →
      0 ≤ ino.direct.getD i 0 ∧ ino.direct.getD i 0 ≤ 524287)
    (hR : (MFS_Read sb d inum p m).1 = m) :
    (0 < m → p + m ≤ 122880) ∧
      ∀ k : Nat, (k : Int) < m →
        ino.direct.getD ((p + k) / 4096).toNat 0 ≠ -1 ∧
        (d.byte (ino.direct.getD ((p + k) / 4096).toNat 0 * 4096 + (p + k) % 4096).toNat).val
          = (MFS_Read sb d inum p m).2.getD k 0 := by
  obtain ⟨hi0, hi1, _⟩ := get_inode_some hino
  have hsz := (get_inode_ok hino).2.1
  unfold int32 at hsz
  have hguard : ¬ (inum < 0 ∨ p < 0 ∨ m < 0) := by omega
  unfold MFS_Read at hR ⊢
  simp only [hguard, if_false, hino] at hR ⊢
  by_cases hge : p ≥ ino.size
  · simp only [hge, if_true] at hR ⊢
    exact ⟨fun h => by omega, fun k hk => by omega⟩
  · have hw : wrap32 (p + m) = p + m := wrap32_of_range (by omega) (by omega)
    have hgt : ¬ (wrap32 (p + m) > ino.size) := by
      rw [hw]
      omega
    simp only [hge, if_false, hgt] at hR ⊢
    have heq : read_loop d ino p m m.toNat 0 [] = (m, (read_loop d ino p m m.toNat 0 []).2) :=
      Prod.ext hR rfl
    obtain ⟨c1, _, c3⟩ := read_loop_full d ino p m _ hm hp hblk m.toNat 0 [] (le_refl _) hm rfl heq
    exact ⟨c1, fun k hk => c3 k (by omega) hk⟩

/-- An `MFS_Read` of a range below the recorded size whose bytes all stand in
present direct slots returns them. -/
theorem MFS_Read_of_stored (sb : super_t) (d : Disk) (inum p : Int) (ino : inode_t)
    (L : List Nat) (hino : get_inode sb d inum = some ino) (hp : 0 ≤ p)
    (hfit : p + L.length ≤ 122880) (hpm : p + L.length ≤ ino.size)
    (hblk : ∀ i, i < DIRECT_PTRS → ino.direct.getD i 0 ≠ -1 →
      0 ≤ ino.direct.getD i 0 ∧ ino.direct.getD i 0 ≤ 524287 ∧
        ino.direct.getD i 0 * 4096 + 4096 ≤ (d.size : Int))
    (hst : stored d ino L p L.length) :
    MFS_Read sb d inum p L.length = ((L.length : Int), L) := by
  obtain ⟨hi0, hi1, _⟩ := get_inode_some hino
  have hguard : ¬ (inum < 0 ∨ p < 0 ∨ (L.length : Int) < 0) := by omega
  unfold MFS_Read
  simp only [hguard, if_false, hino]
  by_cases hge : p ≥ ino.size
  · have hlen : L.length = 0 := by omega
    have hnil : L = [] := List.length_eq_zero.mp hlen
    subst hnil
    simp [hge]
  · have hw : wrap32 (p + L.length) = p + L.length := wrap32_of_range (by omega) (by omega)
    have hgt : ¬ (wrap32 (p + L.length) > ino.size) := by
      rw [hw]
      omega
    simp only [hge, if_false, hgt, Int.toNat_ofNat]
    exact read_loop_stored d ino L p hp hfit hblk hst L.length 0 (le_refl _) (by omega) (by omega)

end NFS

namespace NFS

/-- A read of no bytes from an existing inode returns 0. -/
theorem MFS_Read_zero (sb : super_t) (d : Disk) (inum p : Int) (ino : inode_t)
    (hino : get_inode sb d inum = some ino) (hp : 0 ≤ p) :
    MFS_Read sb d inum p 0 = (0, []) := by
  obtain ⟨hi0, hi1, _⟩ := get_inode_some hino
  have hsz := (get_inode_ok hino).2.1
  unfold int32 at hsz
  have hguard : ¬ (inum < 0 ∨ p < 0 ∨ (0 : Int) < 0) := by omega
  unfold MFS_Read
  simp only [hguard, if_false, hino]
  by_cases hge : p ≥ ino.size
  · simp only [hge, if_true]
  · have hw : wrap32 (p + 0) = p + 0 := wrap32_of_range (by omega) (by omega)
    have hgt : ¬ (wrap32 (p + 0) > ino.size) := by
      rw [hw]
      omega
    simp only [hge, if_false, hgt]
    rfl

/-- An `MFS_Read` of `m` bytes at `p` is the read of the part of that range that
lies below the recorded size. -/
theorem MFS_Read_clamp (sb : super_t) (d : Disk) (inum p m : Int) (ino : inode_t)
    (hino : get_inode sb d inum = some ino) (hp : 0 ≤ p) (hm : 0 ≤ m)
    (hpm : p + m ≤ 2147483647) :
    MFS_Read sb d inum p m = MFS_Read sb d inum p (min m (max (ino.size - p) 0)) := by
  obtain ⟨hi0, hi1, _⟩ := get_inode_some hino
  have hsz := (get_inode_ok hino).2.1
  unfold int32 at hsz
  have hguard : ¬ (inum < 0 ∨ p < 0 ∨ m < 0) := by omega
  have hguard2 : ¬ (inum < 0 ∨ p < 0 ∨ min m (max (ino.size - p) 0) < 0) := by omega
  unfold MFS_Read
  simp only [hguard, hguard2, if_false, hino]
  by_cases hge : p ≥ ino.size
  · simp only [hge, if_true]
  · simp only [hge, if_false]
    have hc : min m (max (ino.size - p) 0) = min m (ino.size - p) := by omega
    rw [hc]
    have hw1 : wrap32 (p + m) = p + m := wrap32_of_range (by omega) (by omega)
    have hw2 : wrap32 (p + min m (ino.size - p)) = p + min m (ino.size - p) :=
      wrap32_of_range (by omega) (by omega)
    rw [hw1, hw2]
    have hn : ¬ (p + min m (ino.size - p) > ino.size) := by omega
    rw [if_neg hn]
    by_cases hgt : p + m > ino.size
    · rw [if_pos hgt]
      have e : min m (ino.size - p) = ino.size - p := by omega
      rw [e]
    · rw [if_neg hgt]
      have e : min m (ino.size - p) = m := by omega
      rw [e]

/-- The length `c` of a read range clamped to the new size `max S E`. -/
theorem clamped_range_scalars (S E p m : Int) (hm : 0 ≤ m) (hS : S ≤ 122880)
    (hE : E ≤ 122880) :
    0 ≤ min m (max (max S E - p) 0) ∧
      (min m (max (max S E - p) 0) = 0 ∨ p + min m (max (max S E - p) 0) ≤ max S E) ∧
      max S E ≤ 122880 := by
  omega

/-- The positions of a read range clamped to the new size `max S E` after a write
to `[O, E)`, when the range does not reach into a gap `[S, O)`: each lies below
the new size, and is inside the written range or below the old size `S`. -/
theorem clamped_range_positions (S O E p m : Int) (k : Nat)
    (hgap : O ≤ S ∨ p + m ≤ S ∨ O ≤ p) (hk : (k : Int) < min m (max (max S E - p) 0)) :
    p + k < max S E ∧ ((O ≤ p + k ∧ p + k < E) ∨ p + k < S) := by
  omega

/-- The bytes of a read range after an overwrite, position by position: a
position inside the written range holds the byte written, any other position
below the old size the byte it held, the inode record stored at the end changing
no byte of the data region. -/
theorem stored_after_overwrite (sb : super_t) (d d1 d2 : Disk) (ino ino1 : inode_t)
    (B N R : List Nat) (O p S : Int)
    (hreg : 0 ≤ sb.inode_region_addr ∧ 0 ≤ sb.inode_region_len ∧
      sb.inode_region_addr + sb.inode_region_len ≤ sb.data_region_addr)
    (hframe : ∀ a : Nat, ((a : Int) < sb.inode_region_addr * 4096
        ∨ (sb.inode_region_addr + sb.inode_region_len) * 4096 ≤ (a : Int)) →
      d2.byte a = d1.byte a)
    (hfb : file_blocks_ok sb d1 ino1) (hblocks : file_blocks_ok sb d ino)
    (hkeep : ∀ i, i < DIRECT_PTRS → ino.direct.getD i 0 ≠ -1 →
      ino1.direct.getD i 0 = ino.direct.getD i 0)
    (hst : stored d1 ino1 B O B.length) (hkept : kept d d1 ino O B.length)
    (hold : ∀ k : Nat, (k : Int) < S →
      ino.direct.getD ((0 + (k : Int)) / 4096).toNat 0 ≠ -1 ∧
      (d.byte (ino.direct.getD ((0 + (k : Int)) / 4096).toNat 0 * 4096
        + (0 + (k : Int)) % 4096).toNat).val = R.getD k 0)
    (hp : 0 ≤ p)
    (hpos : ∀ k : Nat, k < N.length →
      p + k < 122880 ∧ ((O ≤ p + k ∧ p + k < O + B.length) ∨ p + k < S))
    (hNget : ∀ k : Nat, k < N.length → N.getD k 0
      = if O ≤ p + k ∧ p + k < O + B.length then B.getD (p + k - O).toNat 0
        else R.getD (p + k).toNat 0) :
    stored d2 ino1 N p N.length := by
  intro k hk
  have hkm : k < N.length := by omega
  obtain ⟨hq, hqq⟩ := hpos k hkm
  have hidx : ((p + k) / 4096).toNat < DIRECT_PTRS := by
    simp only [DIRECT_PTRS]
    omega
  have hkm0 := Int.emod_nonneg (p + k) (by norm_num : (4096 : Int) ≠ 0)
  rw [hNget k hkm]
  by_cases hin : O ≤ p + k ∧ p + k < O + B.length
  · rw [if_pos hin]
    clear hqq hold hkept hkeep hblocks hpos hNget
    obtain ⟨hs1, hs2⟩ := hst (p + k - O).toNat (by omega)
    have e : O + ((p + k - O).toNat : Int) = p + k := by omega
    rw [e] at hs1 hs2
    refine ⟨hs1, ?_⟩
    rw [← hs2]
    obtain ⟨hb0, _, _, _⟩ := hfb _ hidx hs1
    rw [hframe]
    right
    rw [Int.toNat_of_nonneg (by omega)]
    omega
  · rw [if_neg hin]
    have hqS : p + k < S := by
      rcases hqq with h1 | h1
      · exact absurd h1 hin
      · exact h1
    clear hqq hst hfb hpos hNget
    obtain ⟨ho1, ho2⟩ := hold (p + k).toNat (by omega)
    have e0 : (0 : Int) + ((p + k).toNat : Int) = p + k := by omega
    rw [e0] at ho1 ho2
    have hsl := hkeep _ hidx ho1
    rw [hsl]
    refine ⟨ho1, ?_⟩
    rw [← ho2]
    obtain ⟨hb0, _, _, _⟩ := hblocks _ hidx ho1
    rw [hframe _ (by
      right
      rw [Int.toNat_of_nonneg (by omega)]
      omega)]
    have hq1 := hkept (p + k).toNat (by omega)
    have e1 : (p + k).toNat / 4096 = ((p + k) / 4096).toNat := by omega
    have e2 : (((p + k).toNat % 4096 : Nat) : Int) = (p + k) % 4096 := by omega
    rw [e1, e2] at hq1
    exact congrArg Fin.val (hq1 ho1 (by omega))

/-- Claim C17 (amended). On a well-laid-out image that contains its data region,
take a regular file whose present direct slots name pairwise different, allocated
blocks of the data region, and which holds data: a read of its whole recorded
size `S` returns `S` bytes.  Let `MFS_Write` of the `n` bytes `B` at offset `O`
(`O ≥ 0`, `O + n ≤ DIRECT_PTRS * UFS_BLOCK_SIZE`) write them all.  Then an
`MFS_Read` of any range `[p, p + m)` after the write (`p + m` an `int`, the range
not reaching into a gap `[S, O)` that a write beyond the old size leaves) returns
the part of the range below the new size `max S (O + n)`: the byte of `B` at each
position inside `[O, O + n)` and, at every other position, the byte the read of
the whole file returned before the write. -/
theorem MFS_Write_overwrite_frame (sb : super_t) (d : Disk) (inum : Int) (B : List Nat)
    (O : Int) (ino : inode_t) (p m : Int) (hlay : layout_ok sb)
    (hcov : (sb.data_region_addr + sb.data_region_len) * 4096 ≤ (d.size : Int))
    (hino : get_inode sb d inum = some ino) (hreg : ino.type = UFS_REGULAR_FILE)
    (hblocks : file_blocks_ok sb d ino)
    (hO : 0 ≤ O) (hfit : O + B.length ≤ DIRECT_PTRS * UFS_BLOCK_SIZE)
    (hB : ∀ c ∈ B, c < 256)
    (hW : (MFS_Write sb d inum B O B.length).1 = B.length)
    (hS : 0 ≤ ino.size) (hR : (MFS_Read sb d inum 0 ino.size).1 = ino.size)
    (hp : 0 ≤ p) (hm : 0 ≤ m) (hpm : p + m ≤ 2147483647)
    (hgap : O ≤ ino.size ∨ p + m ≤ ino.size ∨ O ≤ p) :
    MFS_Read sb (MFS_Write sb d inum B O B.length).2 inum p m
      = (min m (max (max ino.size (O + B.length) - p) 0),
        (List.range (min m (max (max ino.size (O + B.length) - p) 0)).toNat).map
          (fun i : Nat =>
            if O ≤ p + (i : Int) ∧ p + (i : Int) < O + B.length
            then B.getD (p + i - O).toNat 0
            else (MFS_Read sb d inum 0 ino.size).2.getD (p + i).toNat 0)) := by
  have hfit1 : O + B.length ≤ 122880 := by
    simpa [DIRECT_PTRS, UFS_BLOCK_SIZE] using hfit
  obtain ⟨hi0, hi1, _⟩ := get_inode_some hino
  have hlay0 := hlay
  unfold layout_ok at hlay0
  obtain ⟨d1, ino1, d2, hinv, hkept, hput, hWeq⟩ :=
    MFS_Write_complete sb d inum B O ino hlay hcov hino hreg hblocks hO hfit1 hB hW
  rw [hWeq]
  simp only
  obtain ⟨_, _, hty, hsize, hok, hfb, hdsz, hkeep, hst⟩ := hinv
  generalize hino2 : (if O + B.length > ino1.size
    then { ino1 with size := O + B.length } else ino1) = ino2 at hput
  have hdir : ino2.direct = ino1.direct := by
    rw [← hino2]
    split <;> rfl
  have hsz2 : ino2.size = max ino.size (O + B.length) := by
    rw [← hino2]
    split
    · simp only
      omega
    · omega
  have hok2 : inode_ok ino2 := by
    rw [← hino2]
    split
    · refine ⟨hok.1, ?_, hok.2.2.1, hok.2.2.2⟩
      unfold int32
      simp only
      omega
    · exact hok
  have hget := get_inode_put_inode hput hok2
  rw [MFS_Read_clamp sb d2 inum p m ino2 hget hp hm hpm, hsz2]
  have hblk0 : ∀ i, i < DIRECT_PTRS → ino.direct.getD i 0 ≠ -1 →
      0 ≤ ino.direct.getD i 0 ∧ ino.direct.getD i 0 ≤ 524287 := by
    intro i hi hp
    obtain ⟨hb0, hb1, _, _⟩ := hblocks i hi hp
    omega
  obtain ⟨hS2, hold⟩ := MFS_Read_full sb d inum 0 ino.size ino hino (le_refl _) hS
    (by omega) hblk0 hR
  have hS3 : ino.size ≤ 122880 := by
    by_cases h0 : 0 < ino.size
    · have := hS2 h0
      omega
    · omega
  obtain ⟨hc0, hcS, hS1⟩ := clamped_range_scalars ino.size (O + B.length) p m hm hS3 hfit1
  have hpos := fun k : Nat => clamped_range_positions ino.size O (O + B.length) p m k hgap
  generalize max ino.size (O + B.length) = S1 at hsz2 hcS hS1 hpos hc0 ⊢
  generalize min m (max (S1 - p) 0) = c at hcS hpos hc0 ⊢
  clear hgap hS2 hR hW hpm
  by_cases hcz : c = 0
  · subst hcz
    rw [MFS_Read_zero sb d2 inum p ino2 hget hp]
    rfl
  · obtain ⟨ha1, ha2, ha3⟩ := inode_addr_eq sb inum hlay hi0 hi1
    obtain ⟨hsz, hframe⟩ := put_inode_frame hlay (by omega) hput
    generalize hN : (List.range c.toNat).map (fun i : Nat =>
          if O ≤ p + (i : Int) ∧ p + (i : Int) < O + B.length then B.getD (p + i - O).toNat 0
          else (MFS_Read sb d inum 0 ino.size).2.getD (p + i).toNat 0) = N
    have hNlen : N.length = c.toNat := by
      rw [← hN]
      simp only [List.length_map, List.length_range]
    have hcN : c = (N.length : Int) := by omega
    have hNget : ∀ k : Nat, k < c.toNat → N.getD k 0
        = if O ≤ p + k ∧ p + k < O + B.length then B.getD (p + k - O).toNat 0
          else (MFS_Read sb d inum 0 ino.size).2.getD (p + k).toNat 0 := by
      intro k hk
      rw [List.getD_eq_getElem _ _ (by omega)]
      subst hN
      simp only [List.getElem_map, List.getElem_range]
    have hblk2 : ∀ i, i < DIRECT_PTRS → ino2.direct.getD i 0 ≠ -1 →
        0 ≤ ino2.direct.getD i 0 ∧ ino2.direct.getD i 0 ≤ 524287 ∧
          ino2.direct.getD i 0 * 4096 + 4096 ≤ (d2.size : Int) := by
      intro i hi hp
      rw [hdir] at hp ⊢
      obtain ⟨hb0, hb1, _, _⟩ := hfb i hi hp
      rw [hsz, hdsz]
      omega
    have hst1 : stored d2 ino1 N p N.length :=
      stored_after_overwrite sb d d1 d2 ino ino1 B N _ O p ino.size
        ⟨by omega, by omega, by omega⟩
        hframe hfb hblocks hkeep hst hkept hold hp
        (fun k hk => by
          obtain ⟨h1, h2⟩ := hpos k (by omega)
          exact ⟨by omega, h2⟩)
        (fun k hk => hNget k (by omega))
    have hst2 : stored d2 ino2 N p N.length := by
      intro k hk
      rw [hdir]
      exact hst1 k hk
    have hres := MFS_Read_of_stored sb d2 inum p ino2 N hget hp (by omega) (by omega) hblk2 hst2
    rw [← hcN] at hres
    exact hres

end NFS

namespace NFS

set_option maxRecDepth 100000 in
/-- Witness of C17: the file of `hello_file_image` holds `hello`; after `XY` is
written at offset 4, over the last byte and one byte past the old size, a read
of eight bytes from offset 0 returns the six bytes `hellXY`. -/
theorem MFS_Write_overwrite_frame_witness :
    MFS_Read demo_sb hello_file_image 1 0 5 = (5, [104, 101, 108, 108, 111]) ∧
      (MFS_Write demo_sb hello_file_image 1 [88, 89] 4 2).1 = 2 ∧
      MFS_Read demo_sb (MFS_Write demo_sb hello_file_image 1 [88, 89] 4 2).2 1 0 8
        = (6, [104, 101, 108, 108, 88, 89]) :=
  ⟨by decide, by decide,
    (MFS_Write_overwrite_frame demo_sb hello_file_image 1 [88, 89] 4
      { type := UFS_REGULAR_FILE, size := 5, direct := 5 :: List.replicate 29 (-1) } 0 8
      (by decide) (by decide) (by decide) (by decide) (by decide) (by decide) (by decide)
      (by decide) (by decide) (by decide) (by decide) (by decide) (by decide) (by decide)
      (by decide)).trans (by decide)⟩

end NFS

namespace NFS

/-! ## Counting live entries -/

theorem filter_range_update (p q : Nat → Bool) (t : Nat) (hp : p t = false) (hq : q t = true) :
    ∀ n, (∀ k, k < n → k ≠ t → q k = p k) →
      ((List.range n).filter q).length
        = ((List.range n).filter p).length + (if t < n then 1 else 0) := by
  intro n
  induction n with
  | zero => intro _; rfl
  | succ n ih =>
    intro h
    have ih1 := ih (fun k hk hkt => h k (by omega) hkt)
    rw [List.range_succ, List.filter_append, List.filter_append, List.length_append,
      List.length_append, ih1]
    by_cases hnt : n = t
    · subst hnt
      simp [hp, hq]
    · have hqn : q n = p n := h n (by omega) hnt
      have hf : List.filter q [n] = List.filter p [n] := by
        simp only [List.filter_cons, hqn, List.filter_nil]
      rw [hf]
      by_cases htn : t < n
      · have htn1 : t < n + 1 := by omega
        rw [if_pos htn, if_pos htn1]
        omega
      · have htn1 : ¬ t < n + 1 := by omega
        rw [if_neg htn, if_neg htn1]
        omega

theorem sum_range_update (F G : Nat → Nat) (t : Nat) (hG : G t = F t + 1) :
    ∀ n, (∀ k, k < n → k ≠ t → G k = F k) →
      ((List.range n).map G).sum = ((List.range n).map F).sum + (if t < n then 1 else 0) := by
  intro n
  induction n with
  | zero => intro _; rfl
  | succ n ih =>
    intro h
    have ih1 := ih (fun k hk hkt => h k (by omega) hkt)
    rw [List.range_succ, List.map_append, List.map_append, List.sum_append, List.sum_append, ih1]
    by_cases hnt : n = t
    · subst hnt
      simp [hG]
      omega
    · have hqn : G n = F n := h n (by omega) hnt
      by_cases htn : t < n
      · have htn1 : t < n + 1 := by omega
        simp [hqn, htn, htn1]
        omega
      · have htn1 : ¬ t < n + 1 := by omega
        simp [hqn, htn, htn1]

/-- When one entry slot of one block of a directory goes from free to live and no
other entry of its blocks changes, the directory has one live entry more. -/
theorem live_entries_step (d d1 : Disk) (ino ino1 : inode_t) (i j : Nat) (e e1 : Nat → Nat)
    (hdir : ino1.direct = ino.direct) (hi : i < DIRECT_PTRS)
    (hpres : ino.direct.getD i 0 ≠ -1)
    (hother : ∀ k, k < DIRECT_PTRS → k ≠ i → ino.direct.getD k 0 ≠ -1 →
      read_block d1 (ino.direct.getD k 0) = read_block d (ino.direct.getD k 0))
    (he : read_block d (ino.direct.getD i 0) = some e)
    (he1 : read_block d1 (ino.direct.getD i 0) = some e1)
    (hj : j < ENTRIES_PER_BLOCK)
    (hrest : ∀ k, k < ENTRIES_PER_BLOCK → k ≠ j → ent_inum e1 k = ent_inum e k)
    (hfree : ent_inum e j = -1) (hlive : ent_inum e1 j ≠ -1) :
    live_entries d1 ino1 = live_entries d ino + 1 := by
  unfold live_entries
  rw [hdir]
  have hblock : block_live d1 (ino.direct.getD i 0) = block_live d (ino.direct.getD i 0) + 1 := by
    unfold block_live
    simp only [he, he1]
    rw [filter_range_update (fun k => ent_inum e k != -1) (fun k => ent_inum e1 k != -1) j
      (by simp [hfree]) (by simp [hlive]) ENTRIES_PER_BLOCK
      (fun k hk hkj => by
        beta_reduce
        rw [hrest k hk hkj])]
    rw [if_pos hj]
  rw [sum_range_update
    (fun k => if ino.direct.getD k 0 = -1 then 0 else block_live d (ino.direct.getD k 0))
    (fun k => if ino.direct.getD k 0 = -1 then 0 else block_live d1 (ino.direct.getD k 0)) i
    (by
      beta_reduce
      rw [if_neg hpres, if_neg hpres, hblock]) DIRECT_PTRS
    (fun k hk hki => by
      beta_reduce
      by_cases hp : ino.direct.getD k 0 = -1
      · rw [if_pos hp, if_pos hp]
      · rw [if_neg hp, if_neg hp]
        unfold block_live
        rw [hother k hk hki hp])]
  rw [if_pos hi]

end NFS

namespace NFS

/-- The entry `MFS_Creat` writes carries the new inode number. -/
theorem ent_inum_written (entries e : Nat → Nat) (name : List Nat) (j : Nat) (n : Int)
    (hj : j < 128) (hn0 : 0 ≤ n) (hn1 : n < 2147483648)
    (he : ∀ k, k < 4096 → e k
      = wr32 (strcpy entries (SIZEOF_DIRENT * j) name) (SIZEOF_DIRENT * j + 28) n k % 256) :
    ent_inum e j = n := by
  simp only [SIZEOF_DIRENT] at he
  unfold ent_inum
  simp only [SIZEOF_DIRENT]
  rw [rd32_of_bytes e (32 * j + 28) n, wrap32_of_range (by omega) hn1]
  intro k hk
  rw [he _ (by omega)]
  unfold wr32
  rw [if_pos (by omega)]
  have e1 : 32 * j + 28 + k - (32 * j + 28) = k := by omega
  rw [e1]
  exact Nat.mod_eq_of_lt (le32_byte_lt _ _)

/-- Writing entry `j` of a directory block leaves the `inum` of every other
entry as it was. -/
theorem ent_inum_written_other (entries e : Nat → Nat) (name : List Nat) (j j1 : Nat) (n : Int)
    (hj1 : j1 < 128) (hne : j1 ≠ j) (hlen : name.length ≤ 27)
    (hlt : ∀ k, entries k < 256)
    (he : ∀ k, k < 4096 → e k
      = wr32 (strcpy entries (SIZEOF_DIRENT * j) name) (SIZEOF_DIRENT * j + 28) n k % 256) :
    ent_inum e j1 = ent_inum entries j1 := by
  simp only [SIZEOF_DIRENT] at he
  unfold ent_inum
  simp only [SIZEOF_DIRENT]
  apply rd32_congr
  intro k hk
  rw [he _ (by omega)]
  unfold wr32 strcpy
  rw [if_neg (by omega), if_neg (by omega), if_neg (by omega)]
  exact Nat.mod_eq_of_lt (hlt _)

/-- Clearing entry `j` of a directory block leaves the `inum` of every other
entry as it was. -/
theorem ent_inum_cleared_other (entries e : Nat → Nat) (j j1 : Nat)
    (hj1 : j1 < 128) (hne : j1 ≠ j) (hlt : ∀ k, entries k < 256)
    (he : ∀ k, k < 4096 → e k
      = memset0 (wr32 entries (SIZEOF_DIRENT * j + 28) (-1)) (SIZEOF_DIRENT * j) 28 k % 256) :
    ent_inum e j1 = ent_inum entries j1 := by
  simp only [SIZEOF_DIRENT] at he
  unfold ent_inum
  simp only [SIZEOF_DIRENT]
  apply rd32_congr
  intro k hk
  rw [he _ (by omega)]
  unfold memset0 wr32
  rw [if_neg (by omega), if_neg (by omega)]
  exact Nat.mod_eq_of_lt (hlt _)

/-- When the insertion loop of `MFS_Creat` returns 0, it found a present direct
slot whose block has a free entry, wrote the new entry at the first free slot of
that block and stored the parent inode with its size raised by one entry. -/
theorem creat_insert_steps {sb : super_t} {d d1 : Disk} {pinum : Int} {pino : inode_t}
    {name : List Nat} {new_inum : Int} {l : List Int}
    (h : creat_insert sb d pinum pino name new_inum l = (0, d1)) :
    ∃ b, b ∈ l ∧ b ≠ -1 ∧ ∃ e j d0, read_block d b = some e ∧ j < ENTRIES_PER_BLOCK ∧
      ent_inum e j = -1 ∧
      write_block d b (wr32 (strcpy e (SIZEOF_DIRENT * j) name) (SIZEOF_DIRENT * j + 28) new_inum)
        = some d0 ∧
      put_inode sb d0 pinum { pino with size := wrap32 (pino.size + 32) } = (0, d1) := by
  induction l with
  | nil => simp [creat_insert] at h
  | cons b rest ih =>
    rw [creat_insert] at h
    by_cases hb : b = -1
    · simp only [hb, if_true] at h
      obtain ⟨b1, hb1, hrest⟩ := ih h
      exact ⟨b1, List.mem_cons_of_mem _ hb1, hrest⟩
    · simp only [hb, if_false] at h
      cases hrd : read_block d b with
      | none => simp [hrd] at h
      | some entries =>
        simp only [hrd] at h
        cases hfi : first_index (fun j => ent_inum entries j == -1) ENTRIES_PER_BLOCK 0 with
        | none =>
          simp only [hfi] at h
          obtain ⟨b1, hb1, hrest⟩ := ih h
          exact ⟨b1, List.mem_cons_of_mem _ hb1, hrest⟩
        | some j =>
          simp only [hfi] at h
          obtain ⟨_, hj1, hj2, _⟩ := first_index_some hfi
          cases hw : write_block d b (wr32 (strcpy entries (SIZEOF_DIRENT * j) name)
              (SIZEOF_DIRENT * j + 28) new_inum) with
          | none => simp [hw] at h
          | some d0 =>
            simp only [hw] at h
            refine ⟨b, List.mem_cons_self _ _, hb, entries, j, d0, hrd, by omega, ?_, hw, ?_⟩
            · simpa using hj2
            · have h1 := congrArg Prod.fst h
              have h2 := congrArg Prod.snd h
              simp only at h1 h2
              rcases put_inode_fst sb d0 pinum { pino with size := wrap32 (pino.size + 32) }
                with h3 | h3
              · exact Prod.ext h3 h2
              · rw [h3] at h1
                simp at h1

end NFS

namespace NFS

/-- One block of a directory is rewritten and the directory inode stored: what
the image then holds.  `da` is the image the rewrite starts from, in which the
blocks of the directory read as in `d`. -/
theorem dir_block_rewrite (sb : super_t) (d da d0 d1 : Disk) (pinum : Int) (pino pino1 : inode_t)
    (b : Int) (e buf : Nat → Nat) (hlay : layout_ok sb)
    (hcov : (sb.data_region_addr + sb.data_region_len) * 4096 ≤ (d.size : Int))
    (hpino : get_inode sb d pinum = some pino) (hblocks : file_blocks_ok sb d pino)
    (hsz : da.size = d.size)
    (hsame : ∀ k, k < DIRECT_PTRS → pino.direct.getD k 0 ≠ -1 →
      read_block da (pino.direct.getD k 0) = read_block d (pino.direct.getD k 0))
    (hb : b ∈ pino.direct) (hb1 : b ≠ -1) (hrd : read_block da b = some e)
    (hwr : write_block da b buf = some d0) (hok1 : inode_ok pino1)
    (hput : put_inode sb d0 pinum pino1 = (0, d1)) :
    get_inode sb d1 pinum = some pino1 ∧ read_block d b = some e ∧
      ∃ i, i < DIRECT_PTRS ∧ pino.direct.getD i 0 = b ∧
        (∀ k, k < DIRECT_PTRS → k ≠ i → pino.direct.getD k 0 ≠ -1 →
          read_block d1 (pino.direct.getD k 0) = read_block d (pino.direct.getD k 0)) ∧
        ∃ e1, read_block d1 b = some e1 ∧ ∀ k, k < 4096 → e1 k = buf k % 256 := by
  obtain ⟨hi0, hi1, _⟩ := get_inode_some hpino
  have hlay0 := hlay
  unfold layout_ok at hlay0
  have hlen : pino.direct.length = DIRECT_PTRS := (get_inode_ok hpino).2.2.1
  obtain ⟨i, hi, hib⟩ := List.getElem_of_mem hb
  have hi30 : i < DIRECT_PTRS := by
    rw [← hlen]
    exact hi
  have hgetD : pino.direct.getD i 0 = b := by
    rw [List.getD_eq_getElem _ _ hi]
    exact hib
  have hpres : pino.direct.getD i 0 ≠ -1 := by
    rw [hgetD]
    exact hb1
  obtain ⟨hr0, hr1, _, hdist⟩ := hblocks i hi30 hpres
  rw [hgetD] at hr0 hr1 hdist
  have hb0 : 0 ≤ b := by omega
  have hb2 : b ≤ 524287 := by omega
  have hfitb : (b * 4096).toNat + 4096 ≤ da.size := by omega
  obtain ⟨hsz0, hfr0⟩ := write_block_frame hb0 hb2 hfitb hwr
  obtain ⟨e0, he0, hval0⟩ := read_block_write_block hwr
  obtain ⟨ha1, ha2, ha3⟩ := inode_addr_eq sb pinum hlay hi0 hi1
  obtain ⟨hsz1, hfr1⟩ := put_inode_frame hlay (by omega) hput
  have hdata : ∀ c : Int, sb.data_region_addr ≤ c → c < sb.data_region_addr + sb.data_region_len →
      read_block d1 c = read_block d0 c := by
    intro c hc0 hc1
    apply read_block_congr c (by omega) (by omega) hsz1
    intro a h1 h2
    apply hfr1
    right
    omega
  refine ⟨get_inode_put_inode hput hok1, ?_, i, hi30, hgetD, ?_, e0, ?_, hval0⟩
  · rw [← hgetD, ← hsame i hi30 hpres, hgetD]
    exact hrd
  · intro k hk hki hkp
    obtain ⟨hk0, hk1, _, _⟩ := hblocks k hk hkp
    have hne := hdist k hk hki
    rw [hdata _ hk0 (by omega), ← hsame k hk hkp]
    apply read_block_congr _ (by omega) (by omega) hsz0
    intro a h1 h2
    apply hfr0
    generalize pino.direct.getD k 0 = c at *
    omega
  · rw [hdata b hr0 (by omega)]
    exact he0

end NFS

namespace NFS

theorem sum_range_le (F : Nat → Nat) (c : Nat) :
    ∀ n, (∀ k, k < n → F k ≤ c) → ((List.range n).map F).sum ≤ n * c := by
  intro n
  induction n with
  | zero => intro _; simp
  | succ n ih =>
    intro h
    have ih1 := ih (fun k hk => h k (by omega))
    have hn := h n (by omega)
    rw [List.range_succ, List.map_append, List.sum_append]
    simp only [List.map_cons, List.map_nil, List.sum_cons, List.sum_nil, Nat.add_zero]
    rw [Nat.succ_mul]
    omega

/-- A directory has at most `DIRECT_PTRS * 128` live entries. -/
theorem live_entries_le (d : Disk) (ino : inode_t) : live_entries d ino ≤ 3840 := by
  unfold live_entries
  have h := sum_range_le
    (fun i => if ino.direct.getD i 0 = -1 then 0 else block_live d (ino.direct.getD i 0)) 128
    DIRECT_PTRS (fun k _ => by
      beta_reduce
      split
      · omega
      · unfold block_live
        split
        · have := List.length_filter_le
            (fun j => ent_inum (by assumption) j != -1) (List.range ENTRIES_PER_BLOCK)
          simp only [List.length_range, ENTRIES_PER_BLOCK] at this
          exact this
        · omega)
  simpa [DIRECT_PTRS] using h

theorem creat_bootstrap_ok_block {sb : super_t} {d : Disk} {junk : Nat → Nat}
    {pinum type new_inum : Int} {new_inode : inode_t} {x : Disk × inode_t}
    (h : creat_bootstrap sb d junk pinum type new_inum new_inode = .ok x)
    (ht : type = UFS_DIRECTORY) : (allocate_data_block sb d).1 ≠ -1 := by
  intro hne
  unfold creat_bootstrap at h
  simp only [ht, if_true, hne] at h
  simp at h

/-- The `MFS_Creat` half of the size accounting: a call that returns 0 for a name
`MFS_Lookup` did not find leaves the parent with one live entry more and its size
raised by one entry. -/
theorem MFS_Creat_size_accounting (sb : super_t) (d d1 : Disk) (junk : Nat → Nat)
    (pinum type : Int) (name : List Nat) (pino : inode_t) (hlay : layout_ok sb)
    (hcov : (sb.data_region_addr + sb.data_region_len) * 4096 ≤ (d.size : Int))
    (hpino : get_inode sb d pinum = some pino) (hblocks : file_blocks_ok sb d pino)
    (hsize : pino.size = 32 * (live_entries d pino : Int))
    (hnew : MFS_Lookup sb d pinum name < 0)
    (h : MFS_Creat sb d junk pinum type name = (0, d1)) :
    ∃ pino1, get_inode sb d1 pinum = some pino1 ∧ pino1.size = pino.size + 32 ∧
      pino1.size = 32 * (live_entries d1 pino1 : Int) := by
  obtain ⟨_, _, hlen, pino0, hp0, _, hinode, db, ino1, da, hboot, hput, hins⟩ :=
    MFS_Creat_zero h hnew
  rw [hpino] at hp0
  have hpp : pino = pino0 := Option.some.inj hp0
  subst hpp
  obtain ⟨db1, ino11, da1, hboot1, hput1, hsz, hsame⟩ := creat_prepare sb d junk pinum type
    { type := type, size := if type = UFS_DIRECTORY then 64 else 0,
      direct := List.replicate DIRECT_PTRS (-1) } hlay hcov hinode
    (fun ht => creat_bootstrap_ok_block hboot ht)
  rw [hboot] at hboot1
  have hb1 := Except.ok.inj hboot1
  have hdb : db = db1 := congrArg Prod.fst hb1
  have hino : ino1 = ino11 := congrArg Prod.snd hb1
  subst hdb hino
  rw [hput] at hput1
  have hda : da = da1 := congrArg Prod.snd hput1
  subst hda
  obtain ⟨b, hbm, hbne, e, j, d0, hrd, hj, hfree, hwr, hpp⟩ := creat_insert_steps hins
  have hlay0 := hlay
  unfold layout_ok at hlay0
  have hbound := live_entries_le d pino
  have hok := get_inode_ok hpino
  have hw : wrap32 (pino.size + 32) = pino.size + 32 := wrap32_of_range (by omega) (by omega)
  rw [hw] at hpp
  have hok1 : inode_ok { pino with size := pino.size + 32 } := by
    refine ⟨hok.1, ?_, hok.2.2.1, hok.2.2.2⟩
    unfold int32
    simp only
    omega
  obtain ⟨hget, hrd0, i, hi, hib, hother, e1, he1, hval⟩ :=
    dir_block_rewrite sb d da d0 d1 pinum pino _ b e _ hlay hcov hpino hblocks hsz
      (fun k hk hkp => by
        obtain ⟨c0, c1, c2, _⟩ := hblocks k hk hkp
        exact hsame _ c0 (by omega) c2) hbm hbne hrd hwr hok1 hpp
  obtain ⟨n0, n1, _⟩ := allocate_inode_spec sb d hlay hinode
  have hlive : ent_inum e1 j = (allocate_inode sb d).1 :=
    ent_inum_written e e1 name j _ (by simpa [ENTRIES_PER_BLOCK] using hj) n0 (by omega) hval
  have hstep := live_entries_step d d1 pino { pino with size := pino.size + 32 } i j e e1 rfl hi
    (by rw [hib]; exact hbne)
    (fun k hk hki hkp => hother k hk hki hkp)
    (by rw [hib]; exact hrd0) (by rw [hib]; exact he1) hj
    (fun k hk hkj => ent_inum_written_other e e1 name j k _
      (by simpa [ENTRIES_PER_BLOCK] using hk) hkj hlen (fun x => read_block_lt hrd x) hval)
    hfree (by rw [hlive]; omega)
  refine ⟨_, hget, rfl, ?_⟩
  rw [hstep]
  simp only
  push_cast
  omega

end NFS

namespace NFS

/-- The `MFS_Unlink` half of the size accounting: a call that returns 0 for a
name `MFS_Lookup` found leaves the parent with one live entry less and its size
lowered by one entry. -/
theorem MFS_Unlink_size_accounting (sb : super_t) (depth : Nat) (d d1 : Disk) (pinum : Int)
    (name : List Nat) (pino : inode_t) (hlay : layout_ok sb)
    (hcov : (sb.data_region_addr + sb.data_region_len) * 4096 ≤ (d.size : Int))
    (hpino : get_inode sb d pinum = some pino) (hblocks : file_blocks_ok sb d pino)
    (hsize : pino.size = 32 * (live_entries d pino : Int))
    (hfound : MFS_Lookup sb d pinum name ≠ -1)
    (h : MFS_Unlink sb depth d pinum name = some (0, d1)) :
    ∃ pino1, get_inode sb d1 pinum = some pino1 ∧ pino1.size = pino.size - 32 ∧
      pino1.size = 32 * (live_entries d1 pino1 : Int) := by
  obtain ⟨hlen, pino0, hp0, hdirt, hcases⟩ := MFS_Unlink_zero hlay h
  rw [hpino] at hp0
  have hpp : pino = pino0 := Option.some.inj hp0
  subst hpp
  have hlook := MFS_Lookup_of_get_inode name hpino hdirt
  rw [lookup_blocks_eq_unlink_find d name pino.direct 0] at hlook
  rcases hcases with ⟨hnone, _⟩ | ⟨t, i, j, d2, entries, d3, hfind, hsf, hrd, hwr, hput⟩
  · rw [hnone] at hlook
    exact absurd hlook hfound
  · obtain ⟨_, hil, hpres, _, entries0, hrd0, hj, hmatch, _, _⟩ := unlink_find_found hfind
    simp only [Nat.sub_zero] at hil hpres hrd0
    have hlay0 := hlay
    unfold layout_ok at hlay0
    have hok := get_inode_ok hpino
    have hgd : pino.direct.getD i (-1) = pino.direct.getD i 0 := by
      rw [List.getD_eq_getElem _ _ hil, List.getD_eq_getElem _ _ hil]
    rw [hgd] at hrd0
    have hbne : pino.direct.getD i 0 ≠ -1 := by
      rw [← hgd]
      exact hpres i (le_refl _)
    have hbm : pino.direct.getD i 0 ∈ pino.direct := by
      rw [List.getD_eq_getElem _ _ hil]
      exact List.getElem_mem hil
    have hsame : ∀ k, k < DIRECT_PTRS → pino.direct.getD k 0 ≠ -1 →
        read_block d2 (pino.direct.getD k 0) = read_block d (pino.direct.getD k 0) := by
      intro k hk hkp
      obtain ⟨c0, c1, _, _⟩ := hblocks k hk hkp
      apply read_block_congr _ (by omega) (by omega) hsf.1
      intro a h1 h2
      apply hsf.2
      omega
    have hlive0 : ent_inum entries0 j ≠ -1 := by
      unfold entry_matches at hmatch
      simp only [Bool.and_eq_true, bne_iff_ne, ne_eq] at hmatch
      exact hmatch.1
    have hok1 : inode_ok { pino with size := wrap32 (pino.size - 32) } :=
      ⟨hok.1, wrap32_range _, hok.2.2.1, hok.2.2.2⟩
    obtain ⟨hget, hrdd, i1, hi1, hib, hother, e1, he1, hval⟩ :=
      dir_block_rewrite sb d d2 d3 d1 pinum pino _ (pino.direct.getD i 0) entries _ hlay hcov
        hpino hblocks hsf.1 hsame hbm hbne hrd hwr hok1 hput
    rw [hrd0] at hrdd
    have hee : entries0 = entries := Option.some.inj hrdd
    subst hee
    have hstep := live_entries_step d1 d { pino with size := wrap32 (pino.size - 32) } pino i1 j e1
      entries0
      rfl hi1 (by rw [hib]; exact hbne)
      (fun k hk hki hkp => (hother k hk hki hkp).symm)
      (by rw [hib]; exact he1) (by rw [hib]; exact hrd0) hj
      (fun k hk hkj => (ent_inum_cleared_other entries0 e1 j k
        (by simpa [ENTRIES_PER_BLOCK] using hk) hkj (fun x => read_block_lt hrd x) hval).symm)
      (ent_inum_cleared e1 entries0 j hval (by simpa [ENTRIES_PER_BLOCK] using hj)) hlive0
    have hbound := live_entries_le d pino
    have hw : wrap32 (pino.size - 32) = pino.size - 32 := by
      apply wrap32_of_range <;> omega
    refine ⟨_, hget, hw, ?_⟩
    simp only
    omega

end NFS

namespace NFS

/-- Claim C12 (amended). On a well-laid-out image that contains its data region, let `pinum`
be a directory whose present direct slots name pairwise different, allocated
blocks of the data region and whose recorded size is `sizeof(dir_ent_t)` times
the number of its live entries.  After an `MFS_Creat` that returns 0 for a name
not found before (so an entry is added), and after an `MFS_Unlink` that returns 0
for a name found before (so an entry is removed), the recorded size is the old
one plus, respectively minus, one record and is again `sizeof(dir_ent_t)` times
the number of live entries. -/
theorem directory_size_accounting (sb : super_t) (d : Disk) (pinum : Int) (name : List Nat)
    (pino : inode_t) (hlay : layout_ok sb)
    (hcov : (sb.data_region_addr + sb.data_region_len) * 4096 ≤ (d.size : Int))
    (hpino : get_inode sb d pinum = some pino) (hblocks : file_blocks_ok sb d pino)
    (hsize : pino.size = SIZEOF_DIRENT * (live_entries d pino : Int)) :
    (∀ (junk : Nat → Nat) (type : Int) (d1 : Disk), MFS_Lookup sb d pinum name < 0 →
      MFS_Creat sb d junk pinum type name = (0, d1) →
      ∃ pino1, get_inode sb d1 pinum = some pino1 ∧ pino1.size = pino.size + SIZEOF_DIRENT ∧
        pino1.size = SIZEOF_DIRENT * (live_entries d1 pino1 : Int)) ∧
    (∀ (depth : Nat) (d1 : Disk), MFS_Lookup sb d pinum name ≠ -1 →
      MFS_Unlink sb depth d pinum name = some (0, d1) →
      ∃ pino1, get_inode sb d1 pinum = some pino1 ∧ pino1.size = pino.size - SIZEOF_DIRENT ∧
        pino1.size = SIZEOF_DIRENT * (live_entries d1 pino1 : Int)) := by
  have hsize1 : pino.size = 32 * (live_entries d pino : Int) := by
    simpa [SIZEOF_DIRENT] using hsize
  constructor
  · intro junk type d1 hnew h
    obtain ⟨pino1, h1, h2, h3⟩ := MFS_Creat_size_accounting sb d d1 junk pinum type name pino hlay
      hcov hpino hblocks hsize1 hnew h
    exact ⟨pino1, h1, by simpa [SIZEOF_DIRENT] using h2, by simpa [SIZEOF_DIRENT] using h3⟩
  · intro depth d1 hfound h
    obtain ⟨pino1, h1, h2, h3⟩ := MFS_Unlink_size_accounting sb depth d d1 pinum name pino hlay
      hcov hpino hblocks hsize1 hfound h
    exact ⟨pino1, h1, by simpa [SIZEOF_DIRENT] using h2, by simpa [SIZEOF_DIRENT] using h3⟩

set_option maxRecDepth 100000 in
/-- Witness of C12: the root directory of `fresh_image` (two live entries, size
64) after `MFS_Creat(0, UFS_REGULAR_FILE, "f")`, and the root directory of
`one_file_image` (three live entries, size 96) after `MFS_Unlink(0, "f")`. -/
theorem directory_size_accounting_witness :
    (∃ pino1, get_inode demo_sb (MFS_Creat demo_sb fresh_image free_junk 0 UFS_REGULAR_FILE
          [102]).2 0 = some pino1 ∧ pino1.size = 64 + SIZEOF_DIRENT ∧
        pino1.size = SIZEOF_DIRENT * (live_entries (MFS_Creat demo_sb fresh_image free_junk 0
          UFS_REGULAR_FILE [102]).2 pino1 : Int)) ∧
    (∃ pino1, get_inode demo_sb
          (((MFS_Unlink demo_sb 0 one_file_image 0 [102]).map Prod.snd).getD one_file_image) 0
          = some pino1 ∧ pino1.size = 96 - SIZEOF_DIRENT ∧
        pino1.size = SIZEOF_DIRENT * (live_entries
          (((MFS_Unlink demo_sb 0 one_file_image 0 [102]).map Prod.snd).getD one_file_image)
          pino1 : Int)) :=
  ⟨(directory_size_accounting demo_sb fresh_image 0 [102]
      { type := UFS_DIRECTORY, size := 64, direct := 4 :: List.replicate 29 (-1) }
      (by decide) (by decide) (by decide) (by decide) (by decide)).1 free_junk UFS_REGULAR_FILE
      (MFS_Creat demo_sb fresh_image free_junk 0 UFS_REGULAR_FILE [102]).2 (by decide)
      (Prod.ext (by decide) rfl),
    (directory_size_accounting demo_sb one_file_image 0 [102]
      { type := UFS_DIRECTORY, size := 96, direct := 4 :: List.replicate 29 (-1) }
      (by decide) (by decide) (by decide) (by decide) (by decide)).2 0
      (((MFS_Unlink demo_sb 0 one_file_image 0 [102]).map Prod.snd).getD one_file_image)
      (by decide) (by
        cases h : MFS_Unlink demo_sb 0 one_file_image 0 [102] with
        | none => exact absurd (congrArg Option.isSome h) (by decide)
        | some r =>
          have h1 : (MFS_Unlink demo_sb 0 one_file_image 0 [102]).map Prod.fst = some 0 := by
            decide
          rw [h] at h1
          simp only [Option.map_some', Option.some.injEq] at h1
          simp only [Option.map_some', Option.getD_some]
          exact congrArg some (Prod.ext h1 rfl))⟩

end NFS

namespace NFS

/-! ## Inode-number range check -/

/-- The operations that resolve their inode number through `get_inode`, or test it
themselves as `MFS_Stat` does: for an inode number that is negative or not below
`num_inodes`, each returns a negative value and leaves the image (for `MFS_Stat`
the record `m`) as it was. -/
theorem range_checked_operations (sb : super_t) (d : Disk) (inum : Int)
    (h : inum < 0 ∨ inum ≥ sb.num_inodes) :
    get_inode sb d inum = none ∧
      (∀ ino, put_inode sb d inum ino = (-1, d)) ∧
      (∀ m, MFS_Stat sb d inum m = (-1, m)) ∧
      (∀ offset nbytes, MFS_Read sb d inum offset nbytes = (-1, [])) ∧
      (∀ buffer offset nbytes, MFS_Write sb d inum buffer offset nbytes = (-1, d)) ∧
      (∀ junk type name, MFS_Creat sb d junk inum type name = (-1, d) ∨
        MFS_Creat sb d junk inum type name = (-2, d)) ∧
      (∀ depth name, MFS_Unlink sb depth d inum name = some (-2, d) ∨
        MFS_Unlink sb depth d inum name = some (-3, d)) := by
  have hg : get_inode sb d inum = none := by
    unfold get_inode
    rw [if_pos h]
  refine ⟨hg, ?_, ?_, ?_, ?_, ?_, ?_⟩
  · intro ino
    unfold put_inode
    rw [if_pos h]
  · intro m
    unfold MFS_Stat
    rw [if_pos h]
  · intro offset nbytes
    unfold MFS_Read
    split
    · rfl
    · simp only [hg]
  · intro buffer offset nbytes
    unfold MFS_Write
    split
    · rfl
    · simp only [hg]
  · intro junk type name
    unfold MFS_Creat
    split
    · exact Or.inl rfl
    · rw [hg]
      exact Or.inr rfl
  · intro depth name
    unfold MFS_Unlink
    split
    · exact Or.inl rfl
    · rw [hg]
      exact Or.inr rfl

set_option maxRecDepth 100000 in
/-- Claim C21 fails for `MFS_Lookup`, which reads the inode record without the
range test its siblings make.  On the formatted empty file system (32 inodes),
`MFS_Lookup(33, "")` and `MFS_Lookup(-1, "")` both return 0, the number of the
root inode, although 33 is not below the inode count and -1 is negative:
the 128 bytes found at the computed offset (free entry slots of the root
directory block, zero bytes of the data bitmap) read as a directory whose first
block is block 0.  `get_inode` and `MFS_Stat` reject the same numbers. -/
theorem MFS_Lookup_out_of_range_inum_succeeds :
    (33 : Int) ≥ demo_sb.num_inodes ∧
      MFS_Lookup demo_sb formatted_image 33 [] = 0 ∧
      MFS_Lookup demo_sb formatted_image (-1) [] = 0 ∧
      get_inode demo_sb formatted_image 33 = none ∧
      get_inode demo_sb formatted_image (-1) = none ∧
      (MFS_Stat demo_sb formatted_image 33 { type := 7, size := 7 }).1 = -1 ∧
      (MFS_Stat demo_sb formatted_image (-1) { type := 7, size := 7 }).1 = -1 := by
  decide

end NFS

namespace NFS

/-! ## Mount -/

/-- The record at the start of block 0 of the formatted image is `demo_sb`. -/
theorem stored_superblock_formatted : stored_superblock formatted_image = some demo_sb := by
  rfl

set_option maxRecDepth 100000 in
/-- Claim C22 fails in `filemgr2.c`: `MFS_Init` opens the image and never reads
block 0, so the cached layout descriptor keeps whatever it held before, whatever
the image.  Mounting the formatted image from program start succeeds (the open
yields descriptor 3, and the function ends without a `return` value), the record
stored in block 0 is `demo_sb`, and the cached descriptor is still all zero: it
differs from the stored record, its inode count being 0 instead of 32.  With that
descriptor `MFS_Lookup(0, ".")` returns -3, where the stored layout gives 0.
`MFS_Init` of `filemgr1.c` on the same image does load the record. -/
theorem MFS_Init_does_not_load_superblock :
    (∀ (s : Session) (image : Option Disk), (MFS_Init s image).2.superblock = s.superblock) ∧
      (MFS_Init initial_session (some formatted_image)).1 = none ∧
      (MFS_Init initial_session (some formatted_image)).2.fs_fd = 3 ∧
      stored_superblock formatted_image = some demo_sb ∧
      some (MFS_Init initial_session (some formatted_image)).2.superblock
        ≠ stored_superblock formatted_image ∧
      (MFS_Init initial_session (some formatted_image)).2.superblock.num_inodes = 0 ∧
      demo_sb.num_inodes = 32 ∧
      MFS_Lookup (MFS_Init initial_session (some formatted_image)).2.superblock
        formatted_image 0 [46] = -3 ∧
      MFS_Lookup demo_sb formatted_image 0 [46] = 0 ∧
      filemgr1.MFS_Init { disk_fd := -1, sb := initial_session.superblock }
        (some formatted_image) = (0, { disk_fd := 3, sb := demo_sb }) := by
  refine ⟨?_, rfl, rfl, stored_superblock_formatted, ?_, rfl, rfl, by decide, by decide, rfl⟩
  · intro s image
    unfold MFS_Init
    simp only
    split <;> rfl
  · rw [stored_superblock_formatted]
    intro h
    have h1 := congrArg (fun o : Option super_t => o.map super_t.num_inodes) h
    revert h1
    decide

end NFS

namespace NFS

/-! ## `remove_directory_contents` on an empty directory -/

/-- The entry loop of `remove_directory_contents` over slots that are free or
named `.` or `..` removes nothing. -/
theorem rdc_entries_only_dots (sb : super_t) (recurse : Disk → Int → Option (Int × Disk))
    (entries : Nat → Nat) :
    ∀ (n j : Nat) (d : Disk), (∀ k, j ≤ k → k < j + n → dot_or_free entries k) →
      rdc_entries sb recurse entries n j d = some (0, d) := by
  intro n
  induction n with
  | zero =>
    intro j d _
    rfl
  | succ n ih =>
    intro j d h
    rw [rdc_entries]
    have hj := h j (le_refl _) (by omega)
    have hc : ¬ (ent_inum entries j ≠ -1 ∧ strcmp_eq entries (SIZEOF_DIRENT * j) [46] = false
        ∧ strcmp_eq entries (SIZEOF_DIRENT * j) [46, 46] = false) := by
      rintro ⟨c1, c2, c3⟩
      rcases hj with e | e | e
      · exact c1 e
      · rw [e] at c2
        exact Bool.noConfusion c2
      · rw [e] at c3
        exact Bool.noConfusion c3
    rw [if_neg hc]
    exact ih (j + 1) d (fun k hk1 hk2 => h k (by omega) (by omega))

/-- The block loop of `remove_directory_contents` over blocks that hold nothing
but free slots and entries named `.` or `..` removes nothing. -/
theorem rdc_blocks_only_dots (sb : super_t) (recurse : Disk → Int → Option (Int × Disk))
    (d : Disk) :
    ∀ l : List Int, (∀ b ∈ l, b ≠ -1 → only_dots d b = true) →
      rdc_blocks sb recurse l d = some (0, d) := by
  intro l
  induction l with
  | nil =>
    intro _
    rfl
  | cons b rest ih =>
    intro h
    rw [rdc_blocks]
    by_cases hb : b = -1
    · rw [if_pos hb]
    · rw [if_neg hb]
      have hd := h b (List.mem_cons_self _ _) hb
      unfold only_dots at hd
      cases hrd : read_block d b with
      | none =>
        rw [hrd] at hd
        exact Bool.noConfusion hd
      | some entries =>
        rw [hrd] at hd
        simp only [decide_eq_true_eq] at hd
        simp only
        rw [rdc_entries_only_dots sb recurse entries ENTRIES_PER_BLOCK 0 d
          (fun k _ hk => hd k (by omega))]
        simp only [ne_eq, not_true_eq_false, if_false]
        exact ih (fun b1 hb1 => h b1 (List.mem_cons_of_mem _ hb1))

/-- Claim C23. On a directory inode that can be fetched and is truly empty (each
of its allocated blocks can be read and holds only free slots and entries named
`.` or `..`), `remove_directory_contents`, at any nesting allowance, returns 0
and leaves the whole image as it was; so any number of applications in a row
leave that same image. -/
theorem remove_directory_contents_truly_empty (sb : super_t) (depth : Nat) (d : Disk)
    (inum : Int) (ino : inode_t) (hino : get_inode sb d inum = some ino)
    (hempty : truly_empty d ino) :
    remove_directory_contents sb depth d inum = some (0, d) ∧
      ∀ n : Nat, Nat.iterate (rdc_again sb depth inum) n (some d) = some d := by
  have h1 : remove_directory_contents sb depth d inum = some (0, d) := by
    cases depth with
    | zero =>
      rw [remove_directory_contents]
      unfold rdc_body
      rw [hino]
      exact rdc_blocks_only_dots sb _ d ino.direct hempty
    | succ k =>
      rw [remove_directory_contents]
      unfold rdc_body
      rw [hino]
      exact rdc_blocks_only_dots sb _ d ino.direct hempty
  refine ⟨h1, ?_⟩
  intro n
  induction n with
  | zero => rfl
  | succ n ih =>
    rw [Function.iterate_succ_apply]
    have h2 : rdc_again sb depth inum (some d) = some d := by
      unfold rdc_again
      simp only [Option.some_bind, h1, Option.map_some']
    rw [h2]
    exact ih

set_option maxRecDepth 100000 in
/-- Witness of C23: the root directory of the empty image, which holds `.`, `..`
and 126 free slots. -/
theorem remove_directory_contents_truly_empty_witness :
    get_inode demo_sb fresh_image 0
        = some { type := 0, size := 64, direct := 4 :: List.replicate 29 (-1) } ∧
      truly_empty fresh_image { type := 0, size := 64, direct := 4 :: List.replicate 29 (-1) } ∧
      remove_directory_contents demo_sb 0 fresh_image 0 = some (0, fresh_image) ∧
      ∀ n : Nat, Nat.iterate (rdc_again demo_sb 0 0) n (some fresh_image) = some fresh_image :=
  ⟨by decide, by decide,
    remove_directory_contents_truly_empty demo_sb 0 fresh_image 0
      { type := 0, size := 64, direct := 4 :: List.replicate 29 (-1) } (by decide) (by decide)⟩

end NFS

namespace NFS

/-! ## Allocator soundness -/

/-- Claim C24. Whatever the image holds: when `find_free_bit`, on a bitmap that
lies inside the addressable blocks and has a bit for every index below
`num_bits`, returns an index `i >= 0`, then `i < num_bits` and bit `i` of the
bitmap is 0.  Hence, under a layout as the spec requires it, a result of
`allocate_inode` other than `-1` is an inode number in range whose inode-bitmap
bit was 0, and a result of `allocate_data_block` other than `-1` is a block of
`[data_region_addr, data_region_addr + num_data)` whose data-bitmap bit was 0. -/
theorem allocator_soundness (sb : super_t) (d : Disk) (hlay : layout_ok sb) :
    (∀ bitmap_start bitmap_len num_bits : Int, 0 ≤ bitmap_start → 0 ≤ bitmap_len →
        bitmap_start + bitmap_len ≤ 524287 → num_bits ≤ bitmap_len * 32768 →
        0 ≤ find_free_bit d bitmap_start bitmap_len num_bits →
        find_free_bit d bitmap_start bitmap_len num_bits < num_bits ∧
          bitmap_bit d bitmap_start (find_free_bit d bitmap_start bitmap_len num_bits).toNat
            = false) ∧
      ((allocate_inode sb d).1 ≠ -1 →
        0 ≤ (allocate_inode sb d).1 ∧ (allocate_inode sb d).1 < sb.num_inodes ∧
          bitmap_bit d sb.inode_bitmap_addr (allocate_inode sb d).1.toNat = false) ∧
      ((allocate_data_block sb d).1 ≠ -1 →
        sb.data_region_addr ≤ (allocate_data_block sb d).1 ∧
          (allocate_data_block sb d).1 < sb.data_region_addr + sb.num_data ∧
          bitmap_bit d sb.data_bitmap_addr
            ((allocate_data_block sb d).1 - sb.data_region_addr).toNat = false) := by
  refine ⟨?_, ?_, ?_⟩
  · intro s l n hs hl hsl hn h0
    have hne : find_free_bit d s l n ≠ -1 := by
      intro e
      rw [e] at h0
      exact absurd h0 (by decide)
    obtain ⟨_, f2, _, _, f5, _⟩ := find_free_bit_sound d s l n hs hl hsl hn hne
    exact ⟨f2, f5⟩
  · intro hne
    obtain ⟨a1, a2, a3, _⟩ := allocate_inode_spec sb d hlay hne
    exact ⟨a1, a2, a3⟩
  · intro hne
    obtain ⟨i, i1, i2, i3, i4, _⟩ := allocate_data_block_spec sb d hlay hne
    rw [i3]
    refine ⟨by omega, by omega, ?_⟩
    have e : sb.data_region_addr + i - sb.data_region_addr = i := by omega
    rw [e]
    exact i4

set_option maxRecDepth 100000 in
/-- Witness of C24: the layout `demo_sb` on the empty image, where inode 1 and
block 5 are the next to be handed out. -/
theorem allocator_soundness_witness :
    layout_ok demo_sb ∧ (allocate_inode demo_sb fresh_image).1 = 1 ∧
      (allocate_data_block demo_sb fresh_image).1 = 5 ∧
      ((∀ bitmap_start bitmap_len num_bits : Int, 0 ≤ bitmap_start → 0 ≤ bitmap_len →
        bitmap_start + bitmap_len ≤ 524287 → num_bits ≤ bitmap_len * 32768 →
        0 ≤ find_free_bit fresh_image bitmap_start bitmap_len num_bits →
        find_free_bit fresh_image bitmap_start bitmap_len num_bits < num_bits ∧
          bitmap_bit fresh_image bitmap_start
            (find_free_bit fresh_image bitmap_start bitmap_len num_bits).toNat = false) ∧
      ((allocate_inode demo_sb fresh_image).1 ≠ -1 →
        0 ≤ (allocate_inode demo_sb fresh_image).1 ∧
          (allocate_inode demo_sb fresh_image).1 < demo_sb.num_inodes ∧
          bitmap_bit fresh_image demo_sb.inode_bitmap_addr
            (allocate_inode demo_sb fresh_image).1.toNat = false) ∧
      ((allocate_data_block demo_sb fresh_image).1 ≠ -1 →
        demo_sb.data_region_addr ≤ (allocate_data_block demo_sb fresh_image).1 ∧
          (allocate_data_block demo_sb fresh_image).1
            < demo_sb.data_region_addr + demo_sb.num_data ∧
          bitmap_bit fresh_image demo_sb.data_bitmap_addr
            ((allocate_data_block demo_sb fresh_image).1 - demo_sb.data_region_addr).toNat
            = false)) :=
  ⟨by decide, by decide, by decide, allocator_soundness demo_sb fresh_image (by decide)⟩

end NFS

namespace NFS

/-! ## Creating a name that exists -/

/-- Claim C25 (amended). Let `pinum` be a directory whose scanned blocks can all be read and
hold a live entry named `name`, a name of at most 27 characters, the live
entries of that name carrying inode numbers (values `>= 0`).  Then
`MFS_Creat(pinum, type, name)`, for either type, returns 0 and leaves the whole
image as it was: nothing is allocated and nothing is written. -/
theorem MFS_Creat_existing_name (sb : super_t) (d : Disk) (junk : Nat → Nat)
    (pinum type : Int) (name : List Nat) (pino : inode_t)
    (hino : get_inode sb d pinum = some pino) (hdir : pino.type = UFS_DIRECTORY)
    (htype : type = UFS_REGULAR_FILE ∨ type = UFS_DIRECTORY) (hname : name.length ≤ 27)
    (hio : ∀ b ∈ scanned_blocks pino, (read_block d b).isSome = true)
    (hlive : ∃ e ∈ scanned_entries d pino, live_named name e = true)
    (hnum : ∀ e ∈ scanned_entries d pino, live_named name e = true → 0 ≤ ent_inum e.1 e.2) :
    MFS_Creat sb d junk pinum type name = (0, d) := by
  have hp0 : ¬ pinum < 0 := by
    intro h
    unfold get_inode at hino
    rw [if_pos (Or.inl h)] at hino
    exact Option.noConfusion hino
  have hlook : MFS_Lookup sb d pinum name ≥ 0 := by
    rw [MFS_Lookup_of_get_inode name hino hdir, lookup_blocks_eq d name pino.direct hio]
    obtain ⟨e, he, hl⟩ := hlive
    cases hf : ((pino.direct.takeWhile (fun b => decide (b ≠ -1))).flatMap
        (block_entries d)).find? (live_named name) with
    | none =>
      have := List.find?_eq_none.mp hf e he
      rw [hl] at this
      exact absurd rfl this
    | some e1 =>
      simp only
      exact hnum e1 (List.mem_of_find?_eq_some hf) (List.find?_some hf)
  have hc : ¬ (pinum < 0 ∨ (type ≠ UFS_REGULAR_FILE ∧ type ≠ UFS_DIRECTORY)
      ∨ name.length > 27) := by
    rintro (h | ⟨h1, h2⟩ | h)
    · exact hp0 h
    · rcases htype with e | e
      · exact h1 e
      · exact h2 e
    · omega
  unfold MFS_Creat
  rw [if_neg hc]
  simp only [hino]
  rw [if_neg (by simp [hdir]), if_pos hlook]

set_option maxRecDepth 100000 in
/-- Witness of C25: in `one_file_image` the root directory holds the file `f`;
creating `f` again, as a directory, returns 0 and changes nothing. -/
theorem MFS_Creat_existing_name_witness :
    get_inode demo_sb one_file_image 0
        = some { type := 0, size := 96, direct := 4 :: List.replicate 29 (-1) } ∧
      (∃ e ∈ scanned_entries one_file_image
          { type := 0, size := 96, direct := 4 :: List.replicate 29 (-1) },
        live_named [102] e = true) ∧
      MFS_Creat demo_sb one_file_image free_junk 0 UFS_DIRECTORY [102] = (0, one_file_image) :=
  ⟨by decide, by decide,
    MFS_Creat_existing_name demo_sb one_file_image free_junk 0 UFS_DIRECTORY [102]
      { type := 0, size := 96, direct := 4 :: List.replicate 29 (-1) }
      (by decide) (by decide) (by decide) (by decide) (by decide) (by decide) (by decide)⟩

end NFS

namespace NFS

/-! ## Inputs on which the unqualified properties fail -/

set_option maxRecDepth 100000 in
/-- Counterexample to C5 as stated: in `unreadable_block_image` the root inode's
direct slots are `[100, 4, -1, ...]`, so the blocks before the first `-1` are 100
and 4, and block 4 holds the live entry `.`; block 100 lies beyond the end of the
image, its read fails, and `MFS_Lookup(0, ".")` returns -1 although such an entry
exists in those blocks. -/
theorem MFS_Lookup_unreadable_block_hides_entry :
    read_inode demo_sb unreadable_block_image 0
        = some { type := 0, size := 64, direct := 100 :: 4 :: List.replicate 28 (-1) } ∧
      (read_block unreadable_block_image 100).isSome = false ∧
      (∃ e ∈ scanned_entries unreadable_block_image
          { type := 0, size := 64, direct := 100 :: 4 :: List.replicate 28 (-1) },
        live_named [46] e = true) ∧
      MFS_Lookup demo_sb unreadable_block_image 0 [46] = -1 := by
  decide

set_option maxRecDepth 100000 in
set_option maxHeartbeats 4000000 in
/-- Counterexample to C7 as stated: in `dir_d_image` the root holds the directory
`d` (inode 2).  `MFS_Unlink(2, ".")` removes the entry `.` of `d` and brings its
size to 32; `MFS_Creat(2, UFS_REGULAR_FILE, "x")` then succeeds and leaves `d`
with the live child `x` (inode 1) and size 64.  `MFS_Unlink(0, "d")` on that
image returns 0, not an error: the size test passes, the child's inode is freed
and the entry `d` is removed. -/
theorem MFS_Unlink_directory_with_child_succeeds :
    (MFS_Unlink demo_sb 0 dir_d_image 2 [46]).map Prod.fst = some 0 ∧
      (MFS_Creat demo_sb d_without_dot_image free_junk 2 UFS_REGULAR_FILE [120]).1 = 0 ∧
      MFS_Lookup demo_sb d_with_child_image 0 [100] = 2 ∧
      MFS_Lookup demo_sb d_with_child_image 2 [120] = 1 ∧
      (get_inode demo_sb d_with_child_image 2).map (fun i => (i.type, i.size))
        = some (UFS_DIRECTORY, 64) ∧
      bitmap_bit d_with_child_image demo_sb.inode_bitmap_addr 1 = true ∧
      (MFS_Unlink demo_sb 0 d_with_child_image 0 [100]).map Prod.fst = some 0 ∧
      bitmap_bit d_removed_image demo_sb.inode_bitmap_addr 1 = false ∧
      MFS_Lookup demo_sb d_removed_image 0 [100] = -1 := by
  decide

set_option maxRecDepth 100000 in
set_option maxHeartbeats 4000000 in
/-- Counterexample to C12 as stated: in `root_unlinked_image` the root directory
has size 32 and one live entry (`..`), so its size counts its live entries, but
its block 4 and its inode are marked free.  `MFS_Creat(0, UFS_DIRECTORY, "d")`
returns 0 and adds the entry `d`; it is handed inode 0 and block 4 for the new
directory and writes `.` and `..` into the root's own block.  Afterwards the root
has size 64 and three live entries. -/
theorem MFS_Creat_breaks_size_accounting :
    get_inode demo_sb root_unlinked_image 0
        = some { type := 0, size := 32, direct := 4 :: List.replicate 29 (-1) } ∧
      live_entries root_unlinked_image
        { type := 0, size := 32, direct := 4 :: List.replicate 29 (-1) } = 1 ∧
      bitmap_bit root_unlinked_image demo_sb.data_bitmap_addr 0 = false ∧
      MFS_Lookup demo_sb root_unlinked_image 0 [100] = -1 ∧
      (MFS_Creat demo_sb root_unlinked_image free_junk 0 UFS_DIRECTORY [100]).1 = 0 ∧
      get_inode demo_sb root_recreated_image 0
        = some { type := 0, size := 64, direct := 4 :: List.replicate 29 (-1) } ∧
      live_entries root_recreated_image
        { type := 0, size := 64, direct := 4 :: List.replicate 29 (-1) } = 3 := by
  decide

set_option maxRecDepth 100000 in
/-- Counterexample to C17 as stated: in `aliased_file_image` the file of inode 1
(size 8192) has block 5 in both direct slot 0 and direct slot 1.  A read of the
file's first two bytes returns `hi`; `MFS_Write` of `XY` at offset 4096 returns 2;
the same read then returns `XY`, although positions 0 and 1 lie outside
`[4096, 4098)` and below the old size.  And on the well-formed file of
`hello_file_image` (size 5), after `XY` is written at offset 8192, beyond the old
size, a read of the range `[0, 8194)` stops at the absent block of direct slot 1
and returns 4096 bytes, none of them the new ones. -/
theorem MFS_Write_aliased_block_changes_other_bytes :
    (get_inode demo_sb aliased_file_image 1).map (fun i => (i.type, i.size, i.direct.take 3))
        = some (UFS_REGULAR_FILE, 8192, [5, 5, -1]) ∧
      MFS_Read demo_sb aliased_file_image 1 0 2 = (2, [104, 105]) ∧
      (MFS_Write demo_sb aliased_file_image 1 [88, 89] 4096 2).1 = 2 ∧
      MFS_Read demo_sb (MFS_Write demo_sb aliased_file_image 1 [88, 89] 4096 2).2 1 0 2
        = (2, [88, 89]) ∧
      (MFS_Write demo_sb hello_file_image 1 [88, 89] 8192 2).1 = 2 ∧
      (MFS_Read demo_sb (MFS_Write demo_sb hello_file_image 1 [88, 89] 8192 2).2 1 0 8194).1
        = 4096 := by
  decide

set_option maxRecDepth 100000 in
/-- Counterexample to C25 as stated: in `negative_inum_image` the root directory
holds a live entry named `a` (its `inum` field, -2, is not `-1`).
`MFS_Lookup(0, "a")` returns -2, which `MFS_Creat` takes for "not found":
`MFS_Creat(0, UFS_REGULAR_FILE, "a")` returns 0 but allocates inode 1 (byte 4096
of the inode bitmap goes from 1 to 3) and raises the root's size from 96 to
128. -/
theorem MFS_Creat_existing_name_negative_inum :
    (get_inode demo_sb negative_inum_image 0).map (fun i => (i.type, i.size, i.direct.take 2))
        = some (UFS_DIRECTORY, 96, [4, -1]) ∧
      (∃ e ∈ scanned_entries negative_inum_image
          { type := 0, size := 96, direct := 4 :: List.replicate 29 (-1) },
        live_named [97] e = true) ∧
      MFS_Lookup demo_sb negative_inum_image 0 [97] = -2 ∧
      (MFS_Creat demo_sb negative_inum_image free_junk 0 UFS_REGULAR_FILE [97]).1 = 0 ∧
      (negative_inum_image.byte 4096).val = 1 ∧
      ((MFS_Creat demo_sb negative_inum_image free_junk 0 UFS_REGULAR_FILE [97]).2.byte
        4096).val = 3 ∧
      (get_inode demo_sb (MFS_Creat demo_sb negative_inum_image free_junk 0 UFS_REGULAR_FILE
        [97]).2 0).map (fun i => i.size) = some 128 := by
  decide

end NFS

namespace NFS

/-! ## Evaluations on concrete images -/

set_option maxRecDepth 100000 in
/-- Claim C3 (code defect). On an inode bitmap whose first byte is `0xFF` and whose
second byte is zero, bit 8 is free, yet `find_free_bit` over 16 bits answers `-1`:
the scan stages only the first byte of each bitmap block and tests every bit
index of the block against it. -/
theorem find_free_bit_skips_later_bytes :
    bitmap_bit eight_inodes_image 1 8 = false
      ∧ find_free_bit eight_inodes_image 1 1 16 = -1 := by
  decide

set_option maxRecDepth 100000 in
/-- Claim C9 (code defect). A file whose data block sits in direct slot 1, slot 0
being absent (as `MFS_Write` at offset 4096 leaves it), is unlinked with return
value 0, and the data-bitmap bit of its block (block 5, bit 1) is still set: the
freeing loop stops at the first absent slot. -/
theorem MFS_Unlink_leaks_block_after_hole :
    (get_inode demo_sb sparse_file_image 1).map (fun ino => (ino.type, ino.direct.take 3))
        = some (UFS_REGULAR_FILE, [-1, 5, -1])
      ∧ bitmap_bit sparse_file_image 2 1 = true
      ∧ (MFS_Unlink demo_sb 0 sparse_file_image 0 [102]).map Prod.fst = some 0
      ∧ (MFS_Unlink demo_sb 0 sparse_file_image 0 [102]).map
          (fun r => (bitmap_bit r.2 2 1, bitmap_bit r.2 1 1)) = some (true, false) := by
  decide

set_option maxRecDepth 100000 in
/-- Claim C10 (code defect). `MFS_Creat(0, UFS_DIRECTORY, "d")` on the empty image
returns 0 and makes inode 1 a directory of size 64 with block 5; when the memory
under the two-entry array `entries` is zero, entry slot 2 of that block has
`inum` 0, not `-1`: the block is written from an array of two entries only. -/
theorem MFS_Creat_directory_block_not_cleared :
    (MFS_Creat demo_sb fresh_image zero_junk 0 UFS_DIRECTORY [100]).1 = 0
      ∧ get_inode demo_sb zero_junk_dir_image 1
          = some { type := UFS_DIRECTORY, size := 64, direct := 5 :: List.replicate 29 (-1) }
      ∧ (read_block zero_junk_dir_image 5).map
          (fun e => (ent_inum e 0, ent_inum e 1, ent_inum e 2)) = some (1, 0, 0) := by
  decide

set_option maxRecDepth 100000 in
/-- Claim C2 (code defect). From the empty image, `MFS_Creat(0, UFS_DIRECTORY, "d")`
makes inode 1, `MFS_Unlink(1, ".")` returns 0 and frees inode 1 while the root
still names it, and `MFS_Creat(0, UFS_REGULAR_FILE, "f")` returns 0 and is given
inode 1 again: the live root entries `d` and `f` name the same inode number. -/
theorem MFS_Unlink_dot_then_creat_shares_inode :
    (MFS_Creat demo_sb fresh_image free_junk 0 UFS_DIRECTORY [100]).1 = 0
      ∧ MFS_Lookup demo_sb one_dir_image 0 [100] = 1
      ∧ (MFS_Unlink demo_sb 0 one_dir_image 1 [46]).map Prod.fst = some 0
      ∧ (MFS_Creat demo_sb self_unlinked_image free_junk 0 UFS_REGULAR_FILE [102]).1 = 0
      ∧ MFS_Lookup demo_sb reused_inode_image 0 [100] = 1
      ∧ MFS_Lookup demo_sb reused_inode_image 0 [102] = 1 := by
  decide

end NFS
